import Mathlib

/-!
Verification of the graph-search strategies of `jelib` (module
`src/jelib/pathfind/search_algorithms.py`) against its specification.

Shallow embedding conventions:
* Nodes are natural numbers (the code treats nodes as opaque, hashable,
  totally ordered identifiers).
* A graph supplies, per node, an ordered list of neighbours (`adj`) and an
  optional edge weight (`weight`); a missing weight defaults to `1`, exactly as
  `graph[u][v].get("weight", 1)` does in the source.
* `heapq` pops the lexicographically least tuple; this is modelled by `popMin`
  with a lexicographic key mirroring Python tuple/list comparison.
* Each `while` loop becomes a fuel-indexed recursion.  The outcome type
  distinguishes fuel exhaustion (`none`) from the loop's own two outcomes
  (`some none` = the Python `return None`, `some (some p)` = a found path);
  the chosen fuels are proven sufficient on well-formed graphs, so exhaustion
  never occurs there.
* The `report` callback is a pure sink; runs return the list of expansion
  events (expanded node, g-cost, h-cost, path-so-far) instead of calling it.
  The frontier snapshot passed to `report` is diagnostic output only and is
  not modelled.
-/

namespace JeLib

/-- A finite graph as the search strategies consume it: a node list, an
ordered neighbour enumeration, and optional edge weights. -/
structure Graph where
  nodes : List Nat
  adj : Nat → List Nat
  weight : Nat → Nat → Option Nat

/-- Edge weight lookup, `graph[a][b].get("weight", 1)` in the source. -/
def Graph.w (g : Graph) (a b : Nat) : Nat :=
  (g.weight a b).getD 1

/-- Well-formedness: nodes absent from the graph have no neighbours, and all
neighbours are themselves nodes of the graph. -/
def Graph.WF (g : Graph) : Prop :=
  (∀ v, v ∉ g.nodes → g.adj v = []) ∧ (∀ a b, b ∈ g.adj a → b ∈ g.nodes)

/-- Symmetry of the neighbour relation (the repository always builds
undirected `networkx` graphs). -/
def Graph.Sym (g : Graph) : Prop :=
  ∀ a b, b ∈ g.adj a → a ∈ g.adj b

/-- One expansion event as passed to the `report` callback: the expanded node,
its g-cost and h-cost (absent for uninformed strategies), and the path so
far. -/
structure Event where
  node : Nat
  gval : Option Nat
  hval : Option Nat
  path : List Nat
deriving DecidableEq, Repr

/-- The zero heuristic, the default supplied by `GraphTracer`. -/
def zeroH : Nat → Nat := fun _ => 0

/-- Consecutive members of the list are joined by an edge of `g`. -/
def chainB (g : Graph) : List Nat → Bool
  | [] => true
  | [_] => true
  | a :: b :: r => decide (b ∈ g.adj a) && chainB g (b :: r)

/-- A path in the sense of the spec: a non-empty node sequence whose
consecutive members are joined by an edge, starting at `s`, ending at `t`. -/
def IsPath (g : Graph) (p : List Nat) (s t : Nat) : Prop :=
  p ≠ [] ∧ p.head? = some s ∧ p.getLast? = some t ∧ chainB g p = true

instance (g : Graph) (p : List Nat) (s t : Nat) : Decidable (IsPath g p s t) := by
  unfold IsPath
  infer_instance

/-- Total weight of a path: the sum of the weights of its consecutive edges. -/
def cost (g : Graph) : List Nat → Nat
  | a :: b :: r => g.w a b + cost g (b :: r)
  | _ => 0

/-- There is a path from `s` to `t` in `g`. -/
def Reachable (g : Graph) (s t : Nat) : Prop :=
  ∃ p, IsPath g p s t

/-- Least total weight of any path from `s` to `t` (0 if there is none).
A specification-level quantity, not part of the embedded code. -/
noncomputable def dist (g : Graph) (s t : Nat) : Nat :=
  sInf { c | ∃ p, IsPath g p s t ∧ cost g p = c }

/-- Least node count of any path from `s` to `t` minus one, i.e. the least
edge count (0 if there is none).  A specification-level quantity, not part of
the embedded code. -/
noncomputable def edist (g : Graph) (s t : Nat) : Nat :=
  sInf { k | ∃ p, IsPath g p s t ∧ p.length = k + 1 }

/-- Leftmost minimum of `x :: xs` under `key`. -/
def selMin {α β : Type} [LinearOrder β] (key : α → β) (x : α) (xs : List α) : α :=
  xs.foldl (fun b a => if key a < key b then a else b) x

/-- Remove-and-return a minimal element, the model of `heapq.heappop`: the
heap is a list, the pop takes an element with the least key. -/
def popMin {α β : Type} [DecidableEq α] [LinearOrder β] (key : α → β) :
    List α → Option (α × List α)
  | [] => none
  | x :: xs => some (selMin key x xs, (x :: xs).erase (selMin key x xs))

/-- Frontier entry of `ucs` and `greedy_search`: a `(priority, node, path)`
tuple as pushed onto the Python heap. -/
abbrev Entry3 := Nat × Nat × List Nat

/-- Frontier entry of `a_star`: an `(f, g, node, path)` tuple. -/
abbrev Entry4 := Nat × Nat × Nat × List Nat

/-- Stack/queue entry of `dfs`, `bfs` and `bidirectional_search`:
a `(node, path)` pair. -/
abbrev Entry2 := Nat × List Nat

/-- Python tuple comparison key for three-component heap entries. -/
def key3 (e : Entry3) : Lex (Nat × Lex (Nat × List Nat)) :=
  toLex (e.1, toLex (e.2.1, e.2.2))

/-- Python tuple comparison key for four-component heap entries. -/
def key4 (e : Entry4) : Lex (Nat × Lex (Nat × Lex (Nat × List Nat))) :=
  toLex (e.1, toLex (e.2.1, toLex (e.2.2.1, e.2.2.2)))

/-- Association-list lookup, the model of Python `dict` access. -/
def alook {α : Type} : List (Nat × α) → Nat → Option α
  | [], _ => none
  | (a, v) :: r, c => if c = a then some v else alook r c

/-- Sum of the neighbour-list lengths over the (deduplicated) node list. -/
def degSum (g : Graph) : Nat :=
  (g.nodes.dedup.map fun v => (g.adj v).length).sum

/-- Sum of the neighbour-list lengths over the not-yet-visited nodes; the
termination measure of the single-visit loops. -/
def remDeg (g : Graph) (vis : List Nat) : Nat :=
  ((g.nodes.dedup.filter fun v => v ∉ vis).map fun v => (g.adj v).length).sum

/-!  ### Depth-first search (`dfs`, lines 9-44)  -/

/-- Loop of `dfs`: pop the top of the stack, skip if visited, report, return
on goal, else push the unseen neighbours (the source pushes
`reversed(graph.neighbors(current))` on an array stack whose top is its end,
so the head-of-list top receives the neighbours in enumeration order). -/
def dfsLoop (g : Graph) (goal : Nat) :
    Nat → List Entry2 → List Nat → List Event →
    List Event × Option (Option (List Nat))
  | 0, _, _, evs => (evs, none)
  | fuel + 1, st, vis, evs =>
    match st with
    | [] => (evs, some none)
    | (cur, path) :: rest =>
      if cur ∈ vis then dfsLoop g goal fuel rest vis evs
      else
        let vis2 := cur :: vis
        let ev : Event := ⟨cur, none, none, path⟩
        if cur = goal then (evs ++ [ev], some (some path))
        else
          let fnodes := rest.map Prod.fst
          let pushes := (g.adj cur).filterMap fun nb =>
            if nb ∈ vis2 ∨ nb ∈ fnodes then none else some (nb, path ++ [nb])
          dfsLoop g goal fuel (pushes ++ rest) vis2 (evs ++ [ev])

/-- Fuel sufficient for `dfsLoop` on well-formed graphs. -/
def dfsFuel (g : Graph) : Nat := degSum g + 2

/-- Run of `dfs` from the initial state `stack = [(start, [start])]`,
returning the emitted events and the outcome. -/
def dfsRun (g : Graph) (s t : Nat) (h : Nat → Nat) :
    List Event × Option (Option (List Nat)) :=
  dfsLoop g t (dfsFuel g) [(s, [s])] [] []

/-- `dfs(graph, start, goal, heuristic, report)`: the returned path, `none`
for the Python `return None` (the heuristic is accepted and ignored, as in
the source). -/
def dfs (g : Graph) (s t : Nat) (h : Nat → Nat) : Option (List Nat) :=
  (dfsRun g s t h).2.join

/-!  ### Breadth-first search (`bfs`, lines 108-143)  -/

/-- Loop of `bfs`: identical bookkeeping to `dfs`, but the frontier is a FIFO
queue (pop at the head, append pushes at the tail, neighbours in enumeration
order). -/
def bfsLoop (g : Graph) (goal : Nat) :
    Nat → List Entry2 → List Nat → List Event →
    List Event × Option (Option (List Nat))
  | 0, _, _, evs => (evs, none)
  | fuel + 1, q, vis, evs =>
    match q with
    | [] => (evs, some none)
    | (cur, path) :: rest =>
      if cur ∈ vis then bfsLoop g goal fuel rest vis evs
      else
        let vis2 := cur :: vis
        let ev : Event := ⟨cur, none, none, path⟩
        if cur = goal then (evs ++ [ev], some (some path))
        else
          let fnodes := rest.map Prod.fst
          let pushes := (g.adj cur).filterMap fun nb =>
            if nb ∈ vis2 ∨ nb ∈ fnodes then none else some (nb, path ++ [nb])
          bfsLoop g goal fuel (rest ++ pushes) vis2 (evs ++ [ev])

/-- Fuel sufficient for `bfsLoop` on well-formed graphs. -/
def bfsFuel (g : Graph) : Nat := degSum g + 2

/-- Run of `bfs` from `queue = deque([(start, [start])])`. -/
def bfsRun (g : Graph) (s t : Nat) (h : Nat → Nat) :
    List Event × Option (Option (List Nat)) :=
  bfsLoop g t (bfsFuel g) [(s, [s])] [] []

/-- `bfs(graph, start, goal, heuristic, report)`. -/
def bfs (g : Graph) (s t : Nat) (h : Nat → Nat) : Option (List Nat) :=
  (bfsRun g s t h).2.join

/-!  ### Uniform-cost search (`ucs`, lines 146-185)  -/

/-- Loop of `ucs`: pop the least `(g, node, path)` entry, lazy-skip visited
nodes, report, return on goal, else push `(g + w, nb, path ++ [nb])` for every
unvisited neighbour (no frontier deduplication, unlike `dfs`/`bfs`). -/
def ucsLoop (g : Graph) (goal : Nat) :
    Nat → List Entry3 → List Nat → List Event →
    List Event × Option (Option (List Nat))
  | 0, _, _, evs => (evs, none)
  | fuel + 1, fr, vis, evs =>
    match popMin key3 fr with
    | none => (evs, some none)
    | some ((gc, cur, path), fr2) =>
      if cur ∈ vis then ucsLoop g goal fuel fr2 vis evs
      else
        let vis2 := cur :: vis
        let ev : Event := ⟨cur, some gc, none, path⟩
        if cur = goal then (evs ++ [ev], some (some path))
        else
          let pushes := (g.adj cur).filterMap fun nb =>
            if nb ∈ vis2 then none else some (gc + g.w cur nb, nb, path ++ [nb])
          ucsLoop g goal fuel (fr2 ++ pushes) vis2 (evs ++ [ev])

/-- Fuel sufficient for `ucsLoop` on well-formed graphs. -/
def ucsFuel (g : Graph) : Nat := degSum g + 2

/-- Run of `ucs` from `frontier = [(0, start, [start])]`. -/
def ucsRun (g : Graph) (s t : Nat) (h : Nat → Nat) :
    List Event × Option (Option (List Nat)) :=
  ucsLoop g t (ucsFuel g) [(0, s, [s])] [] []

/-- `ucs(graph, start, goal, heuristic, report)`. -/
def ucs (g : Graph) (s t : Nat) (h : Nat → Nat) : Option (List Nat) :=
  (ucsRun g s t h).2.join

/-!  ### Greedy best-first search (`greedy_search`, lines 300-343)  -/

/-- Loop of `greedy_search`: pop the least `(h, node, path)` entry, skip
visited, report, return on goal, else push `(h nb, nb, path ++ [nb])` for
neighbours that are neither visited nor already on the frontier. -/
def greedyLoop (g : Graph) (goal : Nat) (h : Nat → Nat) :
    Nat → List Entry3 → List Nat → List Event →
    List Event × Option (Option (List Nat))
  | 0, _, _, evs => (evs, none)
  | fuel + 1, fr, vis, evs =>
    match popMin key3 fr with
    | none => (evs, some none)
    | some ((_, cur, path), fr2) =>
      if cur ∈ vis then greedyLoop g goal h fuel fr2 vis evs
      else
        let vis2 := cur :: vis
        let ev : Event := ⟨cur, none, some (h cur), path⟩
        if cur = goal then (evs ++ [ev], some (some path))
        else
          let fnodes := fr2.map fun e => e.2.1
          let pushes := (g.adj cur).filterMap fun nb =>
            if nb ∈ vis2 ∨ nb ∈ fnodes then none else some (h nb, nb, path ++ [nb])
          greedyLoop g goal h fuel (fr2 ++ pushes) vis2 (evs ++ [ev])

/-- Fuel sufficient for `greedyLoop` on well-formed graphs. -/
def greedyFuel (g : Graph) : Nat := degSum g + 2

/-- Run of `greedy_search` from `frontier = [(h start, start, [start])]`. -/
def greedyRun (g : Graph) (s t : Nat) (h : Nat → Nat) :
    List Event × Option (Option (List Nat)) :=
  greedyLoop g t h (greedyFuel g) [(h s, s, [s])] [] []

/-- `greedy_search(graph, start, goal, heuristic, report)`. -/
def greedy_search (g : Graph) (s t : Nat) (h : Nat → Nat) : Option (List Nat) :=
  (greedyRun g s t h).2.join

/-!  ### A* search (`a_star`, lines 248-297)  -/

/-- The skip test of `a_star`:
`current in visited and g >= visited[current]`. -/
def aSkip (o : Option Nat) (gc : Nat) : Bool :=
  match o with
  | none => false
  | some gv => gv ≤ gc

/-- Loop of `a_star`: pop the least `(f, g, node, path)` entry; skip when the
node was already finalized with a g-cost `≤ g`, else (re-)finalize it at `g`,
report, return on goal, and push all neighbours unconditionally with
`f = g + w + h`. -/
def aLoop (g : Graph) (goal : Nat) (h : Nat → Nat) :
    Nat → List Entry4 → List (Nat × Nat) → List Event →
    List Event × Option (Option (List Nat))
  | 0, _, _, evs => (evs, none)
  | fuel + 1, fr, vis, evs =>
    match popMin key4 fr with
    | none => (evs, some none)
    | some ((_, gc, cur, path), fr2) =>
      if aSkip (alook vis cur) gc then aLoop g goal h fuel fr2 vis evs
      else
        let vis2 := (cur, gc) :: vis
        let ev : Event := ⟨cur, some gc, some (h cur), path⟩
        if cur = goal then (evs ++ [ev], some (some path))
        else
          let pushes := (g.adj cur).map fun nb =>
            (gc + g.w cur nb + h nb, gc + g.w cur nb, nb, path ++ [nb])
          aLoop g goal h fuel (fr2 ++ pushes) vis2 (evs ++ [ev])

/-- Largest edge weight reachable through the well-formed adjacency lists. -/
def maxW (g : Graph) : Nat :=
  (g.nodes.map fun a => ((g.adj a).map (g.w a)).foldr max 0).foldr max 0

/-- Largest neighbour-list length over the nodes. -/
def maxDeg (g : Graph) : Nat :=
  (g.nodes.map fun v => (g.adj v).length).foldr max 0

/-- Upper bound on the cost of any duplicate-free path of `g`. -/
def gBound (g : Graph) : Nat :=
  g.nodes.dedup.length * maxW g

/-- Potential of the finalized map: how much more finalizing work `a_star`
can still do (each node's finalized g-cost only ever strictly decreases and
is bounded by `gBound`; the extra summand accounts for a start node outside
the graph, which can be finalized once). -/
def aCap (g : Graph) (s : Nat) (vis : List (Nat × Nat)) : Nat :=
  (∑ v ∈ g.nodes.toFinset, (match alook vis v with
    | some gv => gv
    | none => gBound g + 1)) +
  (if s ∈ g.nodes then 0 else match alook vis s with
    | some _ => 0
    | none => 1)

/-- Fuel sufficient for `aLoop` on well-formed graphs. -/
def aFuel (g : Graph) (s : Nat) : Nat :=
  aCap g s [] * (maxDeg g + 1) + 2

/-- Run of `a_star` from
`frontier = [(0 + h start, 0, start, [start])]`, `visited = {}`. -/
def aRun (g : Graph) (s t : Nat) (h : Nat → Nat) :
    List Event × Option (Option (List Nat)) :=
  aLoop g t h (aFuel g s) [(0 + h s, 0, s, [s])] [] []

/-- `a_star(graph, start, goal, heuristic, report)`. -/
def a_star (g : Graph) (s t : Nat) (h : Nat → Nat) : Option (List Nat) :=
  (aRun g s t h).2.join

/-!  ### Depth-limited and iterative-deepening DFS (lines 47-105)  -/

mutual

/-- `depth_limited_dfs(graph, current, goal, limit, path, visited, report)`:
return the path on goal, `none` on an exhausted budget, else mark `current`
visited and recurse into its unvisited neighbours with budget `limit - 1`
(the source un-marks `current` on failure; functionally, failed calls simply
leave the caller's `visited` unchanged). -/
def depth_limited_dfs (g : Graph) (goal : Nat) :
    Nat → Nat → List Nat → List Nat → Option (List Nat)
  | limit, current, path, visited =>
    if current = goal then some path
    else match limit with
      | 0 => none
      | lim + 1 => dldfsNbrs g goal lim (g.adj current) path (current :: visited)
termination_by limit _ _ _ => (limit, 0)

/-- Neighbour loop of `depth_limited_dfs`: try the neighbours in order,
returning the first successful recursive result. -/
def dldfsNbrs (g : Graph) (goal : Nat) :
    Nat → List Nat → List Nat → List Nat → Option (List Nat)
  | _, [], _, _ => none
  | lim, nb :: rest, path, visited =>
    if nb ∈ visited then dldfsNbrs g goal lim rest path visited
    else match depth_limited_dfs g goal lim nb (path ++ [nb]) visited with
      | some r => some r
      | none => dldfsNbrs g goal lim rest path visited
termination_by lim l _ _ => (lim, l.length + 1)

end

/-- The `while True` loop of `iterative_deepening_dfs`, fuel-indexed: try
depth limits `depth, depth + 1, ...` for at most `fuel` outer iterations. -/
def iddfsAux (g : Graph) (s t : Nat) : Nat → Nat → Option (List Nat)
  | 0, _ => none
  | n + 1, depth =>
    match depth_limited_dfs g t depth s [s] [] with
    | some r => some r
    | none => iddfsAux g s t n (depth + 1)

/-- `iterative_deepening_dfs(graph, start, goal, heuristic, report)`,
truncated to `fuel` outer iterations of its unbounded `while True` loop. -/
def iterative_deepening_dfs (g : Graph) (s t : Nat) (h : Nat → Nat)
    (fuel : Nat) : Option (List Nat) :=
  iddfsAux g s t fuel 0

/-- The unbounded `while True` loop of `iterative_deepening_dfs` returns `r`:
some finite number of outer iterations produces `r`. -/
def IDDFSReturns (g : Graph) (s t : Nat) (r : List Nat) : Prop :=
  ∃ fuel, iddfsAux g s t fuel 0 = some r

/-- The unbounded `while True` loop of `iterative_deepening_dfs` never
terminates: no number of outer iterations produces a result. -/
def IDDFSDiverges (g : Graph) (s t : Nat) : Prop :=
  ∀ fuel, iddfsAux g s t fuel 0 = none

/-!  ### Bidirectional search (`bidirectional_search`, lines 188-240)  -/

/-- Neighbour loop of `expand_frontier` (lines 200-219): record each
neighbour absent from this side's visited map, enqueue it, and if the other
side has already recorded it, stop with the meeting event and the assembled
path.  In both directions the source assembles
`self_path + other_path[-2::-1]`, i.e. the freshly recorded path of this side
followed by the reversed other-side path with the duplicated meeting node
dropped. -/
def bexpList (g : Graph) (vother : List (Nat × List Nat)) (path : List Nat) :
    List Nat → List Entry2 → List (Nat × List Nat) →
    List Entry2 × List (Nat × List Nat) × Option (Event × List Nat)
  | [], fr, vself => (fr, vself, none)
  | nb :: rest, fr, vself =>
    if (alook vself nb).isSome then bexpList g vother path rest fr vself
    else
      let np := path ++ [nb]
      let vself2 := (nb, np) :: vself
      let fr2 := fr ++ [(nb, np)]
      match alook vother nb with
      | some pOther =>
        (fr2, vself2, some (⟨nb, none, none, np⟩, np ++ pOther.dropLast.reverse))
      | none => bexpList g vother path rest fr2 vself2

/-- Loop of `bidirectional_search` (lines 231-238): while both frontiers are
non-empty, expand one node forward then one node backward; on exit without a
meeting, return `none` together with the final frontiers. -/
def bidirLoop (g : Graph) :
    Nat → List Entry2 → List Entry2 →
    List (Nat × List Nat) → List (Nat × List Nat) → List Event →
    List Event × Option (Option (List Nat) × List Entry2 × List Entry2)
  | 0, _, _, _, _, evs => (evs, none)
  | fuel + 1, fs, fg, vs, vg, evs =>
    match fs, fg with
    | (cur, path) :: fsr, (cur2, path2) :: fgr =>
      match bexpList g vg path (g.adj cur) fsr vs with
      | (fs1, _, some (ev, res)) => (evs ++ [ev], some (some res, fs1, fg))
      | (fs1, vs1, none) =>
        let evs1 := evs ++ [⟨cur, none, none, path⟩]
        match bexpList g vs1 path2 (g.adj cur2) fgr vg with
        | (fg1, _, some (ev2, res2)) => (evs1 ++ [ev2], some (some res2, fs1, fg1))
        | (fg1, vg1, none) =>
          bidirLoop g fuel fs1 fg1 vs1 vg1 (evs1 ++ [⟨cur2, none, none, path2⟩])
    | _, _ => (evs, some (none, fs, fg))

/-- Fuel sufficient for `bidirLoop` on well-formed graphs. -/
def bidirFuel (g : Graph) : Nat := g.nodes.dedup.length + 2

/-- Run of `bidirectional_search` from the initial single-entry frontiers and
visited maps `{start: [start]}` and `{goal: [goal]}`. -/
def bidirRun (g : Graph) (s t : Nat) (h : Nat → Nat) :
    List Event × Option (Option (List Nat) × List Entry2 × List Entry2) :=
  bidirLoop g (bidirFuel g) [(s, [s])] [(t, [t])] [(s, [s])] [(t, [t])] []

/-- `bidirectional_search(graph, start, goal, heuristic, report)`. -/
def bidirectional_search (g : Graph) (s t : Nat) (h : Nat → Nat) :
    Option (List Nat) :=
  match (bidirRun g s t h).2 with
  | none => none
  | some (r, _, _) => r

/-!  ### Concrete graphs used by the claims  -/

/-- The 4-node graph of the spec scenario: `A=0, B=1, C=2, D=3`, edges
`A-B (1)`, `B-D (1)`, `A-C (5)`, `C-D (1)`. -/
def exG : Graph where
  nodes := [0, 1, 2, 3]
  adj := fun v =>
    match v with
    | 0 => [1, 2]
    | 1 => [0, 3]
    | 2 => [0, 3]
    | 3 => [1, 2]
    | _ => []
  weight := fun a b =>
    match a, b with
    | 0, 1 => some 1
    | 1, 0 => some 1
    | 1, 3 => some 1
    | 3, 1 => some 1
    | 0, 2 => some 5
    | 2, 0 => some 5
    | 2, 3 => some 1
    | 3, 2 => some 1
    | _, _ => none

/-- The path graph `0 - 1 - 2`, unweighted. -/
def line3 : Graph where
  nodes := [0, 1, 2]
  adj := fun v =>
    match v with
    | 0 => [1]
    | 1 => [0, 2]
    | 2 => [1]
    | _ => []
  weight := fun _ _ => none

/-- A directed graph: edges `0 → 1` and `2 → 1` only. -/
def gDir : Graph where
  nodes := [0, 1, 2]
  adj := fun v =>
    match v with
    | 0 => [1]
    | 2 => [1]
    | _ => []
  weight := fun _ _ => none

/-- A single undirected edge `0 - 1`. -/
def gEdge : Graph where
  nodes := [0, 1]
  adj := fun v =>
    match v with
    | 0 => [1]
    | 1 => [0]
    | _ => []
  weight := fun _ _ => none

/-- Two isolated nodes `0` and `1`. -/
def gTwo : Graph where
  nodes := [0, 1]
  adj := fun _ => []
  weight := fun _ _ => none

/-- One isolated node `0`. -/
def gOne : Graph where
  nodes := [0]
  adj := fun _ => []
  weight := fun _ _ => none

/-- Three nodes with the single undirected edge `1 - 2`; node `0` is
isolated. -/
def gSplit : Graph where
  nodes := [0, 1, 2]
  adj := fun v =>
    match v with
    | 1 => [2]
    | 2 => [1]
    | _ => []
  weight := fun _ _ => none

/-- The 7-node undirected graph on which half-step alternation makes
`bidirectional_search` return a longer-than-shortest path: with
`s=0, t=1, a=2, b=3, p=4, v=5, q=6`, the edges are `s-a, a-b, b-t` (a
shortest path of 3 edges) and `s-p, p-v, v-q, q-t` (a detour of 4 edges),
with `p` enumerated before `a` and `q` before `b`. -/
def gSeven : Graph where
  nodes := [0, 1, 2, 3, 4, 5, 6]
  adj := fun v =>
    match v with
    | 0 => [4, 2]
    | 1 => [6, 3]
    | 2 => [0, 3]
    | 3 => [2, 1]
    | 4 => [0, 5]
    | 5 => [4, 6]
    | 6 => [5, 1]
    | _ => []
  weight := fun _ _ => none


/-!  ## Path, cost and distance lemmas  -/

theorem chainB_cons {g : Graph} {a b : Nat} {r : List Nat} :
    chainB g (a :: b :: r) = true ↔ b ∈ g.adj a ∧ chainB g (b :: r) = true := by
  simp [chainB]

theorem cost_cons (g : Graph) (x y : Nat) (r : List Nat) :
    cost g (x :: y :: r) = g.w x y + cost g (y :: r) := rfl

theorem exists_getLast? {p : List Nat} (hne : p ≠ []) : ∃ a, p.getLast? = some a := by
  induction p with
  | nil => exact absurd rfl hne
  | cons x r ih =>
    cases r with
    | nil => exact ⟨x, rfl⟩
    | cons y r2 =>
      obtain ⟨a, ha⟩ := ih (by simp)
      exact ⟨a, by rw [List.getLast?_cons_cons]; exact ha⟩

theorem getLast?_snoc (p : List Nat) (b : Nat) : (p ++ [b]).getLast? = some b := by
  induction p with
  | nil => rfl
  | cons x r ih =>
    cases r with
    | nil => rfl
    | cons y r2 =>
      simp only [List.cons_append] at ih ⊢
      rw [List.getLast?_cons_cons]
      exact ih

theorem isPath_single (g : Graph) (a : Nat) : IsPath g [a] a a :=
  ⟨by simp, by simp, by simp, by simp [chainB]⟩

theorem isPath_single_elim {g : Graph} {a s t : Nat} (h : IsPath g [a] s t) :
    s = a ∧ t = a := by
  obtain ⟨-, h1, h2, -⟩ := h
  simp at h1 h2
  exact ⟨h1.symm, h2.symm⟩

theorem isPath_cons_elim {g : Graph} {a b : Nat} {r : List Nat} {s t : Nat}
    (h : IsPath g (a :: b :: r) s t) :
    s = a ∧ b ∈ g.adj a ∧ IsPath g (b :: r) b t := by
  obtain ⟨-, h1, h2, h3⟩ := h
  rw [chainB_cons] at h3
  simp at h1
  refine ⟨h1.symm, h3.1, by simp, by simp, ?_, h3.2⟩
  rw [List.getLast?_cons_cons] at h2
  exact h2

theorem isPath_head {g : Graph} {p : List Nat} {s t : Nat} (h : IsPath g p s t) :
    ∃ r, p = s :: r := by
  obtain ⟨h0, h1, -, -⟩ := h
  cases p with
  | nil => exact absurd rfl h0
  | cons a r =>
    simp at h1
    exact ⟨r, by rw [h1]⟩

theorem chainB_snoc {g : Graph} {p : List Nat} {a b : Nat}
    (hc : chainB g p = true) (hl : p.getLast? = some a) (hadj : b ∈ g.adj a) :
    chainB g (p ++ [b]) = true := by
  induction p with
  | nil => simp at hl
  | cons x r ih =>
    cases r with
    | nil =>
      simp at hl
      subst hl
      simpa [chainB] using hadj
    | cons y r2 =>
      rw [chainB_cons] at hc
      rw [List.getLast?_cons_cons] at hl
      have h2 := ih hc.2 hl
      simp only [List.cons_append] at h2 ⊢
      rw [chainB_cons]
      exact ⟨hc.1, h2⟩

theorem chainB_snoc_elim {g : Graph} {p : List Nat} {a b : Nat}
    (hl : p.getLast? = some a) (hc : chainB g (p ++ [b]) = true) :
    chainB g p = true ∧ b ∈ g.adj a := by
  induction p with
  | nil => simp at hl
  | cons x r ih =>
    cases r with
    | nil =>
      simp at hl
      subst hl
      rw [show (([x] : List Nat) ++ [b]) = x :: b :: [] from rfl, chainB_cons] at hc
      exact ⟨by simp [chainB], hc.1⟩
    | cons y r2 =>
      rw [List.getLast?_cons_cons] at hl
      simp only [List.cons_append] at hc
      rw [chainB_cons] at hc
      have h2 := ih hl (by simp only [List.cons_append]; exact hc.2)
      exact ⟨chainB_cons.mpr ⟨hc.1, h2.1⟩, h2.2⟩

theorem isPath_snoc {g : Graph} {p : List Nat} {s a : Nat}
    (h : IsPath g p s a) {b : Nat} (hadj : b ∈ g.adj a) :
    IsPath g (p ++ [b]) s b := by
  obtain ⟨r, hr⟩ := isPath_head h
  refine ⟨by simp, ?_, getLast?_snoc p b, chainB_snoc h.2.2.2 h.2.2.1 hadj⟩
  rw [hr]
  simp

theorem cost_snoc {g : Graph} {p : List Nat} {a : Nat} (b : Nat)
    (h : p.getLast? = some a) : cost g (p ++ [b]) = cost g p + g.w a b := by
  induction p with
  | nil => simp at h
  | cons x r ih =>
    cases r with
    | nil =>
      simp at h
      subst h
      simp [cost]
    | cons y r2 =>
      rw [List.getLast?_cons_cons] at h
      have h2 := ih h
      simp only [List.cons_append] at h2 ⊢
      rw [cost_cons, cost_cons, h2]
      omega

theorem isPath_snoc_elim {g : Graph} {p : List Nat} {s b : Nat}
    (hne : p ≠ []) (h : IsPath g (p ++ [b]) s b) :
    ∃ a, p.getLast? = some a ∧ IsPath g p s a ∧ b ∈ g.adj a := by
  obtain ⟨a, ha⟩ := exists_getLast? hne
  obtain ⟨hcb, hadj⟩ := chainB_snoc_elim ha h.2.2.2
  obtain ⟨r, hr⟩ : ∃ r, p = s :: r := by
    cases p with
    | nil => exact absurd rfl hne
    | cons x r =>
      have h1 := h.2.1
      simp at h1
      exact ⟨r, by rw [h1]⟩
  exact ⟨a, ha, ⟨hne, by rw [hr]; simp, ha, hcb⟩, hadj⟩

theorem isPath_rev_cases {g : Graph} {q : List Nat} {s t : Nat}
    (h : IsPath g q s t) :
    (q = [s] ∧ t = s) ∨
      ∃ p a, q = p ++ [t] ∧ p.getLast? = some a ∧ IsPath g p s a ∧ t ∈ g.adj a := by
  rcases List.eq_nil_or_concat q with hq | ⟨p, b, hq⟩
  · subst hq
    exact absurd rfl h.1
  · rw [List.concat_eq_append] at hq
    subst hq
    have hb : b = t := by
      have h1 := h.2.2.1
      rw [getLast?_snoc] at h1
      simpa using h1
    subst hb
    cases p with
    | nil =>
      left
      obtain ⟨h1, h2⟩ := isPath_single_elim (by simpa using h)
      constructor
      · simp [h1]
      · omega
    | cons x r =>
      right
      obtain ⟨a, ha⟩ := isPath_snoc_elim (by simp) h
      exact ⟨x :: r, a, rfl, ha⟩

theorem cost_prefix_le {g : Graph} {p : List Nat} (b : Nat) :
    cost g p ≤ cost g (p ++ [b]) := by
  cases p with
  | nil => simp [cost]
  | cons x r =>
    obtain ⟨a, ha⟩ := exists_getLast? (p := x :: r) (by simp)
    rw [cost_snoc b ha]
    omega

theorem dist_le {g : Graph} {p : List Nat} {s t : Nat} (h : IsPath g p s t) :
    dist g s t ≤ cost g p :=
  Nat.sInf_le ⟨p, h, rfl⟩

theorem exists_shortest {g : Graph} {s t : Nat} (h : Reachable g s t) :
    ∃ p, IsPath g p s t ∧ cost g p = dist g s t := by
  obtain ⟨p, hp⟩ := h
  exact Nat.sInf_mem (⟨cost g p, p, hp, rfl⟩ :
    Set.Nonempty { c | ∃ q, IsPath g q s t ∧ cost g q = c })

theorem dist_self (g : Graph) (s : Nat) : dist g s s = 0 :=
  Nat.le_zero.mp (by simpa [cost] using dist_le (isPath_single g s))

theorem dist_snoc_le {g : Graph} {s a : Nat} (h : Reachable g s a) {b : Nat}
    (hadj : b ∈ g.adj a) : dist g s b ≤ dist g s a + g.w a b := by
  obtain ⟨p, hp, hc⟩ := exists_shortest h
  have h3 := dist_le (isPath_snoc hp hadj)
  rw [cost_snoc b hp.2.2.1] at h3
  omega

theorem dist_split {g : Graph} {p : List Nat} {s a b : Nat}
    (hlast : p.getLast? = some a) (hp : IsPath g p s a) (hadj : b ∈ g.adj a)
    (hopt : cost g p + g.w a b = dist g s b) :
    cost g p = dist g s a ∧ dist g s b = dist g s a + g.w a b := by
  have h1 : dist g s a ≤ cost g p := dist_le hp
  have h2 : dist g s b ≤ dist g s a + g.w a b := dist_snoc_le ⟨p, hp⟩ hadj
  omega

theorem edist_le {g : Graph} {p : List Nat} {s t : Nat} (h : IsPath g p s t) :
    edist g s t + 1 ≤ p.length := by
  cases p with
  | nil => exact absurd rfl h.1
  | cons x r =>
    have h2 : edist g s t ≤ r.length := Nat.sInf_le ⟨x :: r, h, by simp⟩
    simp
    omega

theorem exists_shortest_len {g : Graph} {s t : Nat} (h : Reachable g s t) :
    ∃ p, IsPath g p s t ∧ p.length = edist g s t + 1 := by
  obtain ⟨p, hp⟩ := h
  cases p with
  | nil => exact absurd rfl hp.1
  | cons x r =>
    exact Nat.sInf_mem (⟨r.length, x :: r, hp, by simp⟩ :
      Set.Nonempty { k | ∃ q, IsPath g q s t ∧ q.length = k + 1 })

theorem edist_self (g : Graph) (s : Nat) : edist g s s = 0 := by
  have h := edist_le (isPath_single g s)
  simp at h
  omega

theorem edist_snoc_le {g : Graph} {s a : Nat} (h : Reachable g s a) {b : Nat}
    (hadj : b ∈ g.adj a) : edist g s b ≤ edist g s a + 1 := by
  obtain ⟨p, hp, hc⟩ := exists_shortest_len h
  have h3 := edist_le (isPath_snoc hp hadj)
  rw [List.length_append, hc] at h3
  simp at h3
  omega

theorem edist_split {g : Graph} {p : List Nat} {s a b : Nat}
    (hp : IsPath g p s a) (hadj : b ∈ g.adj a)
    (hopt : p.length = edist g s b) :
    p.length = edist g s a + 1 ∧ edist g s b = edist g s a + 1 := by
  have h1 : edist g s a + 1 ≤ p.length := edist_le hp
  have h2 : edist g s b ≤ edist g s a + 1 := edist_snoc_le ⟨p, hp⟩ hadj
  omega

theorem isPath_reverse {g : Graph} (hsym : g.Sym) {p : List Nat} {s t : Nat}
    (h : IsPath g p s t) : IsPath g p.reverse t s := by
  induction p generalizing s with
  | nil => exact absurd rfl h.1
  | cons x r ih =>
    cases r with
    | nil =>
      obtain ⟨h1, h2⟩ := isPath_single_elim h
      rw [h1, h2]
      simpa using isPath_single g x
    | cons y r2 =>
      obtain ⟨hs, hxy, htail⟩ := isPath_cons_elim h
      subst hs
      have h3 := isPath_snoc (ih htail) (hsym _ _ hxy)
      simpa using h3

theorem isPath_append_tail {g : Graph} {p q : List Nat} {s m t : Nat}
    (hp : IsPath g p s m) (hq : IsPath g q m t) :
    IsPath g (p ++ q.tail) s t := by
  induction q generalizing p m with
  | nil => exact absurd rfl hq.1
  | cons y r ih =>
    have hm : y = m := by
      have h1 := hq.2.1
      simp at h1
      omega
    subst hm
    cases r with
    | nil =>
      obtain ⟨-, h2⟩ := isPath_single_elim hq
      subst h2
      simpa using hp
    | cons z r2 =>
      obtain ⟨-, hyz, htail⟩ := isPath_cons_elim hq
      have h3 := ih (isPath_snoc hp hyz) htail
      simpa [List.append_assoc] using h3

theorem reverse_tail_eq_dropLast_reverse (q : List Nat) :
    q.reverse.tail = q.dropLast.reverse := by
  induction q using List.reverseRecOn with
  | nil => simp
  | append_singleton r b ih => simp

theorem isPath_nodes_mem {g : Graph} (hwf : g.WF) {p : List Nat} {s t : Nat}
    (h : IsPath g p s t) (hst : s ≠ t) : s ∈ g.nodes ∧ t ∈ g.nodes := by
  obtain ⟨r, hr⟩ := isPath_head h
  subst hr
  cases r with
  | nil => exact absurd (isPath_single_elim h).2.symm hst
  | cons y r2 =>
    obtain ⟨-, hy, -⟩ := isPath_cons_elim h
    have hs : s ∈ g.nodes := by
      by_contra hs0
      rw [hwf.1 s hs0] at hy
      exact absurd hy (List.not_mem_nil y)
    rcases isPath_rev_cases h with ⟨h1, h2⟩ | ⟨q, a, hq, -, -, hadj⟩
    · exact absurd h2.symm hst
    · exact ⟨hs, hwf.2 a t hadj⟩

theorem cost_len_unit {g : Graph} (hw : ∀ a b, g.w a b = 1) (p : List Nat)
    (hne : p ≠ []) : cost g p + 1 = p.length := by
  induction p with
  | nil => exact absurd rfl hne
  | cons x r ih =>
    cases r with
    | nil => simp [cost]
    | cons y r2 =>
      rw [cost_cons, hw]
      have h2 := ih (by simp)
      simp at h2 ⊢
      omega

/-!  ## Heap-pop lemmas  -/

theorem selMin_cons {α β : Type} [LinearOrder β] (key : α → β) (x y : α) (ys : List α) :
    selMin key x (y :: ys) = selMin key (if key y < key x then y else x) ys := rfl

theorem selMin_mem {α β : Type} [LinearOrder β] (key : α → β) (x : α) (xs : List α) :
    selMin key x xs ∈ x :: xs := by
  induction xs generalizing x with
  | nil => simp [selMin]
  | cons y ys ih =>
    rw [selMin_cons]
    by_cases h : key y < key x
    · rw [if_pos h]
      rcases List.mem_cons.mp (ih y) with h1 | h1
      · simp [h1]
      · simp [h1]
    · rw [if_neg h]
      rcases List.mem_cons.mp (ih x) with h1 | h1
      · simp [h1]
      · simp [h1]

theorem selMin_le {α β : Type} [LinearOrder β] (key : α → β) (x : α) (xs : List α) :
    ∀ a ∈ x :: xs, key (selMin key x xs) ≤ key a := by
  induction xs generalizing x with
  | nil =>
    intro a ha
    simp at ha
    simp [selMin, ha]
  | cons y ys ih =>
    intro a ha
    rw [selMin_cons]
    by_cases h : key y < key x
    · rw [if_pos h]
      rcases List.mem_cons.mp ha with h1 | h1
      · calc key (selMin key y ys) ≤ key y := ih y y (by simp)
          _ ≤ key a := by rw [h1]; exact le_of_lt h
      · exact ih y a h1
    · rw [if_neg h]
      rcases List.mem_cons.mp ha with h1 | h1
      · rw [h1]
        exact ih x x (by simp)
      · rcases List.mem_cons.mp h1 with h2 | h2
        · calc key (selMin key x ys) ≤ key x := ih x x (by simp)
            _ ≤ key a := by rw [h2]; exact not_lt.mp h
        · exact ih x a (by simp [h2])

theorem erase_self_singleton {α : Type} [DecidableEq α] (x : α) :
    ([x] : List α).erase x = [] := by
  simp [List.erase_cons]

theorem popMin_singleton {α β : Type} [DecidableEq α] [LinearOrder β]
    (key : α → β) (x : α) : popMin key [x] = some (x, []) := by
  rw [popMin, show selMin key x [] = x from rfl, erase_self_singleton]

theorem popMin_none {α β : Type} [DecidableEq α] [LinearOrder β] (key : α → β)
    {l : List α} (h : popMin key l = none) : l = [] := by
  cases l with
  | nil => rfl
  | cons x xs => simp [popMin] at h

theorem popMin_mem {α β : Type} [DecidableEq α] [LinearOrder β] {key : α → β}
    {l r : List α} {m : α} (h : popMin key l = some (m, r)) : m ∈ l := by
  cases l with
  | nil => simp [popMin] at h
  | cons x xs =>
    simp only [popMin, Option.some_inj, Prod.mk.injEq] at h
    rw [← h.1]
    exact selMin_mem key x xs

theorem popMin_rest {α β : Type} [DecidableEq α] [LinearOrder β] {key : α → β}
    {l r : List α} {m : α} (h : popMin key l = some (m, r)) : r = l.erase m := by
  cases l with
  | nil => simp [popMin] at h
  | cons x xs =>
    simp only [popMin, Option.some_inj, Prod.mk.injEq] at h
    rw [← h.1, ← h.2]

theorem popMin_le {α β : Type} [DecidableEq α] [LinearOrder β] {key : α → β}
    {l r : List α} {m : α} (h : popMin key l = some (m, r)) :
    ∀ a ∈ l, key m ≤ key a := by
  cases l with
  | nil => simp [popMin] at h
  | cons x xs =>
    simp only [popMin, Option.some_inj, Prod.mk.injEq] at h
    rw [← h.1]
    exact selMin_le key x xs

theorem popMin_length {α β : Type} [DecidableEq α] [LinearOrder β] {key : α → β}
    {l r : List α} {m : α} (h : popMin key l = some (m, r)) :
    r.length + 1 = l.length := by
  rw [popMin_rest h, List.length_erase_of_mem (popMin_mem h)]
  have : l ≠ [] := by
    intro h0
    rw [h0] at h
    simp [popMin] at h
  cases l with
  | nil => exact absurd rfl this
  | cons x xs => simp

theorem mem_of_popMin_rest {α β : Type} [DecidableEq α] [LinearOrder β] {key : α → β}
    {l r : List α} {m a : α} (h : popMin key l = some (m, r)) (ha : a ∈ r) : a ∈ l := by
  rw [popMin_rest h] at ha
  exact List.mem_of_mem_erase ha

theorem popMin_rest_mem {α β : Type} [DecidableEq α] [LinearOrder β] {key : α → β}
    {l r : List α} {m a : α} (h : popMin key l = some (m, r)) (ha : a ∈ l)
    (hne : a ≠ m) : a ∈ r := by
  rw [popMin_rest h]
  exact (List.mem_erase_of_ne hne).mpr ha

/-!  ## Measure bookkeeping  -/

theorem filter_map_sum_cons {l : List Nat} (hl : l.Nodup) {c : Nat} (hc : c ∈ l)
    {vis : List Nat} (hcv : c ∉ vis) (f : Nat → Nat) :
    ((l.filter fun v => v ∉ (c :: vis)).map f).sum + f c
      = ((l.filter fun v => v ∉ vis).map f).sum := by
  induction l with
  | nil => simp at hc
  | cons x r ih =>
    have hx := List.nodup_cons.mp hl
    rcases List.mem_cons.mp hc with hxc | hcr
    · have hfilters : r.filter (fun v => v ∉ (c :: vis)) = r.filter (fun v => v ∉ vis) := by
        apply List.filter_congr
        intro v hv
        have hvc : v ≠ c := fun he => hx.1 (by rw [← hxc, ← he]; exact hv)
        simp [hvc]
      rw [← hxc] at hx ⊢
      simp only [List.filter_cons]
      have h1 : (decide (c ∉ (c :: vis))) = false := by simp
      have h2 : (decide (c ∉ vis)) = true := by simpa using hcv
      rw [h1, h2, hfilters]
      simp [Nat.add_comm]
    · have hxc : x ≠ c := fun he => hx.1 (he ▸ hcr)
      have ihr := ih hx.2 hcr
      simp only [List.filter_cons]
      by_cases hxv : x ∈ vis
      · have h1 : (decide (x ∉ (c :: vis))) = false := by simp [hxv]
        have h2 : (decide (x ∉ vis)) = false := by simp [hxv]
        rw [h1, h2]
        exact ihr
      · have h1 : (decide (x ∉ (c :: vis))) = true := by simp [hxv, hxc]
        have h2 : (decide (x ∉ vis)) = true := by simp [hxv]
        rw [h1, h2]
        simp only [if_true, List.map_cons, List.sum_cons]
        omega

theorem remDeg_visit {g : Graph} {c : Nat} (hc : c ∈ g.nodes) {vis : List Nat}
    (hcv : c ∉ vis) :
    remDeg g (c :: vis) + (g.adj c).length = remDeg g vis :=
  filter_map_sum_cons g.nodes.nodup_dedup (List.mem_dedup.mpr hc) hcv _

theorem remDeg_skip {g : Graph} {c : Nat} (hc : c ∉ g.nodes) (vis : List Nat) :
    remDeg g (c :: vis) = remDeg g vis := by
  unfold remDeg
  have : g.nodes.dedup.filter (fun v => v ∉ (c :: vis))
      = g.nodes.dedup.filter (fun v => v ∉ vis) := by
    apply List.filter_congr
    intro v hv
    have hvc : v ≠ c := fun he => hc (he ▸ List.mem_dedup.mp hv)
    simp [hvc]
  rw [this]

theorem remDeg_empty (g : Graph) : remDeg g [] = degSum g := by
  unfold remDeg degSum
  have : g.nodes.dedup.filter (fun v => v ∉ ([] : List Nat)) = g.nodes.dedup := by
    apply List.filter_eq_self.mpr
    intro v hv
    simp
  rw [this]

/-!  ## Generic outcome casing  -/

theorem outcome_cases {X : Type} (o : Option (Option X)) (h1 : o ≠ none)
    (h2 : ∀ p, o ≠ some (some p)) : o = some none := by
  match o with
  | none => exact absurd rfl h1
  | some none => rfl
  | some (some p) => exact absurd rfl (h2 p)

/-!  ## DFS lemmas  -/

theorem dfsLoop_sound {g : Graph} {s t : Nat} :
    ∀ fuel st vis evs, (∀ e ∈ st, IsPath g e.2 s e.1) →
      ∀ p, (dfsLoop g t fuel st vis evs).2 = some (some p) → IsPath g p s t := by
  intro fuel
  induction fuel with
  | zero =>
    intro st vis evs hinv p hp
    simp [dfsLoop] at hp
  | succ n ih =>
    intro st vis evs hinv p hp
    match st with
    | [] => simp [dfsLoop] at hp
    | (cur, path) :: rest =>
      simp only [dfsLoop] at hp
      by_cases hv : cur ∈ vis
      · rw [if_pos hv] at hp
        exact ih rest vis evs (fun e he => hinv e (List.mem_cons_of_mem _ he)) p hp
      · rw [if_neg hv] at hp
        by_cases hg : cur = t
        · rw [if_pos hg] at hp
          simp at hp
          have hpath := hinv (cur, path) (by simp)
          rw [← hp, ← hg]
          exact hpath
        · rw [if_neg hg] at hp
          refine ih _ _ _ ?_ p hp
          intro e he
          rcases List.mem_append.mp he with he1 | he1
          · obtain ⟨nb, hnb, heq⟩ := List.mem_filterMap.mp he1
            by_cases hskip : nb ∈ cur :: vis ∨ nb ∈ rest.map Prod.fst
            · rw [if_pos hskip] at heq
              exact absurd heq (by simp)
            · rw [if_neg hskip] at heq
              have he2 : e = (nb, path ++ [nb]) := by
                simpa using heq.symm
              rw [he2]
              exact isPath_snoc (hinv (cur, path) (by simp)) hnb
          · exact hinv e (List.mem_cons_of_mem _ he1)

theorem dfsLoop_noExhaust {g : Graph} {t : Nat} (hwf : g.WF) :
    ∀ fuel st vis evs, st.length + remDeg g vis < fuel →
      (dfsLoop g t fuel st vis evs).2 ≠ none := by
  intro fuel
  induction fuel with
  | zero =>
    intro st vis evs hm
    omega
  | succ n ih =>
    intro st vis evs hm
    match st with
    | [] => simp [dfsLoop]
    | (cur, path) :: rest =>
      simp only [dfsLoop]
      by_cases hv : cur ∈ vis
      · rw [if_pos hv]
        apply ih
        simp at hm
        omega
      · rw [if_neg hv]
        by_cases hg : cur = t
        · rw [if_pos hg]
          simp
        · rw [if_neg hg]
          apply ih
          rw [List.length_append]
          by_cases hcn : cur ∈ g.nodes
          · refine Nat.lt_of_le_of_lt
              (Nat.add_le_add_right
                (Nat.add_le_add_right (List.length_filterMap_le _ _) rest.length) _) ?_
            have hrd := remDeg_visit hcn hv
            simp only [List.length_cons] at hm
            omega
          · rw [hwf.1 cur hcn]
            simp only [List.filterMap_nil, List.length_nil]
            have hrd := remDeg_skip hcn vis
            simp only [List.length_cons] at hm
            omega

theorem dfsLoop_events {g : Graph} {t : Nat} :
    ∀ fuel st vis evs, (evs.map Event.node).Nodup → (∀ e ∈ evs, e.node ∈ vis) →
      ((dfsLoop g t fuel st vis evs).1.map Event.node).Nodup := by
  intro fuel
  induction fuel with
  | zero =>
    intro st vis evs h1 h2
    simpa [dfsLoop] using h1
  | succ n ih =>
    intro st vis evs h1 h2
    match st with
    | [] => simpa [dfsLoop] using h1
    | (cur, path) :: rest =>
      simp only [dfsLoop]
      by_cases hv : cur ∈ vis
      · rw [if_pos hv]
        exact ih rest vis evs h1 h2
      · rw [if_neg hv]
        have hnew : (((evs ++ [⟨cur, none, none, path⟩]) : List Event).map Event.node).Nodup := by
          rw [List.map_append]
          simp only [List.map_cons, List.map_nil]
          rw [List.nodup_append]
          refine ⟨h1, by simp, ?_⟩
          intro a ha
          simp only [List.mem_singleton]
          intro hac
          obtain ⟨e, he, hen⟩ := List.mem_map.mp ha
          rw [hac] at hen
          exact hv (hen ▸ h2 e he)
        have hlink : ∀ e ∈ evs ++ [(⟨cur, none, none, path⟩ : Event)], e.node ∈ cur :: vis := by
          intro e he
          rcases List.mem_append.mp he with he1 | he1
          · exact List.mem_cons_of_mem _ (h2 e he1)
          · simp at he1
            rw [he1]
            simp
        by_cases hg : cur = t
        · rw [if_pos hg]
          exact hnew
        · rw [if_neg hg]
          exact ih _ _ _ hnew hlink

theorem dfsRun_self (g : Graph) (s : Nat) (h : Nat → Nat) :
    dfsRun g s s h = ([⟨s, none, none, [s]⟩], some (some [s])) := by
  have hf : dfsFuel g = (degSum g + 1) + 1 := rfl
  rw [dfsRun, hf]
  simp [dfsLoop]

theorem dfs_none_of_unreachable {g : Graph} {s t : Nat} (hwf : g.WF)
    (hur : ¬Reachable g s t) (h : Nat → Nat) : (dfsRun g s t h).2 = some none := by
  apply outcome_cases
  · apply dfsLoop_noExhaust hwf
    rw [remDeg_empty]
    simp only [List.length_cons, List.length_nil, dfsFuel]
    omega
  · intro p hp
    exact hur ⟨p, dfsLoop_sound (dfsFuel g) [(s, [s])] [] []
      (by simp [isPath_single]) p hp⟩

/-!  ## BFS basic lemmas  -/

theorem bfsLoop_sound {g : Graph} {s t : Nat} :
    ∀ fuel q vis evs, (∀ e ∈ q, IsPath g e.2 s e.1) →
      ∀ p, (bfsLoop g t fuel q vis evs).2 = some (some p) → IsPath g p s t := by
  intro fuel
  induction fuel with
  | zero =>
    intro q vis evs hinv p hp
    simp [bfsLoop] at hp
  | succ n ih =>
    intro q vis evs hinv p hp
    match q with
    | [] => simp [bfsLoop] at hp
    | (cur, path) :: rest =>
      simp only [bfsLoop] at hp
      by_cases hv : cur ∈ vis
      · rw [if_pos hv] at hp
        exact ih rest vis evs (fun e he => hinv e (List.mem_cons_of_mem _ he)) p hp
      · rw [if_neg hv] at hp
        by_cases hg : cur = t
        · rw [if_pos hg] at hp
          simp at hp
          have hpath := hinv (cur, path) (by simp)
          rw [← hp, ← hg]
          exact hpath
        · rw [if_neg hg] at hp
          refine ih _ _ _ ?_ p hp
          intro e he
          rcases List.mem_append.mp he with he1 | he1
          · exact hinv e (List.mem_cons_of_mem _ he1)
          · obtain ⟨nb, hnb, heq⟩ := List.mem_filterMap.mp he1
            by_cases hskip : nb ∈ cur :: vis ∨ nb ∈ rest.map Prod.fst
            · rw [if_pos hskip] at heq
              exact absurd heq (by simp)
            · rw [if_neg hskip] at heq
              have he2 : e = (nb, path ++ [nb]) := by
                simpa using heq.symm
              rw [he2]
              exact isPath_snoc (hinv (cur, path) (by simp)) hnb

theorem bfsLoop_noExhaust {g : Graph} {t : Nat} (hwf : g.WF) :
    ∀ fuel q vis evs, q.length + remDeg g vis < fuel →
      (bfsLoop g t fuel q vis evs).2 ≠ none := by
  intro fuel
  induction fuel with
  | zero =>
    intro q vis evs hm
    omega
  | succ n ih =>
    intro q vis evs hm
    match q with
    | [] => simp [bfsLoop]
    | (cur, path) :: rest =>
      simp only [bfsLoop]
      by_cases hv : cur ∈ vis
      · rw [if_pos hv]
        apply ih
        simp at hm
        omega
      · rw [if_neg hv]
        by_cases hg : cur = t
        · rw [if_pos hg]
          simp
        · rw [if_neg hg]
          apply ih
          rw [List.length_append]
          by_cases hcn : cur ∈ g.nodes
          · refine Nat.lt_of_le_of_lt
              (Nat.add_le_add_right
                (Nat.add_le_add_left (List.length_filterMap_le _ _) rest.length) _) ?_
            have hrd := remDeg_visit hcn hv
            simp only [List.length_cons] at hm
            omega
          · rw [hwf.1 cur hcn]
            simp only [List.filterMap_nil, List.length_nil]
            have hrd := remDeg_skip hcn vis
            simp only [List.length_cons] at hm
            omega

theorem bfsLoop_events {g : Graph} {t : Nat} :
    ∀ fuel q vis evs, (evs.map Event.node).Nodup → (∀ e ∈ evs, e.node ∈ vis) →
      ((bfsLoop g t fuel q vis evs).1.map Event.node).Nodup := by
  intro fuel
  induction fuel with
  | zero =>
    intro q vis evs h1 h2
    simpa [bfsLoop] using h1
  | succ n ih =>
    intro q vis evs h1 h2
    match q with
    | [] => simpa [bfsLoop] using h1
    | (cur, path) :: rest =>
      simp only [bfsLoop]
      by_cases hv : cur ∈ vis
      · rw [if_pos hv]
        exact ih rest vis evs h1 h2
      · rw [if_neg hv]
        have hnew : (((evs ++ [⟨cur, none, none, path⟩]) : List Event).map Event.node).Nodup := by
          rw [List.map_append]
          simp only [List.map_cons, List.map_nil]
          rw [List.nodup_append]
          refine ⟨h1, by simp, ?_⟩
          intro a ha
          simp only [List.mem_singleton]
          intro hac
          obtain ⟨e, he, hen⟩ := List.mem_map.mp ha
          rw [hac] at hen
          exact hv (hen ▸ h2 e he)
        have hlink : ∀ e ∈ evs ++ [(⟨cur, none, none, path⟩ : Event)], e.node ∈ cur :: vis := by
          intro e he
          rcases List.mem_append.mp he with he1 | he1
          · exact List.mem_cons_of_mem _ (h2 e he1)
          · simp at he1
            rw [he1]
            simp
        by_cases hg : cur = t
        · rw [if_pos hg]
          exact hnew
        · rw [if_neg hg]
          exact ih _ _ _ hnew hlink

theorem bfsRun_self (g : Graph) (s : Nat) (h : Nat → Nat) :
    bfsRun g s s h = ([⟨s, none, none, [s]⟩], some (some [s])) := by
  have hf : bfsFuel g = (degSum g + 1) + 1 := rfl
  rw [bfsRun, hf]
  simp [bfsLoop]

theorem bfs_none_of_unreachable {g : Graph} {s t : Nat} (hwf : g.WF)
    (hur : ¬Reachable g s t) (h : Nat → Nat) : (bfsRun g s t h).2 = some none := by
  apply outcome_cases
  · apply bfsLoop_noExhaust hwf
    rw [remDeg_empty]
    simp only [List.length_cons, List.length_nil, bfsFuel]
    omega
  · intro p hp
    exact hur ⟨p, bfsLoop_sound (bfsFuel g) [(s, [s])] [] []
      (by simp [isPath_single]) p hp⟩

/-!  ## Greedy search basic lemmas  -/

theorem greedyLoop_sound {g : Graph} {s t : Nat} {h : Nat → Nat} :
    ∀ fuel fr vis evs, (∀ e ∈ fr, IsPath g e.2.2 s e.2.1) →
      ∀ p, (greedyLoop g t h fuel fr vis evs).2 = some (some p) → IsPath g p s t := by
  intro fuel
  induction fuel with
  | zero =>
    intro fr vis evs hinv p hp
    simp [greedyLoop] at hp
  | succ n ih =>
    intro fr vis evs hinv p hp
    rw [greedyLoop] at hp
    cases hpop : popMin key3 fr with
    | none =>
      rw [hpop] at hp
      simp at hp
    | some pr =>
      obtain ⟨⟨hc, cur, path⟩, fr2⟩ := pr
      rw [hpop] at hp
      simp only at hp
      by_cases hv : cur ∈ vis
      · rw [if_pos hv] at hp
        refine ih fr2 vis evs ?_ p hp
        intro e he
        exact hinv e (mem_of_popMin_rest hpop he)
      · rw [if_neg hv] at hp
        by_cases hg : cur = t
        · rw [if_pos hg] at hp
          simp at hp
          have hpath := hinv (hc, cur, path) (popMin_mem hpop)
          rw [← hp, ← hg]
          exact hpath
        · rw [if_neg hg] at hp
          refine ih _ _ _ ?_ p hp
          intro e he
          rcases List.mem_append.mp he with he1 | he1
          · exact hinv e (mem_of_popMin_rest hpop he1)
          · obtain ⟨nb, hnb, heq⟩ := List.mem_filterMap.mp he1
            by_cases hskip : nb ∈ cur :: vis ∨ nb ∈ fr2.map fun e => e.2.1
            · rw [if_pos hskip] at heq
              exact absurd heq (by simp)
            · rw [if_neg hskip] at heq
              have he2 : e = (h nb, nb, path ++ [nb]) := by
                simpa using heq.symm
              rw [he2]
              exact isPath_snoc (hinv (hc, cur, path) (popMin_mem hpop)) hnb

theorem greedyLoop_noExhaust {g : Graph} {t : Nat} {h : Nat → Nat} (hwf : g.WF) :
    ∀ fuel fr vis evs, fr.length + remDeg g vis < fuel →
      (greedyLoop g t h fuel fr vis evs).2 ≠ none := by
  intro fuel
  induction fuel with
  | zero =>
    intro fr vis evs hm
    omega
  | succ n ih =>
    intro fr vis evs hm
    rw [greedyLoop]
    cases hpop : popMin key3 fr with
    | none => simp
    | some pr =>
      obtain ⟨⟨hc, cur, path⟩, fr2⟩ := pr
      simp only
      have hlen := popMin_length hpop
      by_cases hv : cur ∈ vis
      · rw [if_pos hv]
        apply ih
        omega
      · rw [if_neg hv]
        by_cases hg : cur = t
        · rw [if_pos hg]
          simp
        · rw [if_neg hg]
          apply ih
          rw [List.length_append]
          by_cases hcn : cur ∈ g.nodes
          · refine Nat.lt_of_le_of_lt
              (Nat.add_le_add_right
                (Nat.add_le_add_left (List.length_filterMap_le _ _) fr2.length) _) ?_
            have hrd := remDeg_visit hcn hv
            omega
          · rw [hwf.1 cur hcn]
            simp only [List.filterMap_nil, List.length_nil]
            have hrd := remDeg_skip hcn vis
            omega

theorem greedyLoop_events {g : Graph} {t : Nat} {h : Nat → Nat} :
    ∀ fuel fr vis evs, (evs.map Event.node).Nodup → (∀ e ∈ evs, e.node ∈ vis) →
      ((greedyLoop g t h fuel fr vis evs).1.map Event.node).Nodup := by
  intro fuel
  induction fuel with
  | zero =>
    intro fr vis evs h1 h2
    simpa [greedyLoop] using h1
  | succ n ih =>
    intro fr vis evs h1 h2
    rw [greedyLoop]
    cases hpop : popMin key3 fr with
    | none => simpa using h1
    | some pr =>
      obtain ⟨⟨hc, cur, path⟩, fr2⟩ := pr
      simp only
      by_cases hv : cur ∈ vis
      · rw [if_pos hv]
        exact ih fr2 vis evs h1 h2
      · rw [if_neg hv]
        have hnew : (((evs ++ [⟨cur, none, some (h cur), path⟩]) : List Event).map Event.node).Nodup := by
          rw [List.map_append]
          simp only [List.map_cons, List.map_nil]
          rw [List.nodup_append]
          refine ⟨h1, by simp, ?_⟩
          intro a ha
          simp only [List.mem_singleton]
          intro hac
          obtain ⟨e, he, hen⟩ := List.mem_map.mp ha
          rw [hac] at hen
          exact hv (hen ▸ h2 e he)
        have hlink : ∀ e ∈ evs ++ [(⟨cur, none, some (h cur), path⟩ : Event)],
            e.node ∈ cur :: vis := by
          intro e he
          rcases List.mem_append.mp he with he1 | he1
          · exact List.mem_cons_of_mem _ (h2 e he1)
          · simp at he1
            rw [he1]
            simp
        by_cases hg : cur = t
        · rw [if_pos hg]
          exact hnew
        · rw [if_neg hg]
          exact ih _ _ _ hnew hlink

theorem greedyRun_self (g : Graph) (s : Nat) (h : Nat → Nat) :
    greedyRun g s s h = ([⟨s, none, some (h s), [s]⟩], some (some [s])) := by
  have hf : greedyFuel g = (degSum g + 1) + 1 := rfl
  rw [greedyRun, hf]
  rw [greedyLoop]
  have hpop : popMin key3 [(h s, s, [s])] = some ((h s, s, [s]), []) :=
    popMin_singleton key3 _
  rw [hpop]
  simp

theorem greedy_none_of_unreachable {g : Graph} {s t : Nat} (hwf : g.WF)
    (hur : ¬Reachable g s t) (h : Nat → Nat) : (greedyRun g s t h).2 = some none := by
  apply outcome_cases
  · apply greedyLoop_noExhaust hwf
    rw [remDeg_empty]
    simp only [List.length_cons, List.length_nil, greedyFuel]
    omega
  · intro p hp
    exact hur ⟨p, greedyLoop_sound (greedyFuel g) [(h s, s, [s])] [] []
      (by simp [isPath_single]) p hp⟩

/-!  ## UCS optimality  -/

theorem key3_fst_mono {e1 e2 : Entry3} (h : key3 e1 ≤ key3 e2) : e1.1 ≤ e2.1 := by
  rw [key3, key3] at h
  rcases (Prod.Lex.le_iff _ _).mp h with h1 | ⟨h1, -⟩
  · exact le_of_lt h1
  · exact le_of_eq h1

theorem ucs_chain {g : Graph} {s : Nat} {fr : List Entry3} {vis : List Nat}
    (k5 : s ∈ vis ∨ ∃ p, (0, s, p) ∈ fr)
    (k4 : ∀ a, a ∈ vis → ∀ b, b ∈ g.adj a → dist g s b = dist g s a + g.w a b →
      b ∈ vis ∨ ∃ p, (dist g s b, b, p) ∈ fr) :
    ∀ q v, IsPath g q s v → cost g q = dist g s v → v ∉ vis →
      ∃ u p2, (dist g s u, u, p2) ∈ fr ∧ dist g s u ≤ dist g s v := by
  intro q
  induction q using List.reverseRecOn with
  | nil =>
    intro v hq hc hv
    exact absurd rfl hq.1
  | append_singleton l b ihl =>
    intro v hq hc hv
    have hb : b = v := by
      have h1 := hq.2.2.1
      rw [getLast?_snoc] at h1
      simpa using h1
    subst hb
    cases l with
    | nil =>
      obtain ⟨hs, hv2⟩ := isPath_single_elim (by simpa using hq)
      rcases k5 with hk | ⟨p, hp⟩
      · rw [hs] at hk
        exact absurd hk hv
      · refine ⟨s, p, ?_, ?_⟩
        · rw [dist_self]
          exact hp
        · rw [dist_self]
          omega
    | cons x r =>
      obtain ⟨a, hlast, hpl, hadj⟩ := isPath_snoc_elim (by simp) hq
      rw [cost_snoc b hlast] at hc
      obtain ⟨hcl, hdv⟩ := dist_split hlast hpl hadj hc
      by_cases ha : a ∈ vis
      · rcases k4 a ha b hadj hdv with hbv | ⟨p, hp⟩
        · exact absurd hbv hv
        · exact ⟨b, p, hp, le_refl _⟩
      · obtain ⟨u, p2, hu, hud⟩ := ihl a hpl hcl ha
        exact ⟨u, p2, hu, by omega⟩

theorem ucsLoop_master {g : Graph} {s t : Nat} :
    ∀ fuel fr vis evs,
      (∀ e ∈ fr, IsPath g e.2.2 s e.2.1 ∧ cost g e.2.2 = e.1) →
      (s ∈ vis ∨ ∃ p, (0, s, p) ∈ fr) →
      (∀ a, a ∈ vis → ∀ b, b ∈ g.adj a → dist g s b = dist g s a + g.w a b →
        b ∈ vis ∨ ∃ p, (dist g s b, b, p) ∈ fr) →
      t ∉ vis →
      (∀ p, (ucsLoop g t fuel fr vis evs).2 = some (some p) →
          IsPath g p s t ∧ cost g p = dist g s t) ∧
      (Reachable g s t → (ucsLoop g t fuel fr vis evs).2 ≠ some none) := by
  intro fuel
  induction fuel with
  | zero =>
    intro fr vis evs hval hk5 hk4 hgv
    constructor
    · intro p hp
      simp [ucsLoop] at hp
    · intro hr
      simp [ucsLoop]
  | succ n ih =>
    intro fr vis evs hval hk5 hk4 hgv
    rw [ucsLoop]
    cases hpop : popMin key3 fr with
    | none =>
      have hfr : fr = [] := popMin_none key3 hpop
      constructor
      · intro p hp
        simp at hp
      · intro hr
        obtain ⟨w0, hw0, hwc⟩ := exists_shortest hr
        obtain ⟨u, p2, hu, -⟩ := ucs_chain hk5 hk4 w0 t hw0 hwc hgv
        rw [hfr] at hu
        exact absurd hu (List.not_mem_nil _)
    | some pr =>
      obtain ⟨⟨gc, cur, path⟩, fr2⟩ := pr
      simp only
      by_cases hv : cur ∈ vis
      · rw [if_pos hv]
        apply ih fr2 vis evs
        · intro e he
          exact hval e (mem_of_popMin_rest hpop he)
        · rcases hk5 with hk | ⟨p, hp⟩
          · exact Or.inl hk
          · by_cases hsc : s = cur
            · exact Or.inl (hsc ▸ hv)
            · refine Or.inr ⟨p, popMin_rest_mem hpop hp ?_⟩
              intro he
              apply hsc
              have h2 := congrArg (fun e : Entry3 => e.2.1) he
              simpa using h2
        · intro a ha b hb hd
          rcases hk4 a ha b hb hd with hbv | ⟨p, hp⟩
          · exact Or.inl hbv
          · by_cases hbv : b ∈ vis
            · exact Or.inl hbv
            · refine Or.inr ⟨p, popMin_rest_mem hpop hp ?_⟩
              intro he
              apply hbv
              have h2 := congrArg (fun e : Entry3 => e.2.1) he
              simp at h2
              rw [h2]
              exact hv
        · exact hgv
      · rw [if_neg hv]
        have hvp := hval (gc, cur, path) (popMin_mem hpop)
        simp only at hvp
        have hreach : Reachable g s cur := ⟨path, hvp.1⟩
        have hgc : gc = dist g s cur := by
          obtain ⟨w0, hw0, hwc⟩ := exists_shortest hreach
          obtain ⟨u, p2, hu, hud⟩ := ucs_chain hk5 hk4 w0 cur hw0 hwc hv
          have hle := popMin_le hpop _ hu
          have hfst : gc ≤ dist g s u := key3_fst_mono hle
          have hge : dist g s cur ≤ gc := by
            rw [← hvp.2]
            exact dist_le hvp.1
          omega
        by_cases hg : cur = t
        · rw [if_pos hg]
          constructor
          · intro p hp
            simp at hp
            rw [← hp, ← hg]
            exact ⟨hvp.1, by rw [hvp.2, hgc]⟩
          · intro hr
            simp
        · rw [if_neg hg]
          apply ih
          · intro e he
            rcases List.mem_append.mp he with he1 | he1
            · exact hval e (mem_of_popMin_rest hpop he1)
            · obtain ⟨nb, hnb, heq⟩ := List.mem_filterMap.mp he1
              by_cases hskip : nb ∈ cur :: vis
              · rw [if_pos hskip] at heq
                exact absurd heq (by simp)
              · rw [if_neg hskip] at heq
                have he2 : e = (gc + g.w cur nb, nb, path ++ [nb]) := by
                  simpa using heq.symm
                rw [he2]
                refine ⟨isPath_snoc hvp.1 hnb, ?_⟩
                simp only
                rw [cost_snoc nb hvp.1.2.2.1, hvp.2]
          · rcases hk5 with hk | ⟨p, hp⟩
            · exact Or.inl (List.mem_cons_of_mem _ hk)
            · by_cases hsc : s = cur
              · exact Or.inl (by rw [hsc]; exact List.mem_cons_self _ _)
              · refine Or.inr ⟨p, List.mem_append_left _ (popMin_rest_mem hpop hp ?_)⟩
                intro he
                apply hsc
                have h2 := congrArg (fun e : Entry3 => e.2.1) he
                simpa using h2
          · intro a ha b hb hd
            rcases List.mem_cons.mp ha with hac | hav
            · subst hac
              by_cases hbv : b ∈ a :: vis
              · exact Or.inl hbv
              · refine Or.inr ⟨path ++ [b], List.mem_append_right _ ?_⟩
                have hdb : dist g s b = gc + g.w a b := by
                  rw [hd, hgc]
                rw [hdb]
                apply List.mem_filterMap.mpr
                exact ⟨b, hb, by rw [if_neg hbv]⟩
            · rcases hk4 a hav b hb hd with hbv | ⟨p, hp⟩
              · exact Or.inl (List.mem_cons_of_mem _ hbv)
              · by_cases hbv : b ∈ cur :: vis
                · exact Or.inl hbv
                · refine Or.inr ⟨p, List.mem_append_left _ (popMin_rest_mem hpop hp ?_)⟩
                  intro he
                  apply hbv
                  have h2 := congrArg (fun e : Entry3 => e.2.1) he
                  simp at h2
                  rw [h2]
                  exact List.mem_cons_self _ _
          · intro hgt
            rcases List.mem_cons.mp hgt with h1 | h1
            · exact hg h1.symm
            · exact hgv h1

theorem ucsLoop_noExhaust {g : Graph} {t : Nat} (hwf : g.WF) :
    ∀ fuel fr vis evs, fr.length + remDeg g vis < fuel →
      (ucsLoop g t fuel fr vis evs).2 ≠ none := by
  intro fuel
  induction fuel with
  | zero =>
    intro fr vis evs hm
    omega
  | succ n ih =>
    intro fr vis evs hm
    rw [ucsLoop]
    cases hpop : popMin key3 fr with
    | none => simp
    | some pr =>
      obtain ⟨⟨gc, cur, path⟩, fr2⟩ := pr
      simp only
      have hlen := popMin_length hpop
      by_cases hv : cur ∈ vis
      · rw [if_pos hv]
        apply ih
        omega
      · rw [if_neg hv]
        by_cases hg : cur = t
        · rw [if_pos hg]
          simp
        · rw [if_neg hg]
          apply ih
          rw [List.length_append]
          by_cases hcn : cur ∈ g.nodes
          · refine Nat.lt_of_le_of_lt
              (Nat.add_le_add_right
                (Nat.add_le_add_left (List.length_filterMap_le _ _) fr2.length) _) ?_
            have hrd := remDeg_visit hcn hv
            omega
          · rw [hwf.1 cur hcn]
            simp only [List.filterMap_nil, List.length_nil]
            have hrd := remDeg_skip hcn vis
            omega

theorem ucsLoop_events {g : Graph} {t : Nat} :
    ∀ fuel fr vis evs, (evs.map Event.node).Nodup → (∀ e ∈ evs, e.node ∈ vis) →
      ((ucsLoop g t fuel fr vis evs).1.map Event.node).Nodup := by
  intro fuel
  induction fuel with
  | zero =>
    intro fr vis evs h1 h2
    simpa [ucsLoop] using h1
  | succ n ih =>
    intro fr vis evs h1 h2
    rw [ucsLoop]
    cases hpop : popMin key3 fr with
    | none => simpa using h1
    | some pr =>
      obtain ⟨⟨gc, cur, path⟩, fr2⟩ := pr
      simp only
      by_cases hv : cur ∈ vis
      · rw [if_pos hv]
        exact ih fr2 vis evs h1 h2
      · rw [if_neg hv]
        have hnew : (((evs ++ [⟨cur, some gc, none, path⟩]) : List Event).map Event.node).Nodup := by
          rw [List.map_append]
          simp only [List.map_cons, List.map_nil]
          rw [List.nodup_append]
          refine ⟨h1, by simp, ?_⟩
          intro a ha
          simp only [List.mem_singleton]
          intro hac
          obtain ⟨e, he, hen⟩ := List.mem_map.mp ha
          rw [hac] at hen
          exact hv (hen ▸ h2 e he)
        have hlink : ∀ e ∈ evs ++ [(⟨cur, some gc, none, path⟩ : Event)],
            e.node ∈ cur :: vis := by
          intro e he
          rcases List.mem_append.mp he with he1 | he1
          · exact List.mem_cons_of_mem _ (h2 e he1)
          · simp at he1
            rw [he1]
            simp
        by_cases hg : cur = t
        · rw [if_pos hg]
          exact hnew
        · rw [if_neg hg]
          exact ih _ _ _ hnew hlink

theorem ucsRun_self (g : Graph) (s : Nat) (h : Nat → Nat) :
    ucsRun g s s h = ([⟨s, some 0, none, [s]⟩], some (some [s])) := by
  have hf : ucsFuel g = (degSum g + 1) + 1 := rfl
  rw [ucsRun, hf, ucsLoop]
  have hpop : popMin key3 [(0, s, [s])] = some ((0, s, [s]), []) :=
    popMin_singleton key3 _
  rw [hpop]
  simp

theorem ucs_optimal {g : Graph} {s t : Nat} (hwf : g.WF) (hr : Reachable g s t)
    (h : Nat → Nat) :
    ∃ p, (ucsRun g s t h).2 = some (some p) ∧ IsPath g p s t ∧
      cost g p = dist g s t := by
  have hmaster := ucsLoop_master (g := g) (s := s) (t := t) (ucsFuel g)
    [(0, s, [s])] [] []
    (by
      intro e he
      simp at he
      rw [he]
      exact ⟨isPath_single g s, rfl⟩)
    (Or.inr ⟨[s], by simp⟩)
    (by intro a ha; simp at ha)
    (by simp)
  have hne : (ucsRun g s t h).2 ≠ none := by
    apply ucsLoop_noExhaust hwf
    rw [remDeg_empty]
    simp only [List.length_cons, List.length_nil, ucsFuel]
    omega
  rcases ho : (ucsRun g s t h).2 with - | ro
  · exact absurd ho hne
  · rcases ro with - | p
    · exact absurd ho (hmaster.2 hr)
    · exact ⟨p, rfl, hmaster.1 p ho⟩

theorem ucs_none_of_unreachable {g : Graph} {s t : Nat} (hwf : g.WF)
    (hur : ¬Reachable g s t) (h : Nat → Nat) : (ucsRun g s t h).2 = some none := by
  apply outcome_cases
  · apply ucsLoop_noExhaust hwf
    rw [remDeg_empty]
    simp only [List.length_cons, List.length_nil, ucsFuel]
    omega
  · intro p hp
    have hmaster := ucsLoop_master (g := g) (s := s) (t := t) (ucsFuel g)
      [(0, s, [s])] [] []
      (by
        intro e he
        simp at he
        rw [he]
        exact ⟨isPath_single g s, rfl⟩)
      (Or.inr ⟨[s], by simp⟩)
      (by intro a ha; simp at ha)
      (by simp)
    exact hur ⟨p, (hmaster.1 p hp).1⟩

/-!  ## BFS optimality  -/

theorem bfs_chain {g : Graph} {s : Nat} {q : List Entry2} {vis : List Nat}
    (k5 : s ∈ vis ∨ ∃ ps, (s, ps) ∈ q)
    (k4 : ∀ a, a ∈ vis → ∀ b, b ∈ g.adj a → edist g s b = edist g s a + 1 →
      b ∈ vis ∨ ∃ pb, (b, pb) ∈ q) :
    ∀ ww v, IsPath g ww s v → ww.length = edist g s v + 1 → v ∉ vis →
      ∃ u pu σ, (u, pu) ∈ q ∧ IsPath g σ u v ∧
        edist g s u + σ.length = edist g s v + 1 := by
  intro ww
  induction ww using List.reverseRecOn with
  | nil =>
    intro v hq hc hv
    exact absurd rfl hq.1
  | append_singleton l b ihl =>
    intro v hq hc hv
    have hb : b = v := by
      have h1 := hq.2.2.1
      rw [getLast?_snoc] at h1
      simpa using h1
    subst hb
    cases l with
    | nil =>
      obtain ⟨hs, hv2⟩ := isPath_single_elim (by simpa using hq)
      rcases k5 with hk | ⟨ps, hp⟩
      · rw [hs] at hk
        exact absurd hk hv
      · refine ⟨s, ps, [b], hp, ?_, ?_⟩
        · rw [hs]
          exact isPath_single g b
        · rw [← hs, edist_self]
          simp
    | cons x r =>
      obtain ⟨a, hlast, hpl, hadj⟩ := isPath_snoc_elim (by simp) hq
      have hc2 : (x :: r).length = edist g s b := by
        rw [List.length_append] at hc
        simp at hc ⊢
        omega
      obtain ⟨hcl, hdv⟩ := edist_split hpl hadj hc2
      by_cases ha : a ∈ vis
      · rcases k4 a ha b hadj hdv with hbv | ⟨pb, hp⟩
        · exact absurd hbv hv
        · refine ⟨b, pb, [b], hp, isPath_single g b, by simp⟩
      · obtain ⟨u, pu, σ, huq, hσ, heq⟩ := ihl a hpl hcl ha
        refine ⟨u, pu, σ ++ [b], huq, isPath_snoc hσ hadj, ?_⟩
        rw [List.length_append]
        simp
        omega

theorem bfs_push_level {g : Graph} {s cur : Nat} {path : List Nat}
    {rest : List Entry2} {vis : List Nat}
    (hval : ∀ e ∈ (cur, path) :: rest, IsPath g e.2 s e.1)
    (hlen4 : ∀ e ∈ (cur, path) :: rest, e.2.length = edist g s e.1 + 1)
    (hsorted : List.Pairwise (fun e1 e2 : Entry2 => e1.2.length ≤ e2.2.length)
      ((cur, path) :: rest))
    (k5 : s ∈ vis ∨ ∃ ps, (s, ps) ∈ (cur, path) :: rest)
    (k4 : ∀ a, a ∈ vis → ∀ b, b ∈ g.adj a → edist g s b = edist g s a + 1 →
      b ∈ vis ∨ ∃ pb, (b, pb) ∈ (cur, path) :: rest)
    (hv : cur ∉ vis) {nb : Nat} (hnb : nb ∈ g.adj cur)
    (hnb1 : ¬(nb ∈ cur :: vis ∨ nb ∈ rest.map Prod.fst)) :
    edist g s nb = edist g s cur + 1 := by
  push_neg at hnb1
  have hfront := hval (cur, path) (by simp)
  have hle : edist g s nb ≤ edist g s cur + 1 :=
    edist_snoc_le ⟨path, hfront⟩ hnb
  rcases Nat.lt_or_ge (edist g s nb) (edist g s cur + 1) with hlt | hge
  · exfalso
    have hnbvis : nb ∉ vis := by
      intro hmem
      exact hnb1.1 (List.mem_cons_of_mem _ hmem)
    have hreach : Reachable g s nb := ⟨path ++ [nb], isPath_snoc hfront hnb⟩
    obtain ⟨ww, hww, hwwl⟩ := exists_shortest_len hreach
    obtain ⟨u, pu, σ, huq, hσ, heq⟩ := bfs_chain k5 k4 ww nb hww hwwl hnbvis
    have hulen := hlen4 (u, pu) huq
    simp only at hulen
    have hfmin : path.length ≤ pu.length := by
      rcases List.mem_cons.mp huq with he | he
      · have hpp : pu = path := by
          have h2 := congrArg Prod.snd he
          simpa using h2
        rw [hpp]
      · exact (List.pairwise_cons.mp hsorted).1 (u, pu) he
    have hcurlen := hlen4 (cur, path) (by simp)
    simp only at hcurlen
    have hσne : σ ≠ [] := hσ.1
    have hσ1 : 1 ≤ σ.length := by
      cases σ with
      | nil => exact absurd rfl hσne
      | cons z zs => simp
    have hσeq : σ.length = 1 := by omega
    obtain ⟨z, hz⟩ := List.length_eq_one.mp hσeq
    rw [hz] at hσ
    obtain ⟨hu1, hu2⟩ := isPath_single_elim hσ
    have hun : u = nb := by rw [hu1, ← hu2]
    rw [hun] at huq
    rcases List.mem_cons.mp huq with he | he
    · have : nb = cur := congrArg Prod.fst he
      exact hnb1.1 (by rw [this]; exact List.mem_cons_self _ _)
    · exact hnb1.2 (List.mem_map.mpr ⟨(nb, pu), he, rfl⟩)
  · omega

theorem bfsLoop_master {g : Graph} {s t : Nat} :
    ∀ fuel q vis evs,
      (∀ e ∈ q, IsPath g e.2 s e.1) →
      (∀ e ∈ q, e.2.length = edist g s e.1 + 1) →
      List.Pairwise (fun e1 e2 : Entry2 => e1.2.length ≤ e2.2.length) q →
      (∀ e1 ∈ q, ∀ e2 ∈ q, e1.2.length ≤ e2.2.length + 1) →
      (s ∈ vis ∨ ∃ ps, (s, ps) ∈ q) →
      (∀ a, a ∈ vis → ∀ b, b ∈ g.adj a → edist g s b = edist g s a + 1 →
        b ∈ vis ∨ ∃ pb, (b, pb) ∈ q) →
      t ∉ vis →
      (∀ p, (bfsLoop g t fuel q vis evs).2 = some (some p) →
          IsPath g p s t ∧ p.length = edist g s t + 1) ∧
      (Reachable g s t → (bfsLoop g t fuel q vis evs).2 ≠ some none) := by
  intro fuel
  induction fuel with
  | zero =>
    intro q vis evs hval hlen4 hsorted hwin hk5 hk4 hgv
    constructor
    · intro p hp
      simp [bfsLoop] at hp
    · intro hr
      simp [bfsLoop]
  | succ n ih =>
    intro q vis evs hval hlen4 hsorted hwin hk5 hk4 hgv
    match q with
    | [] =>
      simp only [bfsLoop]
      constructor
      · intro p hp
        simp at hp
      · intro hr
        obtain ⟨ww, hww, hwwl⟩ := exists_shortest_len hr
        obtain ⟨u, pu, σ, huq, -, -⟩ := bfs_chain hk5 hk4 ww t hww hwwl hgv
        exact absurd huq (List.not_mem_nil _)
    | (cur, path) :: rest =>
      simp only [bfsLoop]
      by_cases hv : cur ∈ vis
      · rw [if_pos hv]
        apply ih rest vis evs
        · intro e he
          exact hval e (List.mem_cons_of_mem _ he)
        · intro e he
          exact hlen4 e (List.mem_cons_of_mem _ he)
        · exact (List.pairwise_cons.mp hsorted).2
        · intro e1 he1 e2 he2
          exact hwin e1 (List.mem_cons_of_mem _ he1) e2 (List.mem_cons_of_mem _ he2)
        · rcases hk5 with hk | ⟨ps, hp⟩
          · exact Or.inl hk
          · rcases List.mem_cons.mp hp with he | he
            · have : s = cur := congrArg Prod.fst he
              exact Or.inl (this ▸ hv)
            · exact Or.inr ⟨ps, he⟩
        · intro a ha b hb hd
          rcases hk4 a ha b hb hd with hbv | ⟨pb, hp⟩
          · exact Or.inl hbv
          · rcases List.mem_cons.mp hp with he | he
            · have : b = cur := congrArg Prod.fst he
              exact Or.inl (this ▸ hv)
            · exact Or.inr ⟨pb, he⟩
        · exact hgv
      · rw [if_neg hv]
        have hfront := hval (cur, path) (by simp)
        have hcurlen := hlen4 (cur, path) (by simp)
        simp only at hcurlen
        by_cases hg : cur = t
        · rw [if_pos hg]
          constructor
          · intro p hp
            simp at hp
            rw [← hp, ← hg]
            exact ⟨hfront, hcurlen⟩
          · intro hr
            simp
        · rw [if_neg hg]
          have hpushlen : ∀ e ∈ (g.adj cur).filterMap (fun nb =>
              if nb ∈ cur :: vis ∨ nb ∈ rest.map Prod.fst then none
              else some (nb, path ++ [nb])),
              e.2 = path ++ [e.1] ∧ e.1 ∈ g.adj cur ∧
                ¬(e.1 ∈ cur :: vis ∨ e.1 ∈ rest.map Prod.fst) := by
            intro e he
            obtain ⟨nb, hnb, heq⟩ := List.mem_filterMap.mp he
            by_cases hskip : nb ∈ cur :: vis ∨ nb ∈ rest.map Prod.fst
            · rw [if_pos hskip] at heq
              exact absurd heq (by simp)
            · rw [if_neg hskip] at heq
              have he2 : e = (nb, path ++ [nb]) := by simpa using heq.symm
              rw [he2]
              exact ⟨rfl, hnb, hskip⟩
          have hpushlvl : ∀ e ∈ (g.adj cur).filterMap (fun nb =>
              if nb ∈ cur :: vis ∨ nb ∈ rest.map Prod.fst then none
              else some (nb, path ++ [nb])),
              edist g s e.1 = edist g s cur + 1 := by
            intro e he
            obtain ⟨-, hnb, hskip⟩ := hpushlen e he
            exact bfs_push_level hval hlen4 hsorted hk5 hk4 hv hnb hskip
          apply ih
          · intro e he
            rcases List.mem_append.mp he with he1 | he1
            · exact hval e (List.mem_cons_of_mem _ he1)
            · obtain ⟨hee, hnb, -⟩ := hpushlen e he1
              have : e = (e.1, path ++ [e.1]) := by
                rw [← hee]
              rw [this]
              exact isPath_snoc hfront hnb
          · intro e he
            rcases List.mem_append.mp he with he1 | he1
            · exact hlen4 e (List.mem_cons_of_mem _ he1)
            · obtain ⟨hee, hnb, -⟩ := hpushlen e he1
              rw [hee, hpushlvl e he1, List.length_append]
              simp
              omega
          · rw [List.pairwise_append]
            refine ⟨(List.pairwise_cons.mp hsorted).2, ?_, ?_⟩
            · apply List.pairwise_iff_forall_sublist.mpr
              intro e1 e2 hsub
              have h1 := hpushlen e1 (hsub.subset (by simp))
              have h2 := hpushlen e2 (hsub.subset (by simp))
              rw [h1.1, h2.1]
              simp
            · intro e1 he1 e2 he2
              have h2 := (hpushlen e2 he2).1
              rw [h2, List.length_append]
              have := hwin e1 (List.mem_cons_of_mem _ he1) (cur, path) (by simp)
              simp only at this
              simp
              omega
          · intro e1 he1 e2 he2
            rcases List.mem_append.mp he1 with h1 | h1 <;>
              rcases List.mem_append.mp he2 with h2 | h2
            · exact hwin e1 (List.mem_cons_of_mem _ h1) e2 (List.mem_cons_of_mem _ h2)
            · have he2l := (hpushlen e2 h2).1
              rw [he2l, List.length_append]
              have := hwin e1 (List.mem_cons_of_mem _ h1) (cur, path) (by simp)
              simp only at this
              simp
              omega
            · have he1l := (hpushlen e1 h1).1
              rw [he1l, List.length_append]
              have := (List.pairwise_cons.mp hsorted).1 e2 h2
              simp only at this
              simp
              omega
            · have he1l := (hpushlen e1 h1).1
              have he2l := (hpushlen e2 h2).1
              rw [he1l, he2l]
              simp
          · rcases hk5 with hk | ⟨ps, hp⟩
            · exact Or.inl (List.mem_cons_of_mem _ hk)
            · rcases List.mem_cons.mp hp with he | he
              · have : s = cur := congrArg Prod.fst he
                exact Or.inl (by rw [this]; exact List.mem_cons_self _ _)
              · exact Or.inr ⟨ps, List.mem_append_left _ he⟩
          · intro a ha b hb hd
            rcases List.mem_cons.mp ha with hac | hav
            · subst hac
              by_cases hbv : b ∈ a :: vis
              · exact Or.inl hbv
              · by_cases hbf : b ∈ rest.map Prod.fst
                · obtain ⟨e, he, hee⟩ := List.mem_map.mp hbf
                  exact Or.inr ⟨e.2, List.mem_append_left _ (by
                    rw [← hee]
                    simpa using he)⟩
                · refine Or.inr ⟨path ++ [b], List.mem_append_right _ ?_⟩
                  apply List.mem_filterMap.mpr
                  refine ⟨b, hb, ?_⟩
                  rw [if_neg (by
                    intro hor
                    rcases hor with h1 | h1
                    · exact hbv h1
                    · exact hbf h1)]
            · rcases hk4 a hav b hb hd with hbv | ⟨pb, hp⟩
              · exact Or.inl (List.mem_cons_of_mem _ hbv)
              · rcases List.mem_cons.mp hp with he | he
                · have : b = cur := congrArg Prod.fst he
                  exact Or.inl (by rw [this]; exact List.mem_cons_self _ _)
                · exact Or.inr ⟨pb, List.mem_append_left _ he⟩
          · intro hgt
            rcases List.mem_cons.mp hgt with h1 | h1
            · exact hg h1.symm
            · exact hgv h1

theorem bfs_optimal {g : Graph} {s t : Nat} (hwf : g.WF) (hr : Reachable g s t)
    (h : Nat → Nat) :
    ∃ p, (bfsRun g s t h).2 = some (some p) ∧ IsPath g p s t ∧
      p.length = edist g s t + 1 := by
  have hmaster := bfsLoop_master (g := g) (s := s) (t := t) (bfsFuel g)
    [(s, [s])] [] []
    (by
      intro e he
      simp at he
      rw [he]
      exact isPath_single g s)
    (by
      intro e he
      simp at he
      rw [he]
      simp [edist_self])
    (by simp)
    (by
      intro e1 he1 e2 he2
      simp at he1 he2
      rw [he1, he2]
      simp)
    (Or.inr ⟨[s], by simp⟩)
    (by intro a ha; simp at ha)
    (by simp)
  have hne : (bfsRun g s t h).2 ≠ none := by
    apply bfsLoop_noExhaust hwf
    rw [remDeg_empty]
    simp only [List.length_cons, List.length_nil, bfsFuel]
    omega
  rcases ho : (bfsRun g s t h).2 with - | ro
  · exact absurd ho hne
  · rcases ro with - | p
    · exact absurd ho (hmaster.2 hr)
    · exact ⟨p, rfl, hmaster.1 p ho⟩

/-!  ## A* helper lemmas  -/

theorem key4_fst_mono {e1 e2 : Entry4} (h : key4 e1 ≤ key4 e2) : e1.1 ≤ e2.1 := by
  rw [key4, key4] at h
  rcases (Prod.Lex.le_iff _ _).mp h with h1 | ⟨h1, -⟩
  · exact le_of_lt h1
  · exact le_of_eq h1

theorem alook_cons {α : Type} (c : Nat) (gv : α) (vis : List (Nat × α)) (x : Nat) :
    alook ((c, gv) :: vis) x = if x = c then some gv else alook vis x := rfl

theorem aSkip_false {o : Option Nat} {gc : Nat} (h : aSkip o gc = false) :
    o = none ∨ ∃ gv, o = some gv ∧ gc < gv := by
  cases o with
  | none => exact Or.inl rfl
  | some gv =>
    right
    refine ⟨gv, rfl, ?_⟩
    simp [aSkip] at h
    omega

theorem aSkip_true_of_le {gv gc : Nat} (h : gv ≤ gc) :
    aSkip (some gv) gc = true := by
  simp [aSkip]
  omega

theorem foldr_max_le_mem {l : List Nat} {x : Nat} (h : x ∈ l) (b : Nat) :
    x ≤ l.foldr max b := by
  induction l with
  | nil => simp at h
  | cons y ys ih =>
    rcases List.mem_cons.mp h with h1 | h1
    · rw [h1, List.foldr_cons]
      exact le_max_left _ _
    · rw [List.foldr_cons]
      exact le_trans (ih h1) (le_max_right _ _)

theorem adj_len_le_maxDeg {g : Graph} {v : Nat} (hv : v ∈ g.nodes) :
    (g.adj v).length ≤ maxDeg g := by
  unfold maxDeg
  have hmem : (g.adj v).length ∈ g.nodes.map (fun u => (g.adj u).length) :=
    List.mem_map.mpr ⟨v, hv, rfl⟩
  exact foldr_max_le_mem hmem 0

theorem w_le_maxW {g : Graph} {a b : Nat} (ha : a ∈ g.nodes) (hb : b ∈ g.adj a) :
    g.w a b ≤ maxW g := by
  have hmem1 : g.w a b ∈ (g.adj a).map (g.w a) :=
    List.mem_map.mpr ⟨b, hb, rfl⟩
  have h1 : g.w a b ≤ ((g.adj a).map (g.w a)).foldr max 0 :=
    foldr_max_le_mem hmem1 0
  have hmem2 : ((g.adj a).map (g.w a)).foldr max 0 ∈
      g.nodes.map (fun u => ((g.adj u).map (g.w u)).foldr max 0) :=
    List.mem_map.mpr ⟨a, ha, rfl⟩
  have h2 : ((g.adj a).map (g.w a)).foldr max 0 ≤ maxW g := by
    unfold maxW
    exact foldr_max_le_mem hmem2 0
  omega

theorem isPath_mem_nodes {g : Graph} (hwf : g.WF) {p : List Nat} {s v : Nat}
    (h : IsPath g p s v) : ∀ x ∈ p, x ∈ s :: g.nodes := by
  induction p generalizing s with
  | nil => exact absurd rfl h.1
  | cons a r ih =>
    have ha : a = s := by
      have h1 := h.2.1
      simpa using h1
    subst ha
    cases r with
    | nil =>
      intro x hx
      simp at hx
      simp [hx]
    | cons b r2 =>
      obtain ⟨-, hab, htail⟩ := isPath_cons_elim h
      have hb : b ∈ g.nodes := hwf.2 a b hab
      intro x hx
      rcases List.mem_cons.mp hx with h1 | h1
      · simp [h1]
      · rcases List.mem_cons.mp (ih htail x h1) with h2 | h2
        · rw [h2]
          exact List.mem_cons_of_mem _ hb
        · exact List.mem_cons_of_mem _ h2

theorem cost_add_le_len_mul {g : Graph} (hwf : g.WF) {p : List Nat} {s v : Nat}
    (h : IsPath g p s v) : cost g p + maxW g ≤ p.length * maxW g := by
  induction p generalizing s with
  | nil => exact absurd rfl h.1
  | cons a r ih =>
    cases r with
    | nil =>
      simp [cost]
    | cons b r2 =>
      obtain ⟨-, hab, htail⟩ := isPath_cons_elim h
      have ha : a ∈ g.nodes := by
        by_contra ha0
        rw [hwf.1 a ha0] at hab
        exact absurd hab (List.not_mem_nil b)
      have hwab := w_le_maxW ha hab
      have hih := ih htail
      rw [cost_cons]
      simp only [List.length_cons] at hih ⊢
      have hmul : (r2.length + 1 + 1) * maxW g
          = (r2.length + 1) * maxW g + maxW g := Nat.succ_mul _ _
      omega

theorem nodup_path_len {g : Graph} (hwf : g.WF) {p : List Nat} {s v : Nat}
    (h : IsPath g p s v) (hnd : p.Nodup) :
    p.length ≤ g.nodes.dedup.length + 1 := by
  have h1 : p.toFinset.card = p.length := List.toFinset_card_of_nodup hnd
  have h2 : p.toFinset ⊆ (s :: g.nodes).toFinset := by
    intro x hx
    exact List.mem_toFinset.mpr (isPath_mem_nodes hwf h x (List.mem_toFinset.mp hx))
  have h3 := Finset.card_le_card h2
  have h4 : (s :: g.nodes).toFinset.card ≤ g.nodes.toFinset.card + 1 := by
    rw [List.toFinset_cons]
    exact Finset.card_insert_le _ _
  have h5 : g.nodes.toFinset.card = g.nodes.dedup.length := List.card_toFinset _
  omega

theorem cost_le_gBound {g : Graph} (hwf : g.WF) {p : List Nat} {s v : Nat}
    (h : IsPath g p s v) (hnd : p.Nodup) : cost g p ≤ gBound g := by
  have h1 := cost_add_le_len_mul hwf h
  have h2 := nodup_path_len hwf h hnd
  have h3 : p.length * maxW g ≤ (g.nodes.dedup.length + 1) * maxW g :=
    Nat.mul_le_mul_right _ h2
  rw [Nat.succ_mul] at h3
  unfold gBound
  omega

theorem cost_le_append {g : Graph} (p : List Nat) (q : List Nat) :
    cost g p ≤ cost g (p ++ q) := by
  induction q using List.reverseRecOn with
  | nil => simp
  | append_singleton l b ih =>
    calc cost g p ≤ cost g (p ++ l) := ih
      _ ≤ cost g ((p ++ l) ++ [b]) := cost_prefix_le b
      _ = cost g (p ++ (l ++ [b])) := by rw [List.append_assoc]

theorem snoc_inj {p q : List Nat} {a b : Nat} (h : p ++ [a] = q ++ [b]) :
    p = q ∧ a = b := by
  have h2 := congrArg List.reverse h
  simp at h2
  obtain ⟨h3, h4⟩ := h2
  exact ⟨by
    have := congrArg List.reverse h4
    simpa using this, h3⟩

theorem accepted_nodup {g : Graph} {vis : List (Nat × Nat)} {gc cur : Nat}
    {path : List Nat}
    (hPRE : ∀ q1 x q2, path = (q1 ++ [x]) ++ q2 → q2 ≠ [] →
      ∃ gv, alook vis x = some gv ∧ gv ≤ cost g (q1 ++ [x]))
    (hND : path.dropLast.Nodup)
    (hlast : path.getLast? = some cur) (hcost : cost g path = gc)
    (hacc : aSkip (alook vis cur) gc = false) : path.Nodup := by
  have hne : path ≠ [] := by
    intro h0
    rw [h0] at hlast
    simp at hlast
  have hsplit : path = path.dropLast ++ [cur] := by
    have h1 := List.dropLast_append_getLast hne
    have h2 : path.getLast hne = cur := by
      have h3 := List.getLast?_eq_getLast path hne
      rw [h3] at hlast
      simpa using hlast
    rw [← h2]
    exact h1.symm
  have hnotin : cur ∉ path.dropLast := by
    intro hmem
    obtain ⟨d1, d2, hd⟩ := List.append_of_mem hmem
    have hpath2 : path = (d1 ++ [cur]) ++ (d2 ++ [cur]) := by
      rw [hsplit, hd]
      simp
    obtain ⟨gv, hgv, hgvle⟩ := hPRE d1 cur (d2 ++ [cur]) hpath2 (by simp)
    have hle2 : cost g (d1 ++ [cur]) ≤ cost g path := by
      rw [hpath2]
      exact cost_le_append _ _
    have : aSkip (alook vis cur) gc = true := by
      rw [hgv]
      exact aSkip_true_of_le (by omega)
    rw [this] at hacc
    simp at hacc
  rw [hsplit]
  rw [List.nodup_append]
  exact ⟨hND, by simp, by
    intro a ha
    simp only [List.mem_singleton]
    intro hac
    rw [hac] at ha
    exact hnotin ha⟩

theorem sum_update_le {F : Finset Nat} {f1 f2 : Nat → Nat} {c : Nat} (hc : c ∈ F)
    (hagree : ∀ v ∈ F, v ≠ c → f2 v = f1 v) (hdec : f2 c + 1 ≤ f1 c) :
    (∑ v ∈ F, f2 v) + 1 ≤ ∑ v ∈ F, f1 v := by
  have h2 := Finset.add_sum_erase F f2 hc
  have h1 := Finset.add_sum_erase F f1 hc
  have hc2 : ∑ v ∈ F.erase c, f2 v = ∑ v ∈ F.erase c, f1 v :=
    Finset.sum_congr rfl
      (fun v hv => hagree v (Finset.mem_of_mem_erase hv) (Finset.ne_of_mem_erase hv))
  omega

theorem sum_update_eq {F : Finset Nat} {f1 f2 : Nat → Nat}
    (hagree : ∀ v ∈ F, f2 v = f1 v) :
    ∑ v ∈ F, f2 v = ∑ v ∈ F, f1 v :=
  Finset.sum_congr rfl hagree

theorem aCap_update_lt {g : Graph} {s cur gc : Nat} {vis : List (Nat × Nat)}
    (hcn : cur ∈ g.nodes) (hacc : aSkip (alook vis cur) gc = false)
    (hgb : gc ≤ gBound g) :
    aCap g s ((cur, gc) :: vis) + 1 ≤ aCap g s vis := by
  simp only [aCap]
  have hmain : (∑ v ∈ g.nodes.toFinset, (match alook ((cur, gc) :: vis) v with
      | some gv => gv
      | none => gBound g + 1)) + 1 ≤
      ∑ v ∈ g.nodes.toFinset, (match alook vis v with
      | some gv => gv
      | none => gBound g + 1) := by
    apply sum_update_le (List.mem_toFinset.mpr hcn)
    · intro v hv hvne
      rw [alook_cons, if_neg hvne]
    · rcases aSkip_false hacc with h1 | ⟨gv, h1, h2⟩
      · rw [alook_cons, if_pos rfl, h1]
        show gc + 1 ≤ gBound g + 1
        omega
      · rw [alook_cons, if_pos rfl, h1]
        show gc + 1 ≤ gv
        omega
  have hster : (if s ∈ g.nodes then 0 else (match alook ((cur, gc) :: vis) s with
      | some _ => 0
      | none => 1)) ≤ (if s ∈ g.nodes then 0 else (match alook vis s with
      | some _ => 0
      | none => 1)) := by
    by_cases hs : s ∈ g.nodes
    · rw [if_pos hs, if_pos hs]
    · rw [if_neg hs, if_neg hs]
      have hsne : s ≠ cur := fun he => hs (he ▸ hcn)
      rw [alook_cons, if_neg hsne]
  omega

theorem aCap_update_le {g : Graph} {s cur gc : Nat} {vis : List (Nat × Nat)}
    (hcn : cur ∉ g.nodes) :
    aCap g s ((cur, gc) :: vis) ≤ aCap g s vis := by
  simp only [aCap]
  have hmain : (∑ v ∈ g.nodes.toFinset, (match alook ((cur, gc) :: vis) v with
      | some gv => gv
      | none => gBound g + 1)) =
      ∑ v ∈ g.nodes.toFinset, (match alook vis v with
      | some gv => gv
      | none => gBound g + 1) := by
    apply sum_update_eq
    intro v hv
    have hvne : v ≠ cur := fun he => hcn (he ▸ List.mem_toFinset.mp hv)
    rw [alook_cons, if_neg hvne]
  have hster : (if s ∈ g.nodes then 0 else (match alook ((cur, gc) :: vis) s with
      | some _ => 0
      | none => 1)) ≤ (if s ∈ g.nodes then 0 else (match alook vis s with
      | some _ => 0
      | none => 1)) := by
    by_cases hs : s ∈ g.nodes
    · rw [if_pos hs, if_pos hs]
    · rw [if_neg hs, if_neg hs]
      by_cases hsc : s = cur
      · rw [alook_cons, if_pos hsc]
        cases halook : alook vis s <;> simp
      · rw [alook_cons, if_neg hsc]
  omega

theorem aSkip_true {o : Option Nat} {gc : Nat} (h : aSkip o gc = true) :
    ∃ gv, o = some gv ∧ gv ≤ gc := by
  cases o with
  | none => simp [aSkip] at h
  | some gv =>
    refine ⟨gv, rfl, ?_⟩
    simp [aSkip] at h
    omega

theorem astar_chain {g : Graph} {s : Nat} {h : Nat → Nat} {fr : List Entry4}
    {vis : List (Nat × Nat)}
    (k5 : alook vis s = some (dist g s s) ∨
      ∃ p, (dist g s s + h s, dist g s s, s, p) ∈ fr)
    (k4 : ∀ a b, alook vis a = some (dist g s a) → b ∈ g.adj a →
      dist g s b = dist g s a + g.w a b →
      alook vis b = some (dist g s b) ∨
        ∃ p, (dist g s b + h b, dist g s b, b, p) ∈ fr) :
    ∀ q v, IsPath g q s v → cost g q = dist g s v →
      ¬(alook vis v = some (dist g s v)) →
      ∃ u p2 σ, (dist g s u + h u, dist g s u, u, p2) ∈ fr ∧
        IsPath g σ u v ∧ dist g s u + cost g σ = dist g s v := by
  intro q
  induction q using List.reverseRecOn with
  | nil =>
    intro v hq hc hv
    exact absurd rfl hq.1
  | append_singleton l b ihl =>
    intro v hq hc hv
    have hb : b = v := by
      have h1 := hq.2.2.1
      rw [getLast?_snoc] at h1
      simpa using h1
    subst hb
    cases l with
    | nil =>
      obtain ⟨hs, hv2⟩ := isPath_single_elim (by simpa using hq)
      have hd : dist g s s = dist g s b := congrArg (dist g s) hs
      rcases k5 with hk | ⟨p, hp⟩
      · rw [← hs] at hv
        rw [hd] at hk
        rw [← hs] at hk
        exact absurd hk hv
      · refine ⟨s, p, [b], hp, ?_, ?_⟩
        · rw [hs]
          exact isPath_single g b
        · show dist g s s + 0 = dist g s b
          omega
    | cons x r =>
      obtain ⟨a, hlast, hpl, hadj⟩ := isPath_snoc_elim (by simp) hq
      rw [cost_snoc b hlast] at hc
      obtain ⟨hcl, hdv⟩ := dist_split hlast hpl hadj hc
      by_cases ha : alook vis a = some (dist g s a)
      · rcases k4 a b ha hadj hdv with hbv | ⟨p, hp⟩
        · exact absurd hbv hv
        · refine ⟨b, p, [b], hp, isPath_single g b, ?_⟩
          show dist g s b + 0 = dist g s b
          omega
      · obtain ⟨u, p2, σ, hu, hσ, heq⟩ := ihl a hpl hcl ha
        refine ⟨u, p2, σ ++ [b], hu, isPath_snoc hσ hadj, ?_⟩
        rw [cost_snoc b hσ.2.2.1]
        omega

theorem aLoop_master {g : Graph} {s t : Nat} {h : Nat → Nat} (hwf : g.WF)
    (hAdm : ∀ v σ, IsPath g σ v t → h v ≤ cost g σ) :
    ∀ fuel fr vis evs,
      (∀ e ∈ fr, IsPath g e.2.2.2 s e.2.2.1 ∧ cost g e.2.2.2 = e.2.1 ∧
        e.1 = e.2.1 + h e.2.2.1) →
      (∀ c gv, alook vis c = some gv → ∃ p, IsPath g p s c ∧ cost g p = gv) →
      (alook vis s = some (dist g s s) ∨
        ∃ p, (dist g s s + h s, dist g s s, s, p) ∈ fr) →
      (∀ a b, alook vis a = some (dist g s a) → b ∈ g.adj a →
        dist g s b = dist g s a + g.w a b →
        alook vis b = some (dist g s b) ∨
          ∃ p, (dist g s b + h b, dist g s b, b, p) ∈ fr) →
      (∀ e ∈ fr, ∀ q1 x q2, e.2.2.2 = (q1 ++ [x]) ++ q2 → q2 ≠ [] →
        ∃ gv, alook vis x = some gv ∧ gv ≤ cost g (q1 ++ [x])) →
      (∀ e ∈ fr, e.2.2.2.dropLast.Nodup) →
      (alook vis t = none) →
      (∀ p, (aLoop g t h fuel fr vis evs).2 = some (some p) →
          IsPath g p s t ∧ cost g p = dist g s t) ∧
      (Reachable g s t → (aLoop g t h fuel fr vis evs).2 ≠ some none) ∧
      (fr.length + aCap g s vis * (maxDeg g + 1) < fuel →
        (aLoop g t h fuel fr vis evs).2 ≠ none) := by
  intro fuel
  induction fuel with
  | zero =>
    intro fr vis evs hAV hA2 hK5 hK4 hPRE hND hGN
    refine ⟨?_, ?_, ?_⟩
    · intro p hp
      simp [aLoop] at hp
    · intro hr
      simp [aLoop]
    · intro hm
      omega
  | succ n ih =>
    intro fr vis evs hAV hA2 hK5 hK4 hPRE hND hGN
    have hnf : ¬(alook vis t = some (dist g s t)) := by
      rw [hGN]
      simp
    rw [aLoop]
    cases hpop : popMin key4 fr with
    | none =>
      have hfr : fr = [] := popMin_none key4 hpop
      refine ⟨?_, ?_, ?_⟩
      · intro p hp
        simp at hp
      · intro hr
        obtain ⟨w0, hw0, hwc⟩ := exists_shortest hr
        obtain ⟨u, p2, σ, hu, -, -⟩ := astar_chain hK5 hK4 w0 t hw0 hwc hnf
        rw [hfr] at hu
        exact absurd hu (List.not_mem_nil _)
      · intro hm
        simp
    | some pr =>
      obtain ⟨⟨fv, gc, cur, path⟩, fr2⟩ := pr
      simp only
      have hvp := hAV (fv, gc, cur, path) (popMin_mem hpop)
      simp only at hvp
      have hlen := popMin_length hpop
      cases hacc : aSkip (alook vis cur) gc with
      | true =>
        rw [if_pos rfl]
        obtain ⟨gv0, hgv0, hgv0le⟩ := aSkip_true hacc
        have hgv0opt : ∃ p0, IsPath g p0 s cur ∧ cost g p0 = gv0 := hA2 cur gv0 hgv0
        have HI := ih fr2 vis evs
          (fun e he => hAV e (mem_of_popMin_rest hpop he))
          hA2
          (by
            rcases hK5 with hk | ⟨p, hp⟩
            · exact Or.inl hk
            · by_cases he : (dist g s s + h s, dist g s s, s, p) = (fv, gc, cur, path)
              · left
                have hsc : s = cur := by
                  have h2 := congrArg (fun e : Entry4 => e.2.2.1) he
                  simpa using h2
                have hgcd : dist g s s = gc := by
                  have h2 := congrArg (fun e : Entry4 => e.2.1) he
                  simpa using h2
                obtain ⟨p0, hp0, hp0c⟩ := hgv0opt
                have hdle : dist g s cur ≤ gv0 := by
                  rw [← hp0c]
                  exact dist_le hp0
                rw [← hsc] at hgv0 hdle
                have : gv0 = dist g s s := by omega
                rw [← this]
                exact hgv0
              · exact Or.inr ⟨p, popMin_rest_mem hpop hp he⟩)
          (by
            intro a b ha hb hd
            rcases hK4 a b ha hb hd with hk | ⟨p, hp⟩
            · exact Or.inl hk
            · by_cases he : (dist g s b + h b, dist g s b, b, p) = (fv, gc, cur, path)
              · left
                have hsc : b = cur := by
                  have h2 := congrArg (fun e : Entry4 => e.2.2.1) he
                  simpa using h2
                have hgcd : dist g s b = gc := by
                  have h2 := congrArg (fun e : Entry4 => e.2.1) he
                  simpa using h2
                obtain ⟨p0, hp0, hp0c⟩ := hgv0opt
                have hdle : dist g s cur ≤ gv0 := by
                  rw [← hp0c]
                  exact dist_le hp0
                rw [← hsc] at hgv0 hdle
                have : gv0 = dist g s b := by omega
                rw [← this]
                exact hgv0
              · exact Or.inr ⟨p, popMin_rest_mem hpop hp he⟩)
          (fun e he => hPRE e (mem_of_popMin_rest hpop he))
          (fun e he => hND e (mem_of_popMin_rest hpop he))
          hGN
        refine ⟨HI.1, HI.2.1, ?_⟩
        intro hm
        apply HI.2.2
        omega
      | false =>
        rw [if_neg (by simp)]
        have hnodup : path.Nodup :=
          accepted_nodup (fun q1 x q2 hq hne =>
            hPRE (fv, gc, cur, path) (popMin_mem hpop) q1 x q2 hq hne)
            (hND (fv, gc, cur, path) (popMin_mem hpop))
            hvp.1.2.2.1 hvp.2.1 hacc
        have hgb : gc ≤ gBound g := by
          rw [← hvp.2.1]
          exact cost_le_gBound hwf hvp.1 hnodup
        by_cases hg : cur = t
        · rw [if_pos hg]
          refine ⟨?_, ?_, ?_⟩
          · intro p hp
            simp at hp
            have hge : dist g s t ≤ gc := by
              rw [← hvp.2.1, ← hg]
              exact dist_le hvp.1
            have hle : gc ≤ dist g s t := by
              have hrt : Reachable g s t := ⟨path, hg ▸ hvp.1⟩
              obtain ⟨w0, hw0, hwc⟩ := exists_shortest hrt
              obtain ⟨u, p2, σ, hu, hσ, heq⟩ := astar_chain hK5 hK4 w0 t hw0 hwc hnf
              have hkle := popMin_le hpop _ hu
              have hfle : fv ≤ dist g s u + h u := key4_fst_mono hkle
              have hht : h t = 0 := by
                have := hAdm t [t] (isPath_single g t)
                simp [cost] at this
                omega
              have hhu : h u ≤ cost g σ := hAdm u σ hσ
              rw [hvp.2.2, hg, hht] at hfle
              omega
            rw [← hp]
            refine ⟨hg ▸ hvp.1, ?_⟩
            rw [hvp.2.1]
            omega
          · intro hr
            simp
          · intro hm
            simp
        · rw [if_neg hg]
          have hpush : ∀ e ∈ (g.adj cur).map (fun nb =>
              (gc + g.w cur nb + h nb, gc + g.w cur nb, nb, path ++ [nb])),
              ∃ nb, nb ∈ g.adj cur ∧
                e = (gc + g.w cur nb + h nb, gc + g.w cur nb, nb, path ++ [nb]) := by
            intro e he
            obtain ⟨nb, hnb, heq⟩ := List.mem_map.mp he
            exact ⟨nb, hnb, heq.symm⟩
          have hAV2 : ∀ e ∈ fr2 ++ (g.adj cur).map (fun nb =>
              (gc + g.w cur nb + h nb, gc + g.w cur nb, nb, path ++ [nb])),
              IsPath g e.2.2.2 s e.2.2.1 ∧ cost g e.2.2.2 = e.2.1 ∧
                e.1 = e.2.1 + h e.2.2.1 := by
            intro e he
            rcases List.mem_append.mp he with he1 | he1
            · exact hAV e (mem_of_popMin_rest hpop he1)
            · obtain ⟨nb, hnb, heq⟩ := hpush e he1
              rw [heq]
              refine ⟨isPath_snoc hvp.1 hnb, ?_, rfl⟩
              simp only
              rw [cost_snoc nb hvp.1.2.2.1, hvp.2.1]
          have hA22 : ∀ c gv, alook ((cur, gc) :: vis) c = some gv →
              ∃ p, IsPath g p s c ∧ cost g p = gv := by
            intro c gv hcl
            rw [alook_cons] at hcl
            by_cases hcc : c = cur
            · rw [if_pos hcc] at hcl
              have hgv : gv = gc := by
                simpa using hcl.symm
              rw [hcc, hgv]
              exact ⟨path, hvp.1, hvp.2.1⟩
            · rw [if_neg hcc] at hcl
              exact hA2 c gv hcl
          have hgcge : dist g s cur ≤ gc := by
            rw [← hvp.2.1]
            exact dist_le hvp.1
          have hK52 : alook ((cur, gc) :: vis) s = some (dist g s s) ∨
              ∃ p, (dist g s s + h s, dist g s s, s, p) ∈
                fr2 ++ (g.adj cur).map (fun nb =>
                  (gc + g.w cur nb + h nb, gc + g.w cur nb, nb, path ++ [nb])) := by
            rcases hK5 with hk | ⟨p, hp⟩
            · left
              by_cases hsc : s = cur
              · exfalso
                have hk2 : alook vis cur = some (dist g s s) := by
                  rw [← hsc]
                  exact hk
                rcases aSkip_false hacc with h1 | ⟨gv, h1, h2⟩
                · rw [h1] at hk2
                  simp at hk2
                · rw [h1] at hk2
                  have hgveq : gv = dist g s s := Option.some.inj hk2
                  have hds : dist g s s = dist g s cur := congrArg (dist g s) hsc
                  omega
              · rw [alook_cons, if_neg hsc]
                exact hk
            · by_cases he : (dist g s s + h s, dist g s s, s, p) = (fv, gc, cur, path)
              · left
                have hsc : s = cur := by
                  have h2 := congrArg (fun e : Entry4 => e.2.2.1) he
                  simpa using h2
                have hgcd : dist g s s = gc := by
                  have h2 := congrArg (fun e : Entry4 => e.2.1) he
                  simpa using h2
                rw [alook_cons, if_pos hsc, hgcd]
              · exact Or.inr ⟨p, List.mem_append_left _ (popMin_rest_mem hpop hp he)⟩
          have hK42 : ∀ a b, alook ((cur, gc) :: vis) a = some (dist g s a) →
              b ∈ g.adj a → dist g s b = dist g s a + g.w a b →
              alook ((cur, gc) :: vis) b = some (dist g s b) ∨
                ∃ p, (dist g s b + h b, dist g s b, b, p) ∈
                  fr2 ++ (g.adj cur).map (fun nb =>
                    (gc + g.w cur nb + h nb, gc + g.w cur nb, nb, path ++ [nb])) := by
            intro a b ha hb hd
            by_cases hac : a = cur
            · rw [alook_cons, if_pos hac] at ha
              have hgcd : gc = dist g s a := Option.some.inj ha
              right
              refine ⟨path ++ [b], List.mem_append_right _ ?_⟩
              have hd2 : dist g s b = gc + g.w cur b := by
                rw [hd, ← hgcd, hac]
              rw [hd2]
              exact List.mem_map.mpr ⟨b, hac ▸ hb, rfl⟩
            · rw [alook_cons, if_neg hac] at ha
              rcases hK4 a b ha hb hd with hk | ⟨p, hp⟩
              · left
                by_cases hbc : b = cur
                · exfalso
                  have hk2 : alook vis cur = some (dist g s b) := by
                    rw [← hbc]
                    exact hk
                  rcases aSkip_false hacc with h1 | ⟨gv, h1, h2⟩
                  · rw [h1] at hk2
                    simp at hk2
                  · rw [h1] at hk2
                    have hgveq : gv = dist g s b := Option.some.inj hk2
                    have hdb : dist g s b = dist g s cur := congrArg (dist g s) hbc
                    omega
                · rw [alook_cons, if_neg hbc]
                  exact hk
              · by_cases he : (dist g s b + h b, dist g s b, b, p) = (fv, gc, cur, path)
                · left
                  have hbc : b = cur := by
                    have h2 := congrArg (fun e : Entry4 => e.2.2.1) he
                    simpa using h2
                  have hgcd : dist g s b = gc := by
                    have h2 := congrArg (fun e : Entry4 => e.2.1) he
                    simpa using h2
                  rw [alook_cons, if_pos hbc, hgcd]
                · exact Or.inr ⟨p, List.mem_append_left _ (popMin_rest_mem hpop hp he)⟩
          have hPRE2 : ∀ e ∈ fr2 ++ (g.adj cur).map (fun nb =>
              (gc + g.w cur nb + h nb, gc + g.w cur nb, nb, path ++ [nb])),
              ∀ q1 x q2, e.2.2.2 = (q1 ++ [x]) ++ q2 → q2 ≠ [] →
              ∃ gv, alook ((cur, gc) :: vis) x = some gv ∧
                gv ≤ cost g (q1 ++ [x]) := by
            intro e he q1 x q2 hq hqne
            rcases List.mem_append.mp he with he1 | he1
            · obtain ⟨gv, hgv, hgvle⟩ :=
                hPRE e (mem_of_popMin_rest hpop he1) q1 x q2 hq hqne
              by_cases hxc : x = cur
              · refine ⟨gc, by rw [alook_cons, if_pos hxc], ?_⟩
                rw [hxc] at hgv
                rcases aSkip_false hacc with h1 | ⟨gv2, h1, h2⟩
                · rw [h1] at hgv
                  simp at hgv
                · rw [h1] at hgv
                  have : gv2 = gv := Option.some.inj hgv
                  omega
              · exact ⟨gv, by rw [alook_cons, if_neg hxc]; exact hgv, hgvle⟩
            · obtain ⟨nb, hnb, heq⟩ := hpush e he1
              have hqpath : path ++ [nb] = (q1 ++ [x]) ++ q2 := by
                have h2 := congrArg (fun e : Entry4 => e.2.2.2) heq
                simp only at h2
                rw [← h2, hq]
              rcases List.eq_nil_or_concat q2 with hq2 | ⟨q2d, q2l, hq2⟩
              · exact absurd hq2 hqne
              · rw [List.concat_eq_append] at hq2
                rw [hq2, ← List.append_assoc] at hqpath
                obtain ⟨hpq, hnbl⟩ := snoc_inj hqpath
                cases q2d with
                | nil =>
                  simp at hpq
                  have hxcur : x = cur := by
                    have h2 : path.getLast? = some x := by
                      rw [hpq, getLast?_snoc]
                    rw [hvp.1.2.2.1] at h2
                    exact (Option.some.inj h2).symm
                  refine ⟨gc, by rw [alook_cons, if_pos hxcur], ?_⟩
                  rw [← hpq, ← hvp.2.1]
                | cons z zs =>
                  obtain ⟨gv, hgv, hgvle⟩ :=
                    hPRE (fv, gc, cur, path) (popMin_mem hpop) q1 x (z :: zs)
                      (by rw [hpq]) (by simp)
                  by_cases hxc : x = cur
                  · refine ⟨gc, by rw [alook_cons, if_pos hxc], ?_⟩
                    rw [hxc] at hgv
                    rcases aSkip_false hacc with h1 | ⟨gv2, h1, h2⟩
                    · rw [h1] at hgv
                      simp at hgv
                    · rw [h1] at hgv
                      have : gv2 = gv := Option.some.inj hgv
                      omega
                  · exact ⟨gv, by rw [alook_cons, if_neg hxc]; exact hgv, hgvle⟩
          have hND2 : ∀ e ∈ fr2 ++ (g.adj cur).map (fun nb =>
              (gc + g.w cur nb + h nb, gc + g.w cur nb, nb, path ++ [nb])),
              e.2.2.2.dropLast.Nodup := by
            intro e he
            rcases List.mem_append.mp he with he1 | he1
            · exact hND e (mem_of_popMin_rest hpop he1)
            · obtain ⟨nb, hnb, heq⟩ := hpush e he1
              rw [heq]
              simp only
              rw [List.dropLast_concat]
              exact hnodup
          have hGN2 : alook ((cur, gc) :: vis) t = none := by
            rw [alook_cons, if_neg (fun he => hg he.symm)]
            exact hGN
          have HI := ih _ _ (evs ++ [⟨cur, some gc, some (h cur), path⟩])
            hAV2 hA22 hK52 hK42 hPRE2 hND2 hGN2
          refine ⟨HI.1, HI.2.1, ?_⟩
          intro hm
          apply HI.2.2
          rw [List.length_append, List.length_map]
          by_cases hcn : cur ∈ g.nodes
          · have hdeg := adj_len_le_maxDeg hcn
            have hcap := aCap_update_lt (s := s) hcn hacc hgb
            have hmul : (aCap g s ((cur, gc) :: vis) + 1) * (maxDeg g + 1) ≤
                aCap g s vis * (maxDeg g + 1) :=
              Nat.mul_le_mul_right _ hcap
            rw [Nat.add_mul] at hmul
            omega
          · rw [hwf.1 cur hcn]
            simp only [List.length_nil]
            have hcap := @aCap_update_le g s cur gc vis hcn
            have hmul : aCap g s ((cur, gc) :: vis) * (maxDeg g + 1) ≤
                aCap g s vis * (maxDeg g + 1) :=
              Nat.mul_le_mul_right _ hcap
            omega

theorem aLoop_sound {g : Graph} {s t : Nat} {h : Nat → Nat} :
    ∀ fuel fr vis evs, (∀ e ∈ fr, IsPath g e.2.2.2 s e.2.2.1) →
      ∀ p, (aLoop g t h fuel fr vis evs).2 = some (some p) → IsPath g p s t := by
  intro fuel
  induction fuel with
  | zero =>
    intro fr vis evs hinv p hp
    simp [aLoop] at hp
  | succ n ih =>
    intro fr vis evs hinv p hp
    rw [aLoop] at hp
    cases hpop : popMin key4 fr with
    | none =>
      rw [hpop] at hp
      simp at hp
    | some pr =>
      obtain ⟨⟨fv, gc, cur, path⟩, fr2⟩ := pr
      rw [hpop] at hp
      simp only at hp
      cases hacc : aSkip (alook vis cur) gc with
      | true =>
        rw [hacc, if_pos rfl] at hp
        refine ih fr2 vis evs (fun e he => hinv e (mem_of_popMin_rest hpop he)) p hp
      | false =>
        rw [hacc, if_neg (by simp)] at hp
        by_cases hg : cur = t
        · rw [if_pos hg] at hp
          simp at hp
          have hpath := hinv (fv, gc, cur, path) (popMin_mem hpop)
          simp only at hpath
          rw [← hp, ← hg]
          exact hpath
        · rw [if_neg hg] at hp
          refine ih _ _ _ ?_ p hp
          intro e he
          rcases List.mem_append.mp he with he1 | he1
          · exact hinv e (mem_of_popMin_rest hpop he1)
          · obtain ⟨nb, hnb, heq⟩ := List.mem_map.mp he1
            have hpath := hinv (fv, gc, cur, path) (popMin_mem hpop)
            simp only at hpath
            rw [← heq]
            exact isPath_snoc hpath hnb

theorem aLoop_events {g : Graph} {t : Nat} {h : Nat → Nat} :
    ∀ fuel fr vis evs,
      evs.Pairwise (fun e1 e2 => e1.node = e2.node →
        ∀ g1 g2, e1.gval = some g1 → e2.gval = some g2 → g2 < g1) →
      (∀ e ∈ evs, ∃ gve, e.gval = some gve ∧
        ∃ gv2, alook vis e.node = some gv2 ∧ gv2 ≤ gve) →
      ((aLoop g t h fuel fr vis evs).1).Pairwise (fun e1 e2 => e1.node = e2.node →
        ∀ g1 g2, e1.gval = some g1 → e2.gval = some g2 → g2 < g1) := by
  intro fuel
  induction fuel with
  | zero =>
    intro fr vis evs h1 h2
    simpa [aLoop] using h1
  | succ n ih =>
    intro fr vis evs h1 h2
    rw [aLoop]
    cases hpop : popMin key4 fr with
    | none => simpa using h1
    | some pr =>
      obtain ⟨⟨fv, gc, cur, path⟩, fr2⟩ := pr
      simp only
      cases hacc : aSkip (alook vis cur) gc with
      | true =>
        rw [if_pos rfl]
        exact ih fr2 vis evs h1 h2
      | false =>
        rw [if_neg (by simp)]
        have hnew : ((evs ++ [⟨cur, some gc, some (h cur), path⟩]) : List Event).Pairwise
            (fun e1 e2 => e1.node = e2.node →
              ∀ g1 g2, e1.gval = some g1 → e2.gval = some g2 → g2 < g1) := by
          rw [List.pairwise_append]
          refine ⟨h1, by simp, ?_⟩
          intro e1 he1 e2 he2
          simp only [List.mem_singleton] at he2
          intro hnode g1 g2 hg1 hg2
          obtain ⟨gve, hgval, gv2, halook, hle⟩ := h2 e1 he1
          rw [he2] at hnode hg2
          simp only at hnode hg2
          have hg2e : g2 = gc := by
            have := Option.some.inj hg2
            omega
          have hg1e : g1 = gve := by
            rw [hgval] at hg1
            exact (Option.some.inj hg1).symm
          rw [hnode] at halook
          rcases aSkip_false hacc with hn | ⟨gv3, hsome, hlt⟩
          · rw [hn] at halook
            simp at halook
          · rw [hsome] at halook
            have : gv3 = gv2 := Option.some.inj halook
            omega
        have hlink : ∀ e ∈ evs ++ [(⟨cur, some gc, some (h cur), path⟩ : Event)],
            ∃ gve, e.gval = some gve ∧
              ∃ gv2, alook ((cur, gc) :: vis) e.node = some gv2 ∧ gv2 ≤ gve := by
          intro e he
          rcases List.mem_append.mp he with he1 | he1
          · obtain ⟨gve, hgval, gv2, halook, hle⟩ := h2 e he1
            by_cases hec : e.node = cur
            · refine ⟨gve, hgval, gc, by rw [alook_cons, if_pos hec], ?_⟩
              rw [hec] at halook
              rcases aSkip_false hacc with hn | ⟨gv3, hsome, hlt⟩
              · rw [hn] at halook
                simp at halook
              · rw [hsome] at halook
                have : gv3 = gv2 := Option.some.inj halook
                omega
            · exact ⟨gve, hgval, gv2, by rw [alook_cons, if_neg hec]; exact halook, hle⟩
          · simp only [List.mem_singleton] at he1
            rw [he1]
            exact ⟨gc, rfl, gc, by rw [alook_cons, if_pos rfl], le_refl gc⟩
        by_cases hg : cur = t
        · rw [if_pos hg]
          exact hnew
        · rw [if_neg hg]
          exact ih _ _ _ hnew hlink

theorem aLoop_halts {g : Graph} {s t : Nat} {h : Nat → Nat} (hwf : g.WF) :
    ∀ fuel fr vis evs,
      (∀ e ∈ fr, IsPath g e.2.2.2 s e.2.2.1 ∧ cost g e.2.2.2 = e.2.1) →
      (∀ e ∈ fr, ∀ q1 x q2, e.2.2.2 = (q1 ++ [x]) ++ q2 → q2 ≠ [] →
        ∃ gv, alook vis x = some gv ∧ gv ≤ cost g (q1 ++ [x])) →
      (∀ e ∈ fr, e.2.2.2.dropLast.Nodup) →
      fr.length + aCap g s vis * (maxDeg g + 1) < fuel →
      (aLoop g t h fuel fr vis evs).2 ≠ none := by
  intro fuel
  induction fuel with
  | zero =>
    intro fr vis evs hAV hPRE hND hm
    omega
  | succ n ih =>
    intro fr vis evs hAV hPRE hND hm
    rw [aLoop]
    cases hpop : popMin key4 fr with
    | none => simp
    | some pr =>
      obtain ⟨⟨fv, gc, cur, path⟩, fr2⟩ := pr
      simp only
      have hvp := hAV (fv, gc, cur, path) (popMin_mem hpop)
      simp only at hvp
      have hlen := popMin_length hpop
      cases hacc : aSkip (alook vis cur) gc with
      | true =>
        rw [if_pos rfl]
        refine ih fr2 vis evs
          (fun e he => hAV e (mem_of_popMin_rest hpop he))
          (fun e he => hPRE e (mem_of_popMin_rest hpop he))
          (fun e he => hND e (mem_of_popMin_rest hpop he)) (by omega)
      | false =>
        rw [if_neg (by simp)]
        have hnodup : path.Nodup :=
          accepted_nodup (fun q1 x q2 hq hne =>
            hPRE (fv, gc, cur, path) (popMin_mem hpop) q1 x q2 hq hne)
            (hND (fv, gc, cur, path) (popMin_mem hpop))
            hvp.1.2.2.1 hvp.2 hacc
        have hgb : gc ≤ gBound g := by
          rw [← hvp.2]
          exact cost_le_gBound hwf hvp.1 hnodup
        by_cases hg : cur = t
        · rw [if_pos hg]
          simp
        · rw [if_neg hg]
          have hpush : ∀ e ∈ (g.adj cur).map (fun nb =>
              (gc + g.w cur nb + h nb, gc + g.w cur nb, nb, path ++ [nb])),
              ∃ nb, nb ∈ g.adj cur ∧
                e = (gc + g.w cur nb + h nb, gc + g.w cur nb, nb, path ++ [nb]) := by
            intro e he
            obtain ⟨nb, hnb, heq⟩ := List.mem_map.mp he
            exact ⟨nb, hnb, heq.symm⟩
          have hAV2 : ∀ e ∈ fr2 ++ (g.adj cur).map (fun nb =>
              (gc + g.w cur nb + h nb, gc + g.w cur nb, nb, path ++ [nb])),
              IsPath g e.2.2.2 s e.2.2.1 ∧ cost g e.2.2.2 = e.2.1 := by
            intro e he
            rcases List.mem_append.mp he with he1 | he1
            · exact hAV e (mem_of_popMin_rest hpop he1)
            · obtain ⟨nb, hnb, heq⟩ := hpush e he1
              rw [heq]
              refine ⟨isPath_snoc hvp.1 hnb, ?_⟩
              simp only
              rw [cost_snoc nb hvp.1.2.2.1, hvp.2]
          have hPRE2 : ∀ e ∈ fr2 ++ (g.adj cur).map (fun nb =>
              (gc + g.w cur nb + h nb, gc + g.w cur nb, nb, path ++ [nb])),
              ∀ q1 x q2, e.2.2.2 = (q1 ++ [x]) ++ q2 → q2 ≠ [] →
              ∃ gv, alook ((cur, gc) :: vis) x = some gv ∧
                gv ≤ cost g (q1 ++ [x]) := by
            intro e he q1 x q2 hq hqne
            rcases List.mem_append.mp he with he1 | he1
            · obtain ⟨gv, hgv, hgvle⟩ :=
                hPRE e (mem_of_popMin_rest hpop he1) q1 x q2 hq hqne
              by_cases hxc : x = cur
              · refine ⟨gc, by rw [alook_cons, if_pos hxc], ?_⟩
                rw [hxc] at hgv
                rcases aSkip_false hacc with h1 | ⟨gv2, h1, h2⟩
                · rw [h1] at hgv
                  simp at hgv
                · rw [h1] at hgv
                  have : gv2 = gv := Option.some.inj hgv
                  omega
              · exact ⟨gv, by rw [alook_cons, if_neg hxc]; exact hgv, hgvle⟩
            · obtain ⟨nb, hnb, heq⟩ := hpush e he1
              have hqpath : path ++ [nb] = (q1 ++ [x]) ++ q2 := by
                have h2 := congrArg (fun e : Entry4 => e.2.2.2) heq
                simp only at h2
                rw [← h2, hq]
              rcases List.eq_nil_or_concat q2 with hq2 | ⟨q2d, q2l, hq2⟩
              · exact absurd hq2 hqne
              · rw [List.concat_eq_append] at hq2
                rw [hq2, ← List.append_assoc] at hqpath
                obtain ⟨hpq, hnbl⟩ := snoc_inj hqpath
                cases q2d with
                | nil =>
                  simp at hpq
                  have hxcur : x = cur := by
                    have h2 : path.getLast? = some x := by
                      rw [hpq, getLast?_snoc]
                    rw [hvp.1.2.2.1] at h2
                    exact (Option.some.inj h2).symm
                  refine ⟨gc, by rw [alook_cons, if_pos hxcur], ?_⟩
                  rw [← hpq, ← hvp.2]
                | cons z zs =>
                  obtain ⟨gv, hgv, hgvle⟩ :=
                    hPRE (fv, gc, cur, path) (popMin_mem hpop) q1 x (z :: zs)
                      (by rw [hpq]) (by simp)
                  by_cases hxc : x = cur
                  · refine ⟨gc, by rw [alook_cons, if_pos hxc], ?_⟩
                    rw [hxc] at hgv
                    rcases aSkip_false hacc with h1 | ⟨gv2, h1, h2⟩
                    · rw [h1] at hgv
                      simp at hgv
                    · rw [h1] at hgv
                      have : gv2 = gv := Option.some.inj hgv
                      omega
                  · exact ⟨gv, by rw [alook_cons, if_neg hxc]; exact hgv, hgvle⟩
          have hND2 : ∀ e ∈ fr2 ++ (g.adj cur).map (fun nb =>
              (gc + g.w cur nb + h nb, gc + g.w cur nb, nb, path ++ [nb])),
              e.2.2.2.dropLast.Nodup := by
            intro e he
            rcases List.mem_append.mp he with he1 | he1
            · exact hND e (mem_of_popMin_rest hpop he1)
            · obtain ⟨nb, hnb, heq⟩ := hpush e he1
              rw [heq]
              simp only
              rw [List.dropLast_concat]
              exact hnodup
          refine ih _ _ (evs ++ [⟨cur, some gc, some (h cur), path⟩])
            hAV2 hPRE2 hND2 ?_
          rw [List.length_append, List.length_map]
          by_cases hcn : cur ∈ g.nodes
          · have hdeg := adj_len_le_maxDeg hcn
            have hcap := aCap_update_lt (s := s) hcn hacc hgb
            have hmul : (aCap g s ((cur, gc) :: vis) + 1) * (maxDeg g + 1) ≤
                aCap g s vis * (maxDeg g + 1) :=
              Nat.mul_le_mul_right _ hcap
            rw [Nat.add_mul] at hmul
            omega
          · rw [hwf.1 cur hcn]
            simp only [List.length_nil]
            have hcap := @aCap_update_le g s cur gc vis hcn
            have hmul : aCap g s ((cur, gc) :: vis) * (maxDeg g + 1) ≤
                aCap g s vis * (maxDeg g + 1) :=
              Nat.mul_le_mul_right _ hcap
            omega

theorem aRun_init_master {g : Graph} {s t : Nat} {h : Nat → Nat} (hwf : g.WF)
    (hAdm : ∀ v σ, IsPath g σ v t → h v ≤ cost g σ) :
    (∀ p, (aRun g s t h).2 = some (some p) →
        IsPath g p s t ∧ cost g p = dist g s t) ∧
      (Reachable g s t → (aRun g s t h).2 ≠ some none) ∧
      ((aRun g s t h).2 ≠ none) := by
  have hmaster := aLoop_master hwf hAdm (aFuel g s) [(0 + h s, 0, s, [s])] [] []
    (by
      intro e he
      simp at he
      rw [he]
      exact ⟨isPath_single g s, by simp [cost], by simp⟩)
    (by intro c gv hc; simp [alook] at hc)
    (by
      right
      refine ⟨[s], ?_⟩
      rw [dist_self]
      simp)
    (by intro a b ha; simp [alook] at ha)
    (by
      intro e he q1 x q2 hq hqne
      simp at he
      rw [he] at hq
      simp only at hq
      have hlen := congrArg List.length hq
      rw [List.length_append, List.length_append] at hlen
      simp at hlen
      have : q2.length = 0 := by omega
      exact absurd (List.length_eq_zero.mp this) hqne)
    (by
      intro e he
      simp at he
      rw [he]
      simp)
    (by simp [alook])
  refine ⟨hmaster.1, hmaster.2.1, ?_⟩
  apply hmaster.2.2
  simp only [List.length_cons, List.length_nil, aFuel]
  omega

theorem a_star_optimal {g : Graph} {s t : Nat} (hwf : g.WF) {h : Nat → Nat}
    (hAdm : ∀ v σ, IsPath g σ v t → h v ≤ cost g σ) (hr : Reachable g s t) :
    ∃ p, (aRun g s t h).2 = some (some p) ∧ IsPath g p s t ∧
      cost g p = dist g s t := by
  have hmaster := aRun_init_master (s := s) hwf hAdm
  rcases ho : (aRun g s t h).2 with - | ro
  · exact absurd ho hmaster.2.2
  · rcases ro with - | p
    · exact absurd ho (hmaster.2.1 hr)
    · exact ⟨p, rfl, hmaster.1 p ho⟩

theorem a_star_none_of_unreachable {g : Graph} {s t : Nat} (hwf : g.WF)
    (hur : ¬Reachable g s t) (h : Nat → Nat) : (aRun g s t h).2 = some none := by
  apply outcome_cases
  · refine aLoop_halts hwf (aFuel g s) [(0 + h s, 0, s, [s])] [] []
      (by
        intro e he
        simp at he
        rw [he]
        exact ⟨isPath_single g s, by simp [cost]⟩)
      (by
        intro e he q1 x q2 hq hqne
        simp at he
        rw [he] at hq
        simp only at hq
        have hlen := congrArg List.length hq
        rw [List.length_append, List.length_append] at hlen
        simp at hlen
        have : q2.length = 0 := by omega
        exact absurd (List.length_eq_zero.mp this) hqne)
      (by
        intro e he
        simp at he
        rw [he]
        simp)
      ?_
    simp only [List.length_cons, List.length_nil, aFuel]
    omega
  · intro p hp
    exact hur ⟨p, aLoop_sound (aFuel g s) [(0 + h s, 0, s, [s])] [] []
      (by
        intro e he
        simp at he
        rw [he]
        exact isPath_single g s) p hp⟩

theorem aRun_self (g : Graph) (s : Nat) (h : Nat → Nat) :
    aRun g s s h = ([⟨s, some 0, some (h s), [s]⟩], some (some [s])) := by
  have hf : aFuel g s = (aCap g s [] * (maxDeg g + 1) + 1) + 1 := rfl
  rw [aRun, hf, aLoop]
  have hpop : popMin key4 [(0 + h s, 0, s, [s])] =
      some ((0 + h s, 0, s, [s]), []) := popMin_singleton key4 _
  rw [hpop]
  simp [aSkip, alook]

/-!  ## Depth-limited and iterative-deepening DFS lemmas  -/

theorem dldfs_sound {g : Graph} {s goal : Nat} :
    ∀ limit current path visited, IsPath g path s current →
      ∀ r, depth_limited_dfs g goal limit current path visited = some r →
        IsPath g r s goal := by
  intro limit
  induction limit with
  | zero =>
    intro current path visited hp r hr
    rw [depth_limited_dfs] at hr
    by_cases hg : current = goal
    · rw [if_pos hg] at hr
      have h2 := Option.some.inj hr
      rw [← h2, ← hg]
      exact hp
    · rw [if_neg hg] at hr
      simp at hr
  | succ lim ih =>
    intro current path visited hp r hr
    rw [depth_limited_dfs] at hr
    by_cases hg : current = goal
    · rw [if_pos hg] at hr
      have h2 := Option.some.inj hr
      rw [← h2, ← hg]
      exact hp
    · rw [if_neg hg] at hr
      have hB : ∀ l, (∀ nb ∈ l, nb ∈ g.adj current) → ∀ visited2,
          dldfsNbrs g goal lim l path visited2 = some r →
          IsPath g r s goal := by
        intro l
        induction l with
        | nil =>
          intro hadj visited2 hr2
          rw [dldfsNbrs] at hr2
          simp at hr2
        | cons nb rest ihl =>
          intro hadj visited2 hr2
          rw [dldfsNbrs] at hr2
          by_cases hv : nb ∈ visited2
          · rw [if_pos hv] at hr2
            exact ihl (fun x hx => hadj x (List.mem_cons_of_mem _ hx)) visited2 hr2
          · rw [if_neg hv] at hr2
            cases hrec : depth_limited_dfs g goal lim nb (path ++ [nb]) visited2 with
            | some r2 =>
              rw [hrec] at hr2
              simp at hr2
              rw [← hr2]
              exact ih nb (path ++ [nb]) visited2
                (isPath_snoc hp (hadj nb (List.mem_cons_self _ _))) r2 hrec
            | none =>
              rw [hrec] at hr2
              exact ihl (fun x hx => hadj x (List.mem_cons_of_mem _ hx)) visited2 hr2
      exact hB (g.adj current) (fun nb hnb => hnb) (current :: visited) hr

theorem iddfsAux_sound {g : Graph} {s t : Nat} :
    ∀ fuel depth r, iddfsAux g s t fuel depth = some r → IsPath g r s t := by
  intro fuel
  induction fuel with
  | zero =>
    intro depth r hr
    simp [iddfsAux] at hr
  | succ n ih =>
    intro depth r hr
    rw [iddfsAux] at hr
    cases hd : depth_limited_dfs g t depth s [s] [] with
    | some r2 =>
      rw [hd] at hr
      simp at hr
      rw [← hr]
      exact dldfs_sound depth s [s] [] (isPath_single g s) r2 hd
    | none =>
      rw [hd] at hr
      exact ih (depth + 1) r hr

theorem iddfs_returns_sound {g : Graph} {s t : Nat} {r : List Nat}
    (hr : IDDFSReturns g s t r) : IsPath g r s t := by
  obtain ⟨fuel, hf⟩ := hr
  exact iddfsAux_sound fuel 0 r hf

theorem iddfs_diverges_of_unreachable {g : Graph} {s t : Nat}
    (hur : ¬Reachable g s t) : IDDFSDiverges g s t := by
  have hgen : ∀ fuel depth, iddfsAux g s t fuel depth = none := by
    intro fuel
    induction fuel with
    | zero =>
      intro depth
      rfl
    | succ n ih =>
      intro depth
      rw [iddfsAux]
      cases hd : depth_limited_dfs g t depth s [s] [] with
      | some r2 =>
        exact absurd ⟨r2, dldfs_sound depth s [s] [] (isPath_single g s) r2 hd⟩ hur
      | none =>
        exact ih (depth + 1)
  intro fuel
  exact hgen fuel 0

/-!  ## Bidirectional search lemmas  -/

theorem meet_path {g : Graph} (hsym : g.Sym) {np pOther : List Nat}
    {o o2 nb : Nat} (h1 : IsPath g np o nb) (h2 : IsPath g pOther o2 nb) :
    IsPath g (np ++ pOther.dropLast.reverse) o o2 := by
  rw [← reverse_tail_eq_dropLast_reverse]
  exact isPath_append_tail h1 (isPath_reverse hsym h2)

theorem alook_isSome_iff {α : Type} : ∀ (vs : List (Nat × α)) (n : Nat),
    (alook vs n).isSome = true ↔ n ∈ vs.map Prod.fst := by
  intro vs n
  induction vs with
  | nil => simp [alook]
  | cons e r ih =>
    obtain ⟨a, v⟩ := e
    by_cases hn : n = a <;> simp [alook, hn, ih]

theorem sdiff_insert_card {S K : Finset Nat} {nb : Nat} (h1 : nb ∈ S)
    (h2 : nb ∉ K) : (S \ insert nb K).card + 1 = (S \ K).card := by
  have hset : S \ insert nb K = (S \ K).erase nb := by
    ext x
    simp only [Finset.mem_sdiff, Finset.mem_insert, Finset.mem_erase]
    tauto
  rw [hset]
  exact Finset.card_erase_add_one (Finset.mem_sdiff.mpr ⟨h1, h2⟩)

theorem chain_in_closed {g : Graph} {vs : List (Nat × List Nat)}
    (hcl : ∀ u, (alook vs u).isSome → ∀ b ∈ g.adj u, (alook vs b).isSome) :
    ∀ p a t, IsPath g p a t → (alook vs a).isSome → (alook vs t).isSome := by
  intro p
  induction p with
  | nil =>
    intro a t hp ha
    exact absurd rfl hp.1
  | cons x r ih =>
    intro a t hp ha
    cases r with
    | nil =>
      obtain ⟨h1, h2⟩ := isPath_single_elim hp
      rw [h2, ← h1]
      exact ha
    | cons y r2 =>
      obtain ⟨hs, hxy, htail⟩ := isPath_cons_elim hp
      refine ih y t htail (hcl a ha y ?_)
      rw [hs]
      exact hxy

theorem bexpList_mono {g : Graph} {vother : List (Nat × List Nat)}
    {path : List Nat} : ∀ l fr vs n, (alook vs n).isSome →
      (alook (bexpList g vother path l fr vs).2.1 n).isSome := by
  intro l
  induction l with
  | nil =>
    intro fr vs n hn
    simpa [bexpList] using hn
  | cons nb rest ih =>
    intro fr vs n hn
    simp only [bexpList]
    cases hv : (alook vs nb).isSome with
    | true =>
      rw [if_pos rfl]
      exact ih fr vs n hn
    | false =>
      rw [if_neg (by simp)]
      cases ho : alook vother nb with
      | some pO =>
        simp only
        by_cases hnb : n = nb
        · simp [alook_cons, hnb]
        · simp only [alook_cons, if_neg hnb]
          exact hn
      | none =>
        simp only
        refine ih _ _ n ?_
        by_cases hnb : n = nb
        · simp [alook_cons, hnb]
        · simp only [alook_cons, if_neg hnb]
          exact hn

theorem bexpList_fr_mono {g : Graph} {vother : List (Nat × List Nat)}
    {path : List Nat} : ∀ l fr vs, ∀ e ∈ fr,
      e ∈ (bexpList g vother path l fr vs).1 := by
  intro l
  induction l with
  | nil =>
    intro fr vs e he
    simpa [bexpList] using he
  | cons nb rest ih =>
    intro fr vs e he
    simp only [bexpList]
    cases hv : (alook vs nb).isSome with
    | true =>
      rw [if_pos rfl]
      exact ih fr vs e he
    | false =>
      rw [if_neg (by simp)]
      cases ho : alook vother nb with
      | some pO =>
        simp only
        exact List.mem_append_left _ he
      | none =>
        simp only
        exact ih _ _ e (List.mem_append_left _ he)

theorem bexpList_processed {g : Graph} {vother : List (Nat × List Nat)}
    {path : List Nat} : ∀ l fr vs fr2 vs2,
      bexpList g vother path l fr vs = (fr2, vs2, none) →
      ∀ b ∈ l, (alook vs2 b).isSome := by
  intro l
  induction l with
  | nil =>
    intro fr vs fr2 vs2 heq b hb
    exact absurd hb (List.not_mem_nil b)
  | cons nb rest ih =>
    intro fr vs fr2 vs2 heq b hb
    simp only [bexpList] at heq
    cases hv : (alook vs nb).isSome with
    | true =>
      rw [hv, if_pos rfl] at heq
      rcases List.mem_cons.mp hb with hb1 | hb1
      · have := @bexpList_mono g vother path rest fr vs b (hb1 ▸ hv)
        rw [heq] at this
        exact this
      · exact ih fr vs fr2 vs2 heq b hb1
    | false =>
      rw [hv, if_neg (by simp)] at heq
      cases ho : alook vother nb with
      | some pO =>
        rw [ho] at heq
        simp at heq
      | none =>
        rw [ho] at heq
        simp only at heq
        rcases List.mem_cons.mp hb with hb1 | hb1
        · have hkey : (alook ((nb, path ++ [nb]) :: vs) b).isSome := by
            simp [alook_cons, hb1]
          have := @bexpList_mono g vother path rest
            (fr ++ [(nb, path ++ [nb])]) ((nb, path ++ [nb]) :: vs) b hkey
          rw [heq] at this
          exact this
        · exact ih _ _ fr2 vs2 heq b hb1

theorem bexpList_new {g : Graph} {vother : List (Nat × List Nat)}
    {path : List Nat} : ∀ l fr vs fr2 vs2,
      bexpList g vother path l fr vs = (fr2, vs2, none) →
      ∀ n, (alook vs2 n).isSome →
        (alook vs n).isSome ∨ (alook vother n = none ∧ ∃ p, (n, p) ∈ fr2) := by
  intro l
  induction l with
  | nil =>
    intro fr vs fr2 vs2 heq n hn
    simp only [bexpList, Prod.mk.injEq] at heq
    obtain ⟨-, h2, -⟩ := heq
    rw [← h2] at hn
    exact Or.inl hn
  | cons nb rest ih =>
    intro fr vs fr2 vs2 heq n hn
    simp only [bexpList] at heq
    cases hv : (alook vs nb).isSome with
    | true =>
      rw [hv, if_pos rfl] at heq
      exact ih fr vs fr2 vs2 heq n hn
    | false =>
      rw [hv, if_neg (by simp)] at heq
      cases ho : alook vother nb with
      | some pO =>
        rw [ho] at heq
        simp at heq
      | none =>
        rw [ho] at heq
        simp only at heq
        rcases ih _ _ fr2 vs2 heq n hn with h1 | h1
        · by_cases hnb : n = nb
          · right
            refine ⟨by rw [hnb]; exact ho, path ++ [nb], ?_⟩
            have hmem : (nb, path ++ [nb]) ∈ fr ++ [(nb, path ++ [nb])] :=
              List.mem_append_right _ (List.mem_singleton.mpr rfl)
            have h2 := @bexpList_fr_mono g vother path rest
              (fr ++ [(nb, path ++ [nb])])
              ((nb, path ++ [nb]) :: vs) (nb, path ++ [nb]) hmem
            rw [heq] at h2
            rw [hnb]
            exact h2
          · left
            rw [alook_cons, if_neg hnb] at h1
            exact h1
        · exact Or.inr h1

theorem bexpList_meet {g : Graph} {vother : List (Nat × List Nat)}
    {path : List Nat} : ∀ l fr vs fr2 vs2 ev res,
      bexpList g vother path l fr vs = (fr2, vs2, some (ev, res)) →
      ∃ nb ∈ l, ∃ pOther, alook vother nb = some pOther ∧
        res = (path ++ [nb]) ++ pOther.dropLast.reverse := by
  intro l
  induction l with
  | nil =>
    intro fr vs fr2 vs2 ev res heq
    simp [bexpList] at heq
  | cons nb rest ih =>
    intro fr vs fr2 vs2 ev res heq
    simp only [bexpList] at heq
    cases hv : (alook vs nb).isSome with
    | true =>
      rw [hv, if_pos rfl] at heq
      obtain ⟨nb2, hnb2, pO, hpO, hres⟩ := ih fr vs fr2 vs2 ev res heq
      exact ⟨nb2, List.mem_cons_of_mem _ hnb2, pO, hpO, hres⟩
    | false =>
      rw [hv, if_neg (by simp)] at heq
      cases ho : alook vother nb with
      | some pO =>
        rw [ho] at heq
        simp only [Prod.mk.injEq, Option.some.injEq] at heq
        obtain ⟨-, -, -, h4⟩ := heq
        exact ⟨nb, List.mem_cons_self _ _, pO, ho, h4.symm⟩
      | none =>
        rw [ho] at heq
        simp only at heq
        obtain ⟨nb2, hnb2, pO, hpO, hres⟩ := ih _ _ fr2 vs2 ev res heq
        exact ⟨nb2, List.mem_cons_of_mem _ hnb2, pO, hpO, hres⟩

theorem bexpList_valid {g : Graph} {vother : List (Nat × List Nat)}
    {path : List Nat} {o cur : Nat} (hp : IsPath g path o cur) :
    ∀ l fr vs fr2 vs2 res, (∀ b ∈ l, b ∈ g.adj cur) →
      bexpList g vother path l fr vs = (fr2, vs2, res) →
      (∀ n q, alook vs n = some q → IsPath g q o n) →
      (∀ e ∈ fr, IsPath g e.2 o e.1) →
      (∀ n q, alook vs2 n = some q → IsPath g q o n) ∧
      (∀ e ∈ fr2, IsPath g e.2 o e.1) := by
  intro l
  induction l with
  | nil =>
    intro fr vs fr2 vs2 res hadj heq hvs hfr
    simp only [bexpList, Prod.mk.injEq] at heq
    obtain ⟨h1, h2, -⟩ := heq
    rw [← h1, ← h2]
    exact ⟨hvs, hfr⟩
  | cons nb rest ih =>
    intro fr vs fr2 vs2 res hadj heq hvs hfr
    simp only [bexpList] at heq
    have hvs2 : ∀ n q, alook ((nb, path ++ [nb]) :: vs) n = some q →
        IsPath g q o n := by
      intro n q hq
      rw [alook_cons] at hq
      by_cases hnb : n = nb
      · rw [if_pos hnb] at hq
        have hq2 := Option.some.inj hq
        rw [← hq2, hnb]
        exact isPath_snoc hp (hadj nb (List.mem_cons_self _ _))
      · rw [if_neg hnb] at hq
        exact hvs n q hq
    have hfr2 : ∀ e ∈ fr ++ [(nb, path ++ [nb])], IsPath g e.2 o e.1 := by
      intro e he
      rcases List.mem_append.mp he with he1 | he1
      · exact hfr e he1
      · rw [List.mem_singleton.mp he1]
        exact isPath_snoc hp (hadj nb (List.mem_cons_self _ _))
    cases hv : (alook vs nb).isSome with
    | true =>
      rw [hv, if_pos rfl] at heq
      exact ih fr vs fr2 vs2 res
        (fun b hb => hadj b (List.mem_cons_of_mem _ hb)) heq hvs hfr
    | false =>
      rw [hv, if_neg (by simp)] at heq
      cases ho : alook vother nb with
      | some pO =>
        rw [ho] at heq
        simp only [Prod.mk.injEq] at heq
        obtain ⟨h1, h2, -⟩ := heq
        rw [← h1, ← h2]
        exact ⟨hvs2, hfr2⟩
      | none =>
        rw [ho] at heq
        simp only at heq
        exact ih _ _ fr2 vs2 res
          (fun b hb => hadj b (List.mem_cons_of_mem _ hb)) heq hvs2 hfr2

theorem bexpList_measure {g : Graph} {vother : List (Nat × List Nat)}
    {path : List Nat} : ∀ l fr vs fr2 vs2, (∀ b ∈ l, b ∈ g.nodes) →
      bexpList g vother path l fr vs = (fr2, vs2, none) →
      fr2.length + (g.nodes.toFinset \ (vs2.map Prod.fst).toFinset).card =
      fr.length + (g.nodes.toFinset \ (vs.map Prod.fst).toFinset).card := by
  intro l
  induction l with
  | nil =>
    intro fr vs fr2 vs2 hl heq
    simp only [bexpList, Prod.mk.injEq] at heq
    obtain ⟨h1, h2, -⟩ := heq
    rw [← h1, ← h2]
  | cons nb rest ih =>
    intro fr vs fr2 vs2 hl heq
    simp only [bexpList] at heq
    cases hv : (alook vs nb).isSome with
    | true =>
      rw [hv, if_pos rfl] at heq
      exact ih fr vs fr2 vs2 (fun b hb => hl b (List.mem_cons_of_mem _ hb)) heq
    | false =>
      rw [hv, if_neg (by simp)] at heq
      cases ho : alook vother nb with
      | some pO =>
        rw [ho] at heq
        simp at heq
      | none =>
        rw [ho] at heq
        simp only at heq
        have hstep := ih _ _ fr2 vs2
          (fun b hb => hl b (List.mem_cons_of_mem _ hb)) heq
        rw [hstep]
        have hkeys : (((nb, path ++ [nb]) :: vs).map Prod.fst).toFinset =
            insert nb ((vs.map Prod.fst).toFinset) := by
          simp
        rw [hkeys]
        have hnbS : nb ∈ g.nodes.toFinset :=
          List.mem_toFinset.mpr (hl nb (List.mem_cons_self _ _))
        have hnbK : nb ∉ (vs.map Prod.fst).toFinset := by
          intro hmem
          have := (alook_isSome_iff vs nb).mpr (List.mem_toFinset.mp hmem)
          rw [hv] at this
          exact Bool.false_ne_true this
        have hcard := sdiff_insert_card hnbS hnbK
        rw [List.length_append]
        simp only [List.length_singleton]
        omega

theorem bidirLoop_exit {g : Graph} :
    ∀ fuel fs fg vs vg evs fsF fgF,
      (bidirLoop g fuel fs fg vs vg evs).2 = some (none, fsF, fgF) →
      fsF = [] ∨ fgF = [] := by
  intro fuel
  induction fuel with
  | zero =>
    intro fs fg vs vg evs fsF fgF heq
    simp [bidirLoop] at heq
  | succ n ih =>
    intro fs fg vs vg evs fsF fgF heq
    cases fs with
    | nil =>
      simp only [bidirLoop] at heq
      have h2 := Option.some.inj heq
      exact Or.inl (congrArg (fun x => x.2.1) h2).symm
    | cons e fsr =>
      obtain ⟨cur, path⟩ := e
      cases fg with
      | nil =>
        simp only [bidirLoop] at heq
        have h2 := Option.some.inj heq
        exact Or.inr (congrArg (fun x => x.2.2) h2).symm
      | cons e2 fgr =>
        obtain ⟨cur2, path2⟩ := e2
        rw [bidirLoop] at heq
        simp only at heq
        rcases hb : bexpList g vg path (g.adj cur) fsr vs with ⟨fs1, vs1, res1⟩
        rw [hb] at heq
        cases res1 with
        | some evres =>
          obtain ⟨ev, res⟩ := evres
          simp at heq
        | none =>
          simp only at heq
          rcases hb2 : bexpList g vs1 path2 (g.adj cur2) fgr vg with
            ⟨fg1, vg1, res2⟩
          rw [hb2] at heq
          cases res2 with
          | some evres2 =>
            obtain ⟨ev2, res3⟩ := evres2
            simp at heq
          | none =>
            simp only at heq
            exact ih fs1 fg1 vs1 vg1 _ fsF fgF heq

theorem bidirLoop_noExhaust {g : Graph} (hwf : g.WF) :
    ∀ fuel fs fg vs vg evs,
      fs.length + (g.nodes.toFinset \ (vs.map Prod.fst).toFinset).card < fuel →
      (bidirLoop g fuel fs fg vs vg evs).2 ≠ none := by
  intro fuel
  induction fuel with
  | zero =>
    intro fs fg vs vg evs hm
    omega
  | succ n ih =>
    intro fs fg vs vg evs hm
    cases fs with
    | nil => simp [bidirLoop]
    | cons e fsr =>
      obtain ⟨cur, path⟩ := e
      cases fg with
      | nil => simp [bidirLoop]
      | cons e2 fgr =>
        obtain ⟨cur2, path2⟩ := e2
        rw [bidirLoop]
        simp only
        rcases hb : bexpList g vg path (g.adj cur) fsr vs with ⟨fs1, vs1, res1⟩
        cases res1 with
        | some evres =>
          obtain ⟨ev, res⟩ := evres
          simp
        | none =>
          simp only
          rcases hb2 : bexpList g vs1 path2 (g.adj cur2) fgr vg with
            ⟨fg1, vg1, res2⟩
          cases res2 with
          | some evres2 =>
            obtain ⟨ev2, res3⟩ := evres2
            simp
          | none =>
            simp only
            refine ih fs1 fg1 vs1 vg1 _ ?_
            have hstep := bexpList_measure (g.adj cur) fsr vs fs1 vs1
              (fun b hb3 => hwf.2 cur b hb3) hb
            simp only [List.length_cons] at hm
            omega

theorem bidirLoop_sound {g : Graph} (hsym : g.Sym) {s t : Nat} :
    ∀ fuel fs fg vs vg evs,
      (∀ n q, alook vs n = some q → IsPath g q s n) →
      (∀ n q, alook vg n = some q → IsPath g q t n) →
      (∀ e ∈ fs, IsPath g e.2 s e.1) →
      (∀ e ∈ fg, IsPath g e.2 t e.1) →
      ∀ r fsF fgF,
        (bidirLoop g fuel fs fg vs vg evs).2 = some (some r, fsF, fgF) →
        IsPath g r s t ∨ IsPath g r t s := by
  intro fuel
  induction fuel with
  | zero =>
    intro fs fg vs vg evs hVS hVG hFS hFG r fsF fgF heq
    simp [bidirLoop] at heq
  | succ n ih =>
    intro fs fg vs vg evs hVS hVG hFS hFG r fsF fgF heq
    cases fs with
    | nil =>
      simp only [bidirLoop] at heq
      simp at heq
    | cons e fsr =>
      obtain ⟨cur, path⟩ := e
      cases fg with
      | nil =>
        simp only [bidirLoop] at heq
        simp at heq
      | cons e2 fgr =>
        obtain ⟨cur2, path2⟩ := e2
        rw [bidirLoop] at heq
        simp only at heq
        have hpc : IsPath g path s cur := hFS (cur, path) (List.mem_cons_self _ _)
        have hpc2 : IsPath g path2 t cur2 :=
          hFG (cur2, path2) (List.mem_cons_self _ _)
        rcases hb : bexpList g vg path (g.adj cur) fsr vs with ⟨fs1, vs1, res1⟩
        rw [hb] at heq
        cases res1 with
        | some evres =>
          obtain ⟨ev, res⟩ := evres
          simp only [Option.some.injEq, Prod.mk.injEq] at heq
          obtain ⟨hres, -, -⟩ := heq
          obtain ⟨nb, hnb, pOther, hpO, hres2⟩ :=
            bexpList_meet (g.adj cur) fsr vs fs1 vs1 ev res hb
          left
          rw [← hres, hres2]
          exact meet_path hsym (isPath_snoc hpc hnb) (hVG nb pOther hpO)
        | none =>
          simp only at heq
          obtain ⟨hVS1, hFS1⟩ := bexpList_valid hpc (g.adj cur) fsr vs fs1 vs1
            none (fun b hb3 => hb3) hb hVS
            (fun e he => hFS e (List.mem_cons_of_mem _ he))
          rcases hb2 : bexpList g vs1 path2 (g.adj cur2) fgr vg with
            ⟨fg1, vg1, res2⟩
          rw [hb2] at heq
          cases res2 with
          | some evres2 =>
            obtain ⟨ev2, res3⟩ := evres2
            simp only [Option.some.injEq, Prod.mk.injEq] at heq
            obtain ⟨hres, -, -⟩ := heq
            obtain ⟨nb, hnb, pOther, hpO, hres2⟩ :=
              bexpList_meet (g.adj cur2) fgr vg fg1 vg1 ev2 res3 hb2
            right
            rw [← hres, hres2]
            exact meet_path hsym (isPath_snoc hpc2 hnb) (hVS1 nb pOther hpO)
          | none =>
            simp only at heq
            obtain ⟨hVG1, hFG1⟩ := bexpList_valid hpc2 (g.adj cur2) fgr vg
              fg1 vg1 none (fun b hb3 => hb3) hb2 hVG
              (fun e he => hFG e (List.mem_cons_of_mem _ he))
            exact ih fs1 fg1 vs1 vg1 _ hVS1 hVG1 hFS1 hFG1 r fsF fgF heq

theorem bidirLoop_complete {g : Graph} (hsym : g.Sym) {s t : Nat}
    (hr : Reachable g s t) :
    ∀ fuel fs fg vs vg evs,
      (∀ n, (alook vs n).isSome → (alook vg n).isSome → False) →
      (alook vs s).isSome →
      (alook vg t).isSome →
      (∀ u, (alook vs u).isSome → (∃ p, (u, p) ∈ fs) ∨
        ∀ b ∈ g.adj u, (alook vs b).isSome) →
      (∀ u, (alook vg u).isSome → (∃ p, (u, p) ∈ fg) ∨
        ∀ b ∈ g.adj u, (alook vg b).isSome) →
      ∀ fsF fgF, (bidirLoop g fuel fs fg vs vg evs).2 ≠ some (none, fsF, fgF) := by
  intro fuel
  induction fuel with
  | zero =>
    intro fs fg vs vg evs hD hSs hGt hIS hIG fsF fgF heq
    simp [bidirLoop] at heq
  | succ n ih =>
    intro fs fg vs vg evs hD hSs hGt hIS hIG fsF fgF heq
    cases fs with
    | nil =>
      have hcl : ∀ u, (alook vs u).isSome → ∀ b ∈ g.adj u,
          (alook vs b).isSome := by
        intro u hu
        rcases hIS u hu with ⟨p, hp⟩ | h2
        · exact absurd hp (List.not_mem_nil _)
        · exact h2
      obtain ⟨p0, hp0⟩ := hr
      exact hD t (chain_in_closed hcl p0 s t hp0 hSs) hGt
    | cons e fsr =>
      obtain ⟨cur, path⟩ := e
      cases fg with
      | nil =>
        have hcl : ∀ u, (alook vg u).isSome → ∀ b ∈ g.adj u,
            (alook vg b).isSome := by
          intro u hu
          rcases hIG u hu with ⟨p, hp⟩ | h2
          · exact absurd hp (List.not_mem_nil _)
          · exact h2
        obtain ⟨p0, hp0⟩ := hr
        exact hD s hSs
          (chain_in_closed hcl p0.reverse t s (isPath_reverse hsym hp0) hGt)
      | cons e2 fgr =>
        obtain ⟨cur2, path2⟩ := e2
        rw [bidirLoop] at heq
        simp only at heq
        rcases hb : bexpList g vg path (g.adj cur) fsr vs with ⟨fs1, vs1, res1⟩
        rw [hb] at heq
        cases res1 with
        | some evres =>
          obtain ⟨ev, res⟩ := evres
          simp at heq
        | none =>
          simp only at heq
          have hSs1 : (alook vs1 s).isSome := by
            have h2 := @bexpList_mono g vg path (g.adj cur) fsr vs s hSs
            rw [hb] at h2
            exact h2
          have hD1 : ∀ m, (alook vs1 m).isSome → (alook vg m).isSome → False := by
            intro m h1 h2
            rcases bexpList_new (g.adj cur) fsr vs fs1 vs1 hb m h1 with
              hold | ⟨hnone, -⟩
            · exact hD m hold h2
            · rw [hnone] at h2
              simp at h2
          have hIS1 : ∀ u, (alook vs1 u).isSome → (∃ p, (u, p) ∈ fs1) ∨
              ∀ b ∈ g.adj u, (alook vs1 b).isSome := by
            intro u hu
            rcases bexpList_new (g.adj cur) fsr vs fs1 vs1 hb u hu with
              hold | ⟨-, p, hp⟩
            · rcases hIS u hold with ⟨p, hp⟩ | hcl
              · rcases List.mem_cons.mp hp with hp1 | hp1
                · right
                  have hu2 : u = cur := congrArg Prod.fst hp1
                  intro b hb2
                  refine bexpList_processed (g.adj cur) fsr vs fs1 vs1 hb b ?_
                  rw [← hu2]
                  exact hb2
                · left
                  refine ⟨p, ?_⟩
                  have h2 := @bexpList_fr_mono g vg path
                    (g.adj cur) fsr vs (u, p) hp1
                  rw [hb] at h2
                  exact h2
              · right
                intro b hb2
                have h2 := @bexpList_mono g vg path
                  (g.adj cur) fsr vs b (hcl b hb2)
                rw [hb] at h2
                exact h2
            · exact Or.inl ⟨p, hp⟩
          rcases hb2 : bexpList g vs1 path2 (g.adj cur2) fgr vg with
            ⟨fg1, vg1, res2⟩
          rw [hb2] at heq
          cases res2 with
          | some evres2 =>
            obtain ⟨ev2, res3⟩ := evres2
            simp at heq
          | none =>
            simp only at heq
            have hGt1 : (alook vg1 t).isSome := by
              have h2 := @bexpList_mono g vs1 path2 (g.adj cur2) fgr vg t hGt
              rw [hb2] at h2
              exact h2
            have hD2 : ∀ m, (alook vs1 m).isSome → (alook vg1 m).isSome →
                False := by
              intro m h1 h2
              rcases bexpList_new (g.adj cur2) fgr vg fg1 vg1 hb2 m h2 with
                hold | ⟨hnone, -⟩
              · exact hD1 m h1 hold
              · rw [hnone] at h1
                simp at h1
            have hIG1 : ∀ u, (alook vg1 u).isSome → (∃ p, (u, p) ∈ fg1) ∨
                ∀ b ∈ g.adj u, (alook vg1 b).isSome := by
              intro u hu
              rcases bexpList_new (g.adj cur2) fgr vg fg1 vg1 hb2 u hu with
                hold | ⟨-, p, hp⟩
              · rcases hIG u hold with ⟨p, hp⟩ | hcl
                · rcases List.mem_cons.mp hp with hp1 | hp1
                  · right
                    have hu2 : u = cur2 := congrArg Prod.fst hp1
                    intro b hb3
                    refine bexpList_processed (g.adj cur2) fgr vg fg1 vg1 hb2
                      b ?_
                    rw [← hu2]
                    exact hb3
                  · left
                    refine ⟨p, ?_⟩
                    have h2 := @bexpList_fr_mono g vs1 path2
                      (g.adj cur2) fgr vg (u, p) hp1
                    rw [hb2] at h2
                    exact h2
                · right
                  intro b hb3
                  have h2 := @bexpList_mono g vs1 path2
                    (g.adj cur2) fgr vg b (hcl b hb3)
                  rw [hb2] at h2
                  exact h2
              · exact Or.inl ⟨p, hp⟩
            have hIS2 : ∀ u, (alook vs1 u).isSome → (∃ p, (u, p) ∈ fs1) ∨
                ∀ b ∈ g.adj u, (alook vs1 b).isSome := hIS1
            exact ih fs1 fg1 vs1 vg1 _ hD2 hSs1 hGt1 hIS2 hIG1 fsF fgF heq

theorem alook_single_valid {g : Graph} (s : Nat) :
    ∀ n q, alook [(s, [s])] n = some q → IsPath g q s n := by
  intro n q hq
  simp only [alook] at hq
  by_cases hn : n = s
  · rw [if_pos hn] at hq
    have h2 := Option.some.inj hq
    rw [← h2, hn]
    exact isPath_single g s
  · rw [if_neg hn] at hq
    simp at hq

theorem bidir_init_inv (g : Graph) (s : Nat) :
    ∀ u, (alook [(s, [s])] u).isSome →
      (∃ p, (u, p) ∈ ([(s, [s])] : List Entry2)) ∨
      ∀ b ∈ g.adj u, (alook [(s, [s])] b).isSome := by
  intro u hu
  simp only [alook] at hu
  by_cases hu2 : u = s
  · left
    refine ⟨[s], ?_⟩
    rw [hu2]
    exact List.mem_singleton.mpr rfl
  · rw [if_neg hu2] at hu
    simp at hu

theorem bidir_init_measure (g : Graph) (s : Nat) :
    ([(s, [s])] : List Entry2).length +
      (g.nodes.toFinset \
        (([(s, [s])] : List (Nat × List Nat)).map Prod.fst).toFinset).card <
      bidirFuel g := by
  have hkeys : (([(s, [s])] : List (Nat × List Nat)).map Prod.fst).toFinset =
      ({s} : Finset Nat) := by
    simp
  rw [hkeys]
  have hle : (g.nodes.toFinset \ ({s} : Finset Nat)).card ≤
      g.nodes.toFinset.card := Finset.card_le_card Finset.sdiff_subset
  have hcard : g.nodes.toFinset.card = g.nodes.dedup.length :=
    List.card_toFinset _
  simp only [List.length_singleton, bidirFuel]
  omega

theorem bidir_init_disj {s t : Nat} (hst : s ≠ t) :
    ∀ n, (alook [(s, [s])] n).isSome → (alook [(t, [t])] n).isSome → False := by
  intro n h1 h2
  simp only [alook] at h1 h2
  by_cases hn : n = s
  · rw [hn, if_neg hst] at h2
    simp at h2
  · rw [if_neg hn] at h1
    simp at h1

theorem bidir_complete {g : Graph} (hwf : g.WF) (hsym : g.Sym) {s t : Nat}
    (hst : s ≠ t) (hr : Reachable g s t) (h : Nat → Nat) :
    ∃ r fsF fgF, (bidirRun g s t h).2 = some (some r, fsF, fgF) ∧
      (IsPath g r s t ∨ IsPath g r t s) := by
  rcases ho : (bidirRun g s t h).2 with - | ⟨ro, fsF, fgF⟩
  · exact absurd ho (bidirLoop_noExhaust hwf (bidirFuel g) _ _ _ _ _
      (bidir_init_measure g s))
  · cases ro with
    | none =>
      exact absurd ho (bidirLoop_complete hsym hr (bidirFuel g) _ _ _ _ _
        (bidir_init_disj hst) (by simp [alook]) (by simp [alook])
        (bidir_init_inv g s) (bidir_init_inv g t) fsF fgF)
    | some r =>
      refine ⟨r, fsF, fgF, rfl, ?_⟩
      refine bidirLoop_sound hsym (bidirFuel g) _ _ _ _ _
        (alook_single_valid s) (alook_single_valid t) ?_ ?_ r fsF fgF ho
      · intro e he
        rw [List.mem_singleton.mp he]
        exact isPath_single g s
      · intro e he
        rw [List.mem_singleton.mp he]
        exact isPath_single g t

theorem bidir_none_of_unreachable {g : Graph} (hwf : g.WF) (hsym : g.Sym)
    {s t : Nat} (hur : ¬Reachable g s t) (h : Nat → Nat) :
    ∃ fsF fgF, (bidirRun g s t h).2 = some (none, fsF, fgF) ∧
      (fsF = [] ∨ fgF = []) := by
  rcases ho : (bidirRun g s t h).2 with - | ⟨ro, fsF, fgF⟩
  · exact absurd ho (bidirLoop_noExhaust hwf (bidirFuel g) _ _ _ _ _
      (bidir_init_measure g s))
  · cases ro with
    | none =>
      exact ⟨fsF, fgF, rfl, bidirLoop_exit (bidirFuel g) _ _ _ _ _ fsF fgF ho⟩
    | some r =>
      exfalso
      have hs := bidirLoop_sound hsym (bidirFuel g) _ _ _ _ _
        (alook_single_valid s) (alook_single_valid t)
        (by
          intro e he
          rw [List.mem_singleton.mp he]
          exact isPath_single g s)
        (by
          intro e he
          rw [List.mem_singleton.mp he]
          exact isPath_single g t) r fsF fgF ho
      rcases hs with h1 | h1
      · exact hur ⟨r, h1⟩
      · exact hur ⟨r.reverse, isPath_reverse hsym h1⟩

/-!  ## Helpers for the claim statements  -/

theorem ucsLoop_sound {g : Graph} {s t : Nat} :
    ∀ fuel fr vis evs, (∀ e ∈ fr, IsPath g e.2.2 s e.2.1) →
      ∀ p, (ucsLoop g t fuel fr vis evs).2 = some (some p) → IsPath g p s t := by
  intro fuel
  induction fuel with
  | zero =>
    intro fr vis evs hinv p hp
    simp [ucsLoop] at hp
  | succ n ih =>
    intro fr vis evs hinv p hp
    rw [ucsLoop] at hp
    cases hpop : popMin key3 fr with
    | none =>
      rw [hpop] at hp
      simp at hp
    | some pr =>
      obtain ⟨⟨gc, cur, path⟩, fr2⟩ := pr
      rw [hpop] at hp
      simp only at hp
      by_cases hv : cur ∈ vis
      · rw [if_pos hv] at hp
        exact ih fr2 vis evs (fun e he => hinv e (mem_of_popMin_rest hpop he)) p hp
      · rw [if_neg hv] at hp
        by_cases hg : cur = t
        · rw [if_pos hg] at hp
          simp at hp
          have hpath := hinv (gc, cur, path) (popMin_mem hpop)
          rw [← hp, ← hg]
          exact hpath
        · rw [if_neg hg] at hp
          refine ih _ _ _ ?_ p hp
          intro e he
          rcases List.mem_append.mp he with he1 | he1
          · exact hinv e (mem_of_popMin_rest hpop he1)
          · obtain ⟨nb, hnb, heq⟩ := List.mem_filterMap.mp he1
            by_cases hskip : nb ∈ cur :: vis
            · rw [if_pos hskip] at heq
              exact absurd heq (by simp)
            · rw [if_neg hskip] at heq
              have he2 : e = (gc + g.w cur nb, nb, path ++ [nb]) := by
                simpa using heq.symm
              rw [he2]
              exact isPath_snoc (hinv (gc, cur, path) (popMin_mem hpop)) hnb

theorem ojoin_some {α : Type} {o : Option (Option α)} {a : α}
    (h : o.join = some a) : o = some (some a) := by
  match o with
  | none => simp [Option.join] at h
  | some none => simp [Option.join] at h
  | some (some b) =>
    have h2 : b = a := by simpa [Option.join] using h
    rw [h2]

theorem not_reachable_isolated {g : Graph} {s t : Nat} (ha : g.adj s = [])
    (hst : s ≠ t) : ¬Reachable g s t := by
  rintro ⟨p, hp⟩
  obtain ⟨r, hr⟩ := isPath_head hp
  subst hr
  cases r with
  | nil => exact hst (isPath_single_elim hp).2.symm
  | cons y r2 =>
    obtain ⟨-, hy, -⟩ := isPath_cons_elim hp
    rw [ha] at hy
    exact absurd hy (List.not_mem_nil y)

theorem not_reachable_absent {g : Graph} (hwf : g.WF) {s t : Nat}
    (habs : s ∉ g.nodes ∨ t ∉ g.nodes) (hst : s ≠ t) : ¬Reachable g s t := by
  rintro ⟨p, hp⟩
  have hmem := isPath_nodes_mem hwf hp hst
  rcases habs with h1 | h1
  · exact h1 hmem.1
  · exact h1 hmem.2

theorem exG_wf : exG.WF := by
  constructor
  · intro v hv
    match v with
    | 0 => exact absurd (by decide) hv
    | 1 => exact absurd (by decide) hv
    | 2 => exact absurd (by decide) hv
    | 3 => exact absurd (by decide) hv
    | n + 4 => rfl
  · intro a b hb
    match a with
    | 0 =>
      simp [exG] at hb
      rcases hb with h | h <;> subst h <;> decide
    | 1 =>
      simp [exG] at hb
      rcases hb with h | h <;> subst h <;> decide
    | 2 =>
      simp [exG] at hb
      rcases hb with h | h <;> subst h <;> decide
    | 3 =>
      simp [exG] at hb
      rcases hb with h | h <;> subst h <;> decide
    | n + 4 => simp [exG] at hb

theorem line3_wf : line3.WF := by
  constructor
  · intro v hv
    match v with
    | 0 => exact absurd (by decide) hv
    | 1 => exact absurd (by decide) hv
    | 2 => exact absurd (by decide) hv
    | n + 3 => rfl
  · intro a b hb
    match a with
    | 0 =>
      simp [line3] at hb
      subst hb
      decide
    | 1 =>
      simp [line3] at hb
      rcases hb with h | h <;> subst h <;> decide
    | 2 =>
      simp [line3] at hb
      subst hb
      decide
    | n + 3 => simp [line3] at hb

theorem line3_sym : line3.Sym := by
  intro a b hb
  match a with
  | 0 =>
    simp [line3] at hb
    subst hb
    decide
  | 1 =>
    simp [line3] at hb
    rcases hb with h | h <;> subst h <;> decide
  | 2 =>
    simp [line3] at hb
    subst hb
    decide
  | n + 3 => simp [line3] at hb

theorem gEdge_wf : gEdge.WF := by
  constructor
  · intro v hv
    match v with
    | 0 => exact absurd (by decide) hv
    | 1 => exact absurd (by decide) hv
    | n + 2 => rfl
  · intro a b hb
    match a with
    | 0 =>
      simp [gEdge] at hb
      subst hb
      decide
    | 1 =>
      simp [gEdge] at hb
      subst hb
      decide
    | n + 2 => simp [gEdge] at hb

theorem gEdge_sym : gEdge.Sym := by
  intro a b hb
  match a with
  | 0 =>
    simp [gEdge] at hb
    subst hb
    decide
  | 1 =>
    simp [gEdge] at hb
    subst hb
    decide
  | n + 2 => simp [gEdge] at hb

theorem gTwo_wf : gTwo.WF := by
  constructor
  · intro v hv
    rfl
  · intro a b hb
    simp [gTwo] at hb

theorem gTwo_sym : gTwo.Sym := by
  intro a b hb
  simp [gTwo] at hb

theorem gOne_wf : gOne.WF := by
  constructor
  · intro v hv
    rfl
  · intro a b hb
    simp [gOne] at hb

theorem gOne_sym : gOne.Sym := by
  intro a b hb
  simp [gOne] at hb

/-!  ## Claim theorems  -/

/-- Claim C1: on every well-formed graph in which the goal is reachable from
the start, `ucs` returns a path whose total edge weight (weights defaulting
to 1) is minimal among all start-to-goal paths; in particular on the 4-node
graph `exG` (A-B 1, B-D 1, A-C 5, C-D 1) it returns `[A, B, D]` with total
cost 2 and never `[A, C, D]`. -/
theorem claim_C1 :
    (∀ (g : Graph) (s t : Nat) (h : Nat → Nat), g.WF → Reachable g s t →
      ∃ p, ucs g s t h = some p ∧ IsPath g p s t ∧
        ∀ q, IsPath g q s t → cost g p ≤ cost g q) ∧
    ucs exG 0 3 zeroH = some [0, 1, 3] ∧ cost exG [0, 1, 3] = 2 ∧
    ucs exG 0 3 zeroH ≠ some [0, 2, 3] := by
  refine ⟨?_, by decide, by decide, by decide⟩
  intro g s t h hwf hr
  obtain ⟨p, hp, hpath, hcost⟩ := ucs_optimal hwf hr h
  refine ⟨p, ?_, hpath, ?_⟩
  · rw [ucs, hp]
    rfl
  · intro q hq
    rw [hcost]
    exact dist_le hq

/-- Witness for C1 at the path graph `line3`. -/
theorem claim_C1_witness : ∃ p, ucs line3 0 2 zeroH = some p ∧
    IsPath line3 p 0 2 ∧
    ∀ q, IsPath line3 q 0 2 → cost line3 p ≤ cost line3 q :=
  claim_C1.1 line3 0 2 zeroH line3_wf ⟨[0, 1, 2], by decide⟩

/-- Claim C2: on every well-formed graph, for every admissible heuristic
(never exceeding the cost of any remaining path to the goal; non-negativity
is inherent to `Nat`), if the goal is reachable then `a_star` returns a path
of minimal total edge weight among all start-to-goal paths. -/
theorem claim_C2 : ∀ (g : Graph) (s t : Nat) (h : Nat → Nat), g.WF →
    (∀ v σ, IsPath g σ v t → h v ≤ cost g σ) → Reachable g s t →
    ∃ p, a_star g s t h = some p ∧ IsPath g p s t ∧
      ∀ q, IsPath g q s t → cost g p ≤ cost g q := by
  intro g s t h hwf hAdm hr
  obtain ⟨p, hp, hpath, hcost⟩ := a_star_optimal hwf hAdm hr
  refine ⟨p, ?_, hpath, ?_⟩
  · rw [a_star, hp]
    rfl
  · intro q hq
    rw [hcost]
    exact dist_le hq

/-- Witness for C2 on `exG` with the zero heuristic. -/
theorem claim_C2_witness : ∃ p, a_star exG 0 3 zeroH = some p ∧
    IsPath exG p 0 3 ∧ ∀ q, IsPath exG q 0 3 → cost exG p ≤ cost exG q :=
  claim_C2 exG 0 3 zeroH exG_wf (fun v σ hσ => Nat.zero_le _)
    ⟨[0, 1, 3], by decide⟩

/-- Claim C3 (corrected): whenever `dfs`, `iterative_deepening_dfs`, `bfs`,
`ucs`, `greedy_search` or `a_star` returns a path, it is a valid
start-to-goal path (consecutive nodes adjacent, head = start,
last = goal) on every graph; `bidirectional_search` instead returns, on
symmetric graphs, a path that is valid either from start to goal or from
goal to start — the spec's claim that the first node always equals the
start fails on backward-turn meetings. -/
theorem claim_C3 :
    (∀ (g : Graph) (s t : Nat) (h : Nat → Nat) (p : List Nat),
      dfs g s t h = some p → IsPath g p s t) ∧
    (∀ (g : Graph) (s t : Nat) (p : List Nat),
      IDDFSReturns g s t p → IsPath g p s t) ∧
    (∀ (g : Graph) (s t : Nat) (h : Nat → Nat) (p : List Nat),
      bfs g s t h = some p → IsPath g p s t) ∧
    (∀ (g : Graph) (s t : Nat) (h : Nat → Nat) (p : List Nat),
      ucs g s t h = some p → IsPath g p s t) ∧
    (∀ (g : Graph) (s t : Nat) (h : Nat → Nat) (p : List Nat),
      greedy_search g s t h = some p → IsPath g p s t) ∧
    (∀ (g : Graph) (s t : Nat) (h : Nat → Nat) (p : List Nat),
      a_star g s t h = some p → IsPath g p s t) ∧
    (∀ (g : Graph) (s t : Nat) (h : Nat → Nat) (p : List Nat), g.Sym →
      bidirectional_search g s t h = some p →
      IsPath g p s t ∨ IsPath g p t s) := by
  refine ⟨?_, ?_, ?_, ?_, ?_, ?_, ?_⟩
  · intro g s t h p hp
    rw [dfs] at hp
    exact dfsLoop_sound (dfsFuel g) [(s, [s])] [] [] (by simp [isPath_single])
      p (ojoin_some hp)
  · intro g s t p hp
    exact iddfs_returns_sound hp
  · intro g s t h p hp
    rw [bfs] at hp
    exact bfsLoop_sound (bfsFuel g) [(s, [s])] [] [] (by simp [isPath_single])
      p (ojoin_some hp)
  · intro g s t h p hp
    rw [ucs] at hp
    refine ucsLoop_sound (ucsFuel g) [(0, s, [s])] [] [] ?_ p (ojoin_some hp)
    intro e he
    simp at he
    rw [he]
    exact isPath_single g s
  · intro g s t h p hp
    rw [greedy_search] at hp
    refine greedyLoop_sound (greedyFuel g) [(h s, s, [s])] [] [] ?_ p
      (ojoin_some hp)
    intro e he
    simp at he
    rw [he]
    exact isPath_single g s
  · intro g s t h p hp
    rw [a_star] at hp
    refine aLoop_sound (aFuel g s) [(0 + h s, 0, s, [s])] [] [] ?_ p
      (ojoin_some hp)
    intro e he
    simp at he
    rw [he]
    exact isPath_single g s
  · intro g s t h p hsym hp
    unfold bidirectional_search at hp
    rcases ho : (bidirRun g s t h).2 with - | ⟨ro, fsF, fgF⟩
    · rw [ho] at hp
      simp at hp
    · rw [ho] at hp
      simp only at hp
      refine bidirLoop_sound hsym (bidirFuel g) [(s, [s])] [(t, [t])]
        [(s, [s])] [(t, [t])] []
        (alook_single_valid s) (alook_single_valid t) ?_ ?_ p fsF fgF ?_
      · intro e he
        rw [List.mem_singleton.mp he]
        exact isPath_single g s
      · intro e he
        rw [List.mem_singleton.mp he]
        exact isPath_single g t
      · show (bidirRun g s t h).2 = some (some p, fsF, fgF)
        rw [ho, hp]

/-- Witness for C3: a forward `dfs` result and a backward-meeting
`bidirectional_search` result on `line3`. -/
theorem claim_C3_witness : IsPath line3 [0, 1, 2] 0 2 ∧
    (IsPath line3 [2, 1, 0] 0 2 ∨ IsPath line3 [2, 1, 0] 2 0) :=
  ⟨claim_C3.1 line3 0 2 zeroH [0, 1, 2] (by decide),
    claim_C3.2.2.2.2.2.2 line3 0 2 zeroH [2, 1, 0] line3_sym (by decide)⟩

/-- Counterexample for C3 as frozen: on the path graph `0 - 1 - 2`,
`bidirectional_search` from 0 to 2 meets on the backward turn and returns
`[2, 1, 0]`, which is not a path whose first node is the start 0 and whose
last node is the goal 2. -/
theorem claim_C3_cex : bidirectional_search line3 0 2 zeroH = some [2, 1, 0] ∧
    ¬IsPath line3 [2, 1, 0] 0 2 := by decide

/-- Claim C4 (corrected): on every well-formed symmetric graph with the goal
unreachable from the start, `dfs`, `bfs`, `ucs`, `greedy_search`, `a_star`
and `bidirectional_search` all terminate with the no-path result, while
`iterative_deepening_dfs` never terminates — even on finite graphs its
unbounded deepening loop yields no result at any depth, contrary to the
spec's assertion that it terminates on finite graphs. -/
theorem claim_C4 : ∀ (g : Graph) (s t : Nat) (h : Nat → Nat), g.WF → g.Sym →
    ¬Reachable g s t →
    dfs g s t h = none ∧ bfs g s t h = none ∧ ucs g s t h = none ∧
    greedy_search g s t h = none ∧ a_star g s t h = none ∧
    bidirectional_search g s t h = none ∧ IDDFSDiverges g s t := by
  intro g s t h hwf hsym hur
  refine ⟨?_, ?_, ?_, ?_, ?_, ?_, iddfs_diverges_of_unreachable hur⟩
  · rw [dfs, dfs_none_of_unreachable hwf hur h]
    rfl
  · rw [bfs, bfs_none_of_unreachable hwf hur h]
    rfl
  · rw [ucs, ucs_none_of_unreachable hwf hur h]
    rfl
  · rw [greedy_search, greedy_none_of_unreachable hwf hur h]
    rfl
  · rw [a_star, a_star_none_of_unreachable hwf hur h]
    rfl
  · obtain ⟨fsF, fgF, ho, -⟩ := bidir_none_of_unreachable hwf hsym hur h
    unfold bidirectional_search
    rw [ho]

/-- Witness for C4 on the two isolated nodes `gTwo`. -/
theorem claim_C4_witness : dfs gTwo 0 1 zeroH = none ∧
    bfs gTwo 0 1 zeroH = none ∧ ucs gTwo 0 1 zeroH = none ∧
    greedy_search gTwo 0 1 zeroH = none ∧ a_star gTwo 0 1 zeroH = none ∧
    bidirectional_search gTwo 0 1 zeroH = none ∧ IDDFSDiverges gTwo 0 1 :=
  claim_C4 gTwo 0 1 zeroH gTwo_wf gTwo_sym
    (not_reachable_isolated rfl (by decide))

/-- Counterexample for C4 as frozen: on the finite graph of two isolated
nodes, the unbounded deepening loop of `iterative_deepening_dfs` from 0 to 1
produces no result after any number of outer iterations, so the strategy
does not terminate with the no-path result on this finite graph. -/
theorem claim_C4_cex : IDDFSDiverges gTwo 0 1 :=
  iddfs_diverges_of_unreachable (not_reachable_isolated rfl (by decide))

/-- Claim C5 (corrected): on every well-formed symmetric graph with the goal
reachable from a distinct start, `bidirectional_search` returns a path that
is valid in one of the two directions; the spec's further assertion that its
node length always equals that of the `bfs` result is false, as is the
start = goal case. -/
theorem claim_C5 : ∀ (g : Graph) (s t : Nat) (h : Nat → Nat), g.WF → g.Sym →
    Reachable g s t → s ≠ t →
    ∃ r, bidirectional_search g s t h = some r ∧
      (IsPath g r s t ∨ IsPath g r t s) := by
  intro g s t h hwf hsym hr hst
  obtain ⟨r, fsF, fgF, ho, hvalid⟩ := bidir_complete hwf hsym hst hr h
  refine ⟨r, ?_, hvalid⟩
  unfold bidirectional_search
  rw [ho]

/-- Witness for C5 on the single edge `gEdge`. -/
theorem claim_C5_witness : ∃ r, bidirectional_search gEdge 0 1 zeroH = some r ∧
    (IsPath gEdge r 0 1 ∨ IsPath gEdge r 1 0) :=
  claim_C5 gEdge 0 1 zeroH gEdge_wf gEdge_sym ⟨[0, 1], by decide⟩ (by decide)

/-- Counterexample for C5 as frozen: on the 7-node graph `gSeven`
`bidirectional_search` returns a 5-node path while `bfs` returns a 4-node
path, and with start = goal on `gEdge` it returns `[0, 1, 0]` while `bfs`
returns `[0]`. -/
theorem claim_C5_cex :
    bidirectional_search gSeven 0 1 zeroH = some [1, 6, 5, 4, 0] ∧
    bfs gSeven 0 1 zeroH = some [0, 2, 3, 1] ∧
    ([1, 6, 5, 4, 0] : List Nat).length ≠ ([0, 2, 3, 1] : List Nat).length ∧
    bidirectional_search gEdge 0 0 zeroH = some [0, 1, 0] ∧
    bfs gEdge 0 0 zeroH = some [0] := by decide

/-- Claim C6 (corrected): on well-formed symmetric graphs, when the start or
the goal node is absent and they differ, every looping strategy terminates
with the no-path result and no error; but the frozen claim's further
assertions fail: with an absent start equal to the goal the searches return
the single-node path rather than no-path, and an absent goal does not
prevent expansion events from being emitted. -/
theorem claim_C6 : ∀ (g : Graph) (s t : Nat) (h : Nat → Nat), g.WF → g.Sym →
    (s ∉ g.nodes ∨ t ∉ g.nodes) → s ≠ t →
    dfs g s t h = none ∧ bfs g s t h = none ∧ ucs g s t h = none ∧
    greedy_search g s t h = none ∧ a_star g s t h = none ∧
    bidirectional_search g s t h = none := by
  intro g s t h hwf hsym habs hst
  have hur := not_reachable_absent hwf habs hst
  refine ⟨?_, ?_, ?_, ?_, ?_, ?_⟩
  · rw [dfs, dfs_none_of_unreachable hwf hur h]
    rfl
  · rw [bfs, bfs_none_of_unreachable hwf hur h]
    rfl
  · rw [ucs, ucs_none_of_unreachable hwf hur h]
    rfl
  · rw [greedy_search, greedy_none_of_unreachable hwf hur h]
    rfl
  · rw [a_star, a_star_none_of_unreachable hwf hur h]
    rfl
  · obtain ⟨fsF, fgF, ho, -⟩ := bidir_none_of_unreachable hwf hsym hur h
    unfold bidirectional_search
    rw [ho]

/-- Witness for C6: searching from the present node 0 of `gOne` for the
absent goal 5. -/
theorem claim_C6_witness : dfs gOne 0 5 zeroH = none ∧
    bfs gOne 0 5 zeroH = none ∧ ucs gOne 0 5 zeroH = none ∧
    greedy_search gOne 0 5 zeroH = none ∧ a_star gOne 0 5 zeroH = none ∧
    bidirectional_search gOne 0 5 zeroH = none :=
  claim_C6 gOne 0 5 zeroH gOne_wf gOne_sym (Or.inr (by decide)) (by decide)

/-- Counterexample for C6 as frozen: with start = goal = 5 absent from
`gOne`, `dfs` returns the path `[5]` rather than the no-path result, and
with the absent goal 5 on `gEdge`, `dfs` emits two expansion events before
returning no-path, so the loop does not terminate without expansion. -/
theorem claim_C6_cex : (5 : Nat) ∉ gOne.nodes ∧
    dfs gOne 5 5 zeroH = some [5] ∧ (5 : Nat) ∉ gEdge.nodes ∧
    (dfsRun gEdge 0 5 zeroH).2 = some none ∧
    (dfsRun gEdge 0 5 zeroH).1.length = 2 := by decide

/-- Claim C7 (corrected): `bidirectional_search` reports no-path exactly when
its loop exits with AT LEAST ONE exhausted frontier — the frozen claim that
both frontiers must be simultaneously empty is false, since the `while`
condition stops as soon as either side empties. -/
theorem claim_C7 : ∀ (g : Graph) (s t : Nat) (h : Nat → Nat)
    (fsF fgF : List Entry2),
    (bidirRun g s t h).2 = some (none, fsF, fgF) → fsF = [] ∨ fgF = [] := by
  intro g s t h fsF fgF heq
  exact bidirLoop_exit (bidirFuel g) _ _ _ _ _ fsF fgF heq

/-- Witness for C7 on `gSplit`. -/
theorem claim_C7_witness :
    ([] : List Entry2) = [] ∨ [((2 : Nat), [1, 2])] = ([] : List Entry2) :=
  claim_C7 gSplit 0 1 zeroH [] [(2, [1, 2])] (by decide)

/-- Counterexample for C7 as frozen: on `gSplit` (isolated 0, edge 1 - 2)
the search from 0 to 1 returns no-path with the forward frontier empty while
the backward frontier still holds the unexplored entry `(2, [1, 2])`. -/
theorem claim_C7_cex :
    (bidirRun gSplit 0 1 zeroH).2 = some (none, [], [(2, [1, 2])]) ∧
    ([((2 : Nat), [1, 2])] : List Entry2) ≠ [] := by decide

/-- Claim C8: for every graph, start, goal and heuristic, the expansion-event
sequences of `dfs`, `bfs`, `ucs` and `greedy_search` never repeat a node,
and in the `a_star` event sequence any later event for the same node carries
a g-cost no greater than every earlier one. -/
theorem claim_C8 : ∀ (g : Graph) (s t : Nat) (h : Nat → Nat),
    ((dfsRun g s t h).1.map Event.node).Nodup ∧
    ((bfsRun g s t h).1.map Event.node).Nodup ∧
    ((ucsRun g s t h).1.map Event.node).Nodup ∧
    ((greedyRun g s t h).1.map Event.node).Nodup ∧
    (aRun g s t h).1.Pairwise (fun e1 e2 => e1.node = e2.node →
      ∀ g1 g2, e1.gval = some g1 → e2.gval = some g2 → g2 ≤ g1) := by
  intro g s t h
  refine ⟨dfsLoop_events (dfsFuel g) [(s, [s])] [] [] (by simp) (by simp),
    bfsLoop_events (bfsFuel g) [(s, [s])] [] [] (by simp) (by simp),
    ucsLoop_events (ucsFuel g) [(0, s, [s])] [] [] (by simp) (by simp),
    greedyLoop_events (greedyFuel g) [(h s, s, [s])] [] [] (by simp) (by simp),
    ?_⟩
  have h2 := aLoop_events (g := g) (t := t) (h := h) (aFuel g s)
    [(0 + h s, 0, s, [s])] [] [] (by simp) (by simp)
  exact h2.imp (fun hlt hnode g1 g2 hg1 hg2 => le_of_lt (hlt hnode g1 g2 hg1 hg2))

/-- Claim C9: on every well-formed graph with the goal reachable, `bfs`
returns a path with the minimum possible number of nodes — hence of
edges — among all start-to-goal paths (the edge weights, all 1 on an
unweighted graph, are ignored by `bfs`). -/
theorem claim_C9 : ∀ (g : Graph) (s t : Nat) (h : Nat → Nat), g.WF →
    (∀ a b, g.w a b = 1) → Reachable g s t →
    ∃ p, bfs g s t h = some p ∧ IsPath g p s t ∧
      ∀ q, IsPath g q s t → p.length ≤ q.length := by
  intro g s t h hwf hunit hr
  obtain ⟨p, hp, hpath, hlen⟩ := bfs_optimal hwf hr h
  refine ⟨p, ?_, hpath, ?_⟩
  · rw [bfs, hp]
    rfl
  · intro q hq
    have h2 := edist_le hq
    omega

/-- Witness for C9 on the unweighted path graph `line3`. -/
theorem claim_C9_witness : ∃ p, bfs line3 0 2 zeroH = some p ∧
    IsPath line3 p 0 2 ∧ ∀ q, IsPath line3 q 0 2 → p.length ≤ q.length :=
  claim_C9 line3 0 2 zeroH line3_wf (fun a b => rfl) ⟨[0, 1, 2], by decide⟩

/-- Claim C10: with start = goal = s, each of `dfs`, `bfs`, `ucs`,
`greedy_search` and `a_star` returns the single-node path `[s]` after
exactly one expansion event, on every graph and heuristic, while
`bidirectional_search` behaves differently (on the single edge `gEdge` with
start = goal = 0 it returns `[0, 1, 0]`). -/
theorem claim_C10 : (∀ (g : Graph) (s : Nat) (h : Nat → Nat),
    dfsRun g s s h = ([⟨s, none, none, [s]⟩], some (some [s])) ∧
    bfsRun g s s h = ([⟨s, none, none, [s]⟩], some (some [s])) ∧
    ucsRun g s s h = ([⟨s, some 0, none, [s]⟩], some (some [s])) ∧
    greedyRun g s s h = ([⟨s, none, some (h s), [s]⟩], some (some [s])) ∧
    aRun g s s h = ([⟨s, some 0, some (h s), [s]⟩], some (some [s]))) ∧
    bidirectional_search gEdge 0 0 zeroH = some [0, 1, 0] := by
  refine ⟨?_, by decide⟩
  intro g s h
  exact ⟨dfsRun_self g s h, bfsRun_self g s h, ucsRun_self g s h,
    greedyRun_self g s h, aRun_self g s h⟩

end JeLib
